import Mathlib

/-! # TemplateCreator: mixed-radix FFT (`fft.cpp`) and the search for good transform lengths

A shallow embedding of `src/fft.cpp` and the properties proved about it.

* `int` arrays with a running counter (`factors[1..j]`) are lists; the list of
  `factorize` keeps the most recently stored factor at its head, so that the list
  read from the head is `fact[1], fact[2], ..., fact[nFact]`.
* The stage tables `sofar`, `actual`, `remain` are functions of the (1-based) index.
* The size search works on `int`: its arithmetic is wrapped to 32 bits (`wrapInt`),
  and a loop that does not end yields `none`.
* The `double` arithmetic of the transform is read over the real numbers; `xRe[]`,
  `xIm[]` and the other pairs of arrays are pairs of functions of the index (`CArr`),
  and the `static` variables of the file are passed along explicitly (`Work`).
* Loops carry a fuel argument (or the number of rounds) on which they recurse;
  every caller passes a bound that the loop cannot exhaust.
-/

namespace FFT

/-! ## Constants -/

/-- Source `#define maxPrimeFactor 37` -/
def maxPrimeFactor : Nat := 37

/-- Source `#define maxFactorCount 20` -/
def maxFactorCount : Nat := 20

/-- Source `radices[1..6]` of `factorize`. -/
def radices : Nat → Nat
  | 1 => 2
  | 2 => 3
  | 3 => 4
  | 4 => 5
  | 5 => 8
  | 6 => 10
  | _ => 0

/-! ## factorize -/

/-- Source `while ((n>1) && (i>0))` of `factorize`: divide by `radices[i]` while it divides,
otherwise step down to the next smaller radix.  Returns the remaining `n` and the
factors found (newest first). -/
def radixLoop : Nat → Nat → Nat → List Nat → Nat × List Nat
  | 0, n, _, factors => (n, factors)
  | fuel + 1, n, i, factors =>
    if 1 < n ∧ 0 < i then
      if n % radices i = 0 then
        radixLoop fuel (n / radices i) i (radices i :: factors)
      else radixLoop fuel n (i - 1) factors
    else (n, factors)

/-- Source `i = j-1; while ((i>0) && (factors[i] != 8)) i--;` followed by `factors[i] = 4`
when an 8 was found: the list is `factors[j-1], ..., factors[1]`, so the first 8
met is the most recently stored one.  `none` when there is no 8 (`i` reached 0). -/
def substEight : List Nat → Option (List Nat)
  | [] => none
  | f :: fs => if f = 8 then some (4 :: fs) else (substEight fs).map (fun r => f :: r)

/-- Source `if (factors[j] == 2) { ... }`: substitute factors 2*8 with 4*4.  For `j = 0`
the source reads `factors[0]`, which holds no factor; whatever its value, `i = -1`
makes both the scan and the `if (i>0)` fall through, so nothing is changed. -/
def rebalance : List Nat → List Nat
  | 2 :: fs =>
    match substEight fs with
    | some fs4 => 4 :: fs4
    | none => 2 :: fs
  | fs => fs

/-- Source `while ((n % k) == 0) { n = n/k; j = j+1; factors[j] = k; }` -/
def divLoop (k : Nat) : Nat → Nat → List Nat → Nat × List Nat
  | 0, n, factors => (n, factors)
  | fuel + 1, n, factors =>
    if n % k = 0 then divLoop k fuel (n / k) (k :: factors) else (n, factors)

/-- Source `for (k=2; k<sqrt(n)+1; k++) while ...`.  For an `int` `n >= 1` and an integer
`k >= 1` the double comparison `k < sqrt(n)+1` holds exactly when `(k-1)^2 < n`
(the square root is correctly rounded and `k-1 <= 46341`). -/
def trialLoop : Nat → Nat → Nat → List Nat → Nat × List Nat
  | 0, _, n, factors => (n, factors)
  | fuel + 1, k, n, factors =>
    if (k - 1) * (k - 1) < n then
      trialLoop fuel (k + 1) (divLoop k n n factors).1 (divLoop k n n factors).2
    else (n, factors)

/-- The `if (n>1) { for ...; if (n>1) {...} }` block of `factorize`. -/
def trialPart (n : Nat) (factors : List Nat) : List Nat :=
  if 1 < n then
    if 1 < (trialLoop n 2 n factors).1 then
      (trialLoop n 2 n factors).1 :: (trialLoop n 2 n factors).2
    else (trialLoop n 2 n factors).2
  else factors

/-- Source `factorize(n, &nFact, fact)`: the returned list is `fact[1], ..., fact[nFact]`
(the reverse of the order of discovery) and `nFact` is its length. -/
def factorize (n : Nat) : List Nat :=
  trialPart (radixLoop (n + 6) n 6 (if n = 1 then [1] else [])).1
    (rebalance (radixLoop (n + 6) n 6 (if n = 1 then [1] else [])).2)

/-! ## transTableSetup -/

/-- Source `actual[i]`, `i = 1..nFact`, as filled by `factorize`. -/
def actualTab (fact : List Nat) (i : Nat) : Nat := fact.getD (i - 1) 0

/-- Source `sofar[1] = 1; sofar[i] = sofar[i-1]*actual[i-1]`. -/
def sofarTab (actual : Nat → Nat) : Nat → Nat
  | 0 => 0
  | 1 => 1
  | i + 2 => sofarTab actual (i + 1) * actual (i + 1)

/-- Source `remain[0] = nPoints; remain[i] = remain[i-1] / actual[i]`. -/
def remainTab (nPoints : Nat) (actual : Nat → Nat) : Nat → Nat
  | 0 => nPoints
  | i + 1 => remainTab nPoints actual i / actual (i + 1)

/-- The stage tables produced by `transTableSetup`. -/
structure StageTables where
  nFact : Nat
  sofar : Nat → Nat
  actual : Nat → Nat
  remain : Nat → Nat

/-- What `transTableSetup` does: either the diagnostic
`Prime factor of FFT length too large` followed by `exit(1)`, or the tables. -/
inductive SetupResult where
  | tooLarge (factor : Nat) : SetupResult
  | ok (tables : StageTables) : SetupResult

/-- Source `transTableSetup(sofar, actual, remain, &nFact, &nPoints)`. -/
def transTableSetup (nPoints : Nat) : SetupResult :=
  if actualTab (factorize nPoints) (factorize nPoints).length > maxPrimeFactor then
    SetupResult.tooLarge (actualTab (factorize nPoints) (factorize nPoints).length)
  else
    SetupResult.ok
      { nFact := (factorize nPoints).length
        sofar := sofarTab (actualTab (factorize nPoints))
        actual := actualTab (factorize nPoints)
        remain := remainTab nPoints (actualTab (factorize nPoints)) }

/-- Whether `transTableSetup` ends in the unsupported-length diagnostic. -/
def SetupResult.failed : SetupResult → Bool
  | SetupResult.tooLarge _ => true
  | SetupResult.ok _ => false

/-! ## The search for a good transform length -/

/-- Source `const int n_fft_nice_numbers = 767;` -/
def n_fft_nice_numbers : Nat := 767

/-- Source `const int fft_nice_numbers[n_fft_nice_numbers]`.  All entries are positive; they
are kept as naturals and read as `int` by `niceAt`. -/
def fft_nice_numbers : List Nat :=
  [
    1, 2, 3, 4, 5, 6, 8, 9, 10, 12, 15, 16, 18, 20, 24, 25, 27, 30, 32, 36, 40, 45, 48, 50,
    54, 60, 64, 72, 75, 80, 81, 90, 96, 100, 108, 120, 125, 128, 135, 144, 150, 160, 162,
    180, 192, 200, 216, 225, 240, 243, 250, 256, 270, 288, 300, 320, 324, 360, 375, 384,
    400, 405, 432, 450, 480, 486, 500, 512, 540, 576, 600, 625, 640, 648, 675, 720, 729,
    750, 768, 800, 810, 864, 900, 960, 972, 1000, 1024, 1080, 1125, 1152, 1200, 1215, 1250,
    1280, 1296, 1350, 1440, 1458, 1500, 1536, 1600, 1620, 1728, 1800, 1875, 1920, 1944,
    2000, 2025, 2048, 2160, 2187, 2250, 2304, 2400, 2430, 2500, 2560, 2592, 2700, 2880,
    2916, 3000, 3072, 3125, 3200, 3240, 3375, 3456, 3600, 3645, 3750, 3840, 3888, 4000,
    4050, 4096, 4320, 4374, 4500, 4608, 4800, 4860, 5000, 5120, 5184, 5400, 5625, 5760,
    5832, 6000, 6075, 6144, 6250, 6400, 6480, 6561, 6750, 6912, 7200, 7290, 7500, 7680,
    7776, 8000, 8100, 8192, 8640, 8748, 9000, 9216, 9375, 9600, 9720, 10000, 10125, 10240,
    10368, 10800, 10935, 11250, 11520, 11664, 12000, 12150, 12288, 12500, 12800, 12960,
    13122, 13500, 13824, 14400, 14580, 15000, 15360, 15552, 15625, 16000, 16200, 16384,
    16875, 17280, 17496, 18000, 18225, 18432, 18750, 19200, 19440, 19683, 20000, 20250,
    20480, 20736, 21600, 21870, 22500, 23040, 23328, 24000, 24300, 24576, 25000, 25600,
    25920, 26244, 27000, 27648, 28125, 28800, 29160, 30000, 30375, 30720, 31104, 31250,
    32000, 32400, 32768, 32805, 33750, 34560, 34992, 36000, 36450, 36864, 37500, 38400,
    38880, 39366, 40000, 40500, 40960, 41472, 43200, 43740, 45000, 46080, 46656, 46875,
    48000, 48600, 49152, 50000, 50625, 51200, 51840, 52488, 54000, 54675, 55296, 56250,
    57600, 58320, 59049, 60000, 60750, 61440, 62208, 62500, 64000, 64800, 65536, 65610,
    67500, 69120, 69984, 72000, 72900, 73728, 75000, 76800, 77760, 78125, 78732, 80000,
    81000, 81920, 82944, 84375, 86400, 87480, 90000, 91125, 92160, 93312, 93750, 96000,
    97200, 98304, 98415, 100000, 101250, 102400, 103680, 104976, 108000, 109350, 110592,
    112500, 115200, 116640, 118098, 120000, 121500, 122880, 124416, 125000, 128000, 129600,
    131072, 131220, 135000, 138240, 139968, 140625, 144000, 145800, 147456, 150000, 151875,
    153600, 155520, 156250, 157464, 160000, 162000, 163840, 164025, 165888, 168750, 172800,
    174960, 177147, 180000, 182250, 184320, 186624, 187500, 192000, 194400, 196608, 196830,
    200000, 202500, 204800, 207360, 209952, 216000, 218700, 221184, 225000, 230400, 233280,
    234375, 236196, 240000, 243000, 245760, 248832, 250000, 253125, 256000, 259200, 262144,
    262440, 270000, 273375, 276480, 279936, 281250, 288000, 291600, 294912, 295245, 300000,
    303750, 307200, 311040, 312500, 314928, 320000, 324000, 327680, 328050, 331776, 337500,
    345600, 349920, 354294, 360000, 364500, 368640, 373248, 375000, 384000, 388800, 390625,
    393216, 393660, 400000, 405000, 409600, 414720, 419904, 421875, 432000, 437400, 442368,
    450000, 455625, 460800, 466560, 468750, 472392, 480000, 486000, 491520, 492075, 497664,
    500000, 506250, 512000, 518400, 524288, 524880, 531441, 540000, 546750, 552960, 559872,
    562500, 576000, 583200, 589824, 590490, 600000, 607500, 614400, 622080, 625000, 629856,
    640000, 648000, 655360, 656100, 663552, 675000, 691200, 699840, 703125, 708588, 720000,
    729000, 737280, 746496, 750000, 759375, 768000, 777600, 781250, 786432, 787320, 800000,
    810000, 819200, 820125, 829440, 839808, 843750, 864000, 874800, 884736, 885735, 900000,
    911250, 921600, 933120, 937500, 944784, 960000, 972000, 983040, 984150, 995328, 1000000,
    1012500, 1024000, 1036800, 1048576, 1049760, 1062882, 1080000, 1093500, 1105920,
    1119744, 1125000, 1152000, 1166400, 1171875, 1179648, 1180980, 1200000, 1215000,
    1228800, 1244160, 1250000, 1259712, 1265625, 1280000, 1296000, 1310720, 1312200,
    1327104, 1350000, 1366875, 1382400, 1399680, 1406250, 1417176, 1440000, 1458000,
    1474560, 1476225, 1492992, 1500000, 1518750, 1536000, 1555200, 1562500, 1572864,
    1574640, 1594323, 1600000, 1620000, 1638400, 1640250, 1658880, 1679616, 1687500,
    1728000, 1749600, 1769472, 1771470, 1800000, 1822500, 1843200, 1866240, 1875000,
    1889568, 1920000, 1944000, 1953125, 1966080, 1968300, 1990656, 2000000, 2025000,
    2048000, 2073600, 2097152, 2099520, 2109375, 2125764, 2160000, 2187000, 2211840,
    2239488, 2250000, 2278125, 2304000, 2332800, 2343750, 2359296, 2361960, 2400000,
    2430000, 2457600, 2460375, 2488320, 2500000, 2519424, 2531250, 2560000, 2592000,
    2621440, 2624400, 2654208, 2657205, 2700000, 2733750, 2764800, 2799360, 2812500,
    2834352, 2880000, 2916000, 2949120, 2952450, 2985984, 3000000, 3037500, 3072000,
    3110400, 3125000, 3145728, 3149280, 3188646, 3200000, 3240000, 3276800, 3280500,
    3317760, 3359232, 3375000, 3456000, 3499200, 3515625, 3538944, 3542940, 3600000,
    3645000, 3686400, 3732480, 3750000, 3779136, 3796875, 3840000, 3888000, 3906250,
    3932160, 3936600, 3981312, 4000000, 4050000, 4096000, 4100625, 4147200, 4194304,
    4199040, 4218750, 4251528, 4320000, 4374000, 4423680, 4428675, 4478976, 4500000,
    4556250, 4608000, 4665600, 4687500, 4718592, 4723920, 4782969, 4800000, 4860000,
    4915200, 4920750, 4976640, 5000000, 5038848, 5062500, 5120000, 5184000, 5242880,
    5248800, 5308416, 5314410, 5400000, 5467500, 5529600, 5598720, 5625000, 5668704,
    5760000, 5832000, 5859375, 5898240, 5904900, 5971968, 6000000, 6075000, 6144000,
    6220800, 6250000, 6291456, 6298560, 6328125, 6377292, 6400000, 6480000, 6553600,
    6561000, 6635520, 6718464, 6750000, 6834375, 6912000, 6998400, 7031250, 7077888,
    7085880, 7200000, 7290000, 7372800, 7381125, 7464960, 7500000, 7558272, 7593750,
    7680000, 7776000, 7812500, 7864320, 7873200, 7962624, 7971615, 8000000, 8100000,
    8192000, 8201250, 8294400, 8388608, 8398080, 8437500, 8503056, 8640000, 8748000,
    8847360, 8857350, 8957952, 9000000, 9112500, 9216000, 9331200, 9375000, 9437184,
    9447840, 9565938, 9600000, 9720000, 9765625, 9830400, 9841500, 9953280]

/-- Source `fft_nice_numbers[i]` -/
def niceAt (i : Nat) : Int := ((fft_nice_numbers.getD i 0 : Nat) : Int)

/-- The value of a 32-bit `int` expression whose exact value is `x` (two's
complement wrap-around). -/
def wrapInt (x : Int) : Int := (x + 2147483648) % 4294967296 - 2147483648

/-- Source `while (i < n_fft_nice_numbers && n > fft_nice_numbers[i]) i++;`  The loop makes
fewer than 767 rounds. -/
def scanLoop (n : Int) : Nat → Nat → Nat
  | 0, i => i
  | fuel + 1, i =>
    if i < n_fft_nice_numbers ∧ n > niceAt i then scanLoop n fuel (i + 1) else i

/-- Source `int i = 1;` followed by the scan of the table. -/
def scanTable (n : Int) : Nat := scanLoop n n_fft_nice_numbers 1

/-- Source `while ((k % f) == 0) { k = k/f; mult++; }` for one of the factors 2, 3, 5, with
C's truncating `/` and `%`.  A positive `int` can be divided at most 30 times. -/
def stripLoop (f : Int) : Nat → Int → Nat → Int × Nat
  | 0, k, mult => (k, mult)
  | fuel + 1, k, mult =>
    if Int.tmod k f = 0 then stripLoop f fuel (Int.tdiv k f) (mult + 1) else (k, mult)

/-- Source `mult[0]` and the value of `k` after the round `i = 0` of "divide by all
factors". -/
def strip2 (n : Int) : Int × Nat := stripLoop 2 32 n 0

/-- Source `mult[1]` and the value of `k` after the round `i = 1`. -/
def strip3 (n : Int) : Int × Nat := stripLoop 3 32 (strip2 n).1 0

/-- Source `mult[2]` and the value of `k` after the round `i = 2`. -/
def strip5 (n : Int) : Int × Nat := stripLoop 5 32 (strip3 n).1 0

/-- Source `while (p2 < k) p2 *= 2;` in `int` arithmetic.  `none` when the loop has not
ended after `fuel` rounds. -/
def p2Loop (k : Int) : Nat → Int → Option Int
  | 0, _ => none
  | fuel + 1, p2 => if p2 < k then p2Loop k fuel (wrapInt (p2 * 2)) else some p2

/-- Source `for (int j = 0; j < mult; j++) k *= f;` in `int` arithmetic. -/
def mulLoop (f : Int) : Nat → Int → Int
  | 0, k => k
  | mult + 1, k => mulLoop f mult (wrapInt (k * f))

/-- The two nested loops that multiply `k` back by `2^mult[0] * 3^mult[1] * 5^mult[2]`. -/
def rebuild (n k : Int) : Int :=
  mulLoop 5 (strip5 n).2 (mulLoop 3 (strip3 n).2 (mulLoop 2 (strip2 n).2 k))

/-- Source `find_good_larger_fft_size(n)`; `none` when the `p2` loop does not end. -/
def find_good_larger_fft_size (n : Int) : Option Int :=
  if n ≤ 1 then some 1
  else if scanTable n < n_fft_nice_numbers then some (niceAt (scanTable n))
  else if (strip5 n).1 = 1 then some n
  else (p2Loop (strip5 n).1 64 1).map (fun p2 => rebuild n p2)

/-- Source `find_good_smaller_fft_size(n)`; `none` when the `p2` loop does not end. -/
def find_good_smaller_fft_size (n : Int) : Option Int :=
  if n ≤ 1 then some 1
  else if scanTable n < n_fft_nice_numbers then some (niceAt (scanTable n - 1))
  else if (strip5 n).1 = 1 then some n
  else (p2Loop (strip5 n).1 64 1).map (fun p2 => rebuild n (Int.tdiv p2 2))

/-- Source `find_good_fft_size(n)`; `none` when the `p2` loop does not end. -/
def find_good_fft_size (n : Int) : Option Int :=
  if n ≤ 1 then some 1
  else if scanTable n < n_fft_nice_numbers then
    if wrapInt (n - niceAt (scanTable n - 1)) < wrapInt (niceAt (scanTable n) - n) then
      some (niceAt (scanTable n - 1))
    else some (niceAt (scanTable n))
  else if (strip5 n).1 = 1 then some n
  else (p2Loop (strip5 n).1 64 1).map (fun p2 =>
    if wrapInt (n - rebuild n (Int.tdiv p2 2))
        < wrapInt (wrapInt (rebuild n (Int.tdiv p2 2) * 2) - n) then
      rebuild n (Int.tdiv p2 2)
    else wrapInt (rebuild n (Int.tdiv p2 2) * 2))

/-- An integer of the form `2^a * 3^b * 5^c`. -/
def FiveSmooth (d : Int) : Prop := ∃ a b c : Nat, d = 2 ^ a * 3 ^ b * 5 ^ c

/-! ## Decision procedures used to check the table -/

/-- Whether a list of naturals is strictly ascending. -/
def ascendingB : List Nat → Bool
  | [] => true
  | [_] => true
  | a :: b :: rest => decide (a < b) && ascendingB (b :: rest)

/-- Whether every element of the first list occurs in the second, found by walking
both lists once (complete for ascending lists, sound for all). -/
def subsetB : List Nat → List Nat → Bool
  | [], _ => true
  | _ :: _, [] => false
  | a :: as, b :: bs =>
    if a = b then subsetB as bs
    else if b < a then subsetB (a :: as) bs
    else false

/-- Divide `n` by `f` as long as it is divisible (at most `fuel` times). -/
def divOut (f : Nat) : Nat → Nat → Nat
  | 0, n => n
  | fuel + 1, n => if n % f = 0 then divOut f fuel (n / f) else n

/-- Whether `n` is left as 1 once its factors 2, 3 and 5 are divided out. -/
def smoothB (n : Nat) : Bool :=
  decide (divOut 5 32 (divOut 3 32 (divOut 2 32 n)) = 1)

/-! ## The transform: data

The arithmetic of the `double` variables is read over the real numbers.  Two
parallel `double` arrays holding real and imaginary parts form a `CArr`; an array is
a function of the index, and a store `a[i] = v` is `Function.update a i v`. -/

/-- A complex array kept as two parallel `double` arrays (`xRe[]`, `xIm[]`). -/
structure CArr where
  re : ℕ → ℝ
  im : ℕ → ℝ

/-- The complex number held at index `k`. -/
def CArr.cx (a : CArr) (k : ℕ) : ℂ := ⟨a.re k, a.im k⟩

/-- A local array given by its initialisers. -/
def arrOf (l : List ℝ) : ℕ → ℝ := fun i => l.getD i 0

/-- Source `for (i = i0; i < i0 + n; i++) s = body(i, s)`: the first argument after the
body is the number of rounds, the second the first index. -/
def forLoop {σ : Type} (body : ℕ → σ → σ) : ℕ → ℕ → σ → σ
  | 0, _, s => s
  | n + 1, i, s => forLoop body n (i + 1) (body i s)

/-- Source `pi = 4*atan(1);` (set by `fft` before anything else). -/
noncomputable def pi : ℝ := 4 * Real.arctan 1

/-- Source `c3_1 = cos(2*pi/3)-1` -/
noncomputable def c3_1 : ℝ := Real.cos (2 * Real.pi / 3) - 1

/-- Source `c3_2 = sin(2*pi/3)` -/
noncomputable def c3_2 : ℝ := Real.sin (2 * Real.pi / 3)

/-- Source `u5 = 2*pi/5` -/
noncomputable def u5 : ℝ := 2 * Real.pi / 5

/-- Source `c5_1 = (cos(u5)+cos(2*u5))/2-1` -/
noncomputable def c5_1 : ℝ := (Real.cos u5 + Real.cos (2 * u5)) / 2 - 1

/-- Source `c5_2 = (cos(u5)-cos(2*u5))/2` -/
noncomputable def c5_2 : ℝ := (Real.cos u5 - Real.cos (2 * u5)) / 2

/-- Source `c5_3 = -sin(u5)` -/
noncomputable def c5_3 : ℝ := -Real.sin u5

/-- Source `c5_4 = -(sin(u5)+sin(2*u5))` -/
noncomputable def c5_4 : ℝ := -(Real.sin u5 + Real.sin (2 * u5))

/-- Source `c5_5 = (sin(u5)-sin(2*u5))` -/
noncomputable def c5_5 : ℝ := Real.sin u5 - Real.sin (2 * u5)

/-- Source `c8 = 1/sqrt(2)` -/
noncomputable def c8 : ℝ := 1 / Real.sqrt 2

/-! ## The short transforms -/

/-- Source `fft_4(aRe, aIm)` -/
def fft_4 (a : CArr) : CArr :=
  let t1_re := a.re 0 + a.re 2
  let t1_im := a.im 0 + a.im 2
  let t2_re := a.re 1 + a.re 3
  let t2_im := a.im 1 + a.im 3
  let m2_re := a.re 0 - a.re 2
  let m2_im := a.im 0 - a.im 2
  let m3_re := a.im 1 - a.im 3
  let m3_im := a.re 3 - a.re 1
  { re := Function.update (Function.update (Function.update (Function.update a.re
      0 (t1_re + t2_re)) 2 (t1_re - t2_re)) 1 (m2_re + m3_re)) 3 (m2_re - m3_re)
    im := Function.update (Function.update (Function.update (Function.update a.im
      0 (t1_im + t2_im)) 2 (t1_im - t2_im)) 1 (m2_im + m3_im)) 3 (m2_im - m3_im) }

/-- Source `fft_5(aRe, aIm)`; `a0_re`, `a0_im` are `aRe[0]`, `aIm[0]` after the store
`aRe[0]=aRe[0] + t5_re; aIm[0]=aIm[0] + t5_im;`, read again by `s1`. -/
noncomputable def fft_5 (a : CArr) : CArr :=
  let t1_re := a.re 1 + a.re 4
  let t1_im := a.im 1 + a.im 4
  let t2_re := a.re 2 + a.re 3
  let t2_im := a.im 2 + a.im 3
  let t3_re := a.re 1 - a.re 4
  let t3_im := a.im 1 - a.im 4
  let t4_re := a.re 3 - a.re 2
  let t4_im := a.im 3 - a.im 2
  let t5_re := t1_re + t2_re
  let t5_im := t1_im + t2_im
  let aRe := Function.update a.re 0 (a.re 0 + t5_re)
  let aIm := Function.update a.im 0 (a.im 0 + t5_im)
  let m1_re := c5_1 * t5_re
  let m1_im := c5_1 * t5_im
  let m2_re := c5_2 * (t1_re - t2_re)
  let m2_im := c5_2 * (t1_im - t2_im)
  let m3_re := -c5_3 * (t3_im + t4_im)
  let m3_im := c5_3 * (t3_re + t4_re)
  let m4_re := -c5_4 * t4_im
  let m4_im := c5_4 * t4_re
  let m5_re := -c5_5 * t3_im
  let m5_im := c5_5 * t3_re
  let s3_re := m3_re - m4_re
  let s3_im := m3_im - m4_im
  let s5_re := m3_re + m5_re
  let s5_im := m3_im + m5_im
  let s1_re := aRe 0 + m1_re
  let s1_im := aIm 0 + m1_im
  let s2_re := s1_re + m2_re
  let s2_im := s1_im + m2_im
  let s4_re := s1_re - m2_re
  let s4_im := s1_im - m2_im
  { re := Function.update (Function.update (Function.update (Function.update aRe
      1 (s2_re + s3_re)) 2 (s4_re + s5_re)) 3 (s4_re - s5_re)) 4 (s2_re - s3_re)
    im := Function.update (Function.update (Function.update (Function.update aIm
      1 (s2_im + s3_im)) 2 (s4_im + s5_im)) 3 (s4_im - s5_im)) 4 (s2_im - s3_im) }

/-- Source `fft_8()` on the block `zRe`, `zIm`. -/
noncomputable def fft_8 (z : CArr) : CArr :=
  let a0 : CArr := ⟨arrOf [z.re 0, z.re 2, z.re 4, z.re 6], arrOf [z.im 0, z.im 2, z.im 4, z.im 6]⟩
  let b0 : CArr := ⟨arrOf [z.re 1, z.re 3, z.re 5, z.re 7], arrOf [z.im 1, z.im 3, z.im 5, z.im 7]⟩
  let a := fft_4 a0
  let b1 := fft_4 b0
  let b2 : CArr :=
    ⟨Function.update b1.re 1 (c8 * (b1.re 1 + b1.im 1)),
     Function.update b1.im 1 (c8 * (b1.im 1 - b1.re 1))⟩
  let b3 : CArr := ⟨Function.update b2.re 2 (b2.im 2), Function.update b2.im 2 (-b2.re 2)⟩
  let b : CArr :=
    ⟨Function.update b3.re 3 (c8 * (b3.im 3 - b3.re 3)),
     Function.update b3.im 3 (-c8 * (b3.re 3 + b3.im 3))⟩
  { re := Function.update (Function.update (Function.update (Function.update
      (Function.update (Function.update (Function.update (Function.update z.re
      0 (a.re 0 + b.re 0)) 4 (a.re 0 - b.re 0)) 1 (a.re 1 + b.re 1)) 5 (a.re 1 - b.re 1))
      2 (a.re 2 + b.re 2)) 6 (a.re 2 - b.re 2)) 3 (a.re 3 + b.re 3)) 7 (a.re 3 - b.re 3)
    im := Function.update (Function.update (Function.update (Function.update
      (Function.update (Function.update (Function.update (Function.update z.im
      0 (a.im 0 + b.im 0)) 4 (a.im 0 - b.im 0)) 1 (a.im 1 + b.im 1)) 5 (a.im 1 - b.im 1))
      2 (a.im 2 + b.im 2)) 6 (a.im 2 - b.im 2)) 3 (a.im 3 + b.im 3)) 7 (a.im 3 - b.im 3) }

/-- Source `fft_10()` on the block `zRe`, `zIm`. -/
noncomputable def fft_10 (z : CArr) : CArr :=
  let a0 : CArr :=
    ⟨arrOf [z.re 0, z.re 2, z.re 4, z.re 6, z.re 8], arrOf [z.im 0, z.im 2, z.im 4, z.im 6, z.im 8]⟩
  let b0 : CArr :=
    ⟨arrOf [z.re 5, z.re 7, z.re 9, z.re 1, z.re 3], arrOf [z.im 5, z.im 7, z.im 9, z.im 1, z.im 3]⟩
  let a := fft_5 a0
  let b := fft_5 b0
  { re := Function.update (Function.update (Function.update (Function.update
      (Function.update (Function.update (Function.update (Function.update
      (Function.update (Function.update z.re
      0 (a.re 0 + b.re 0)) 5 (a.re 0 - b.re 0)) 6 (a.re 1 + b.re 1)) 1 (a.re 1 - b.re 1))
      2 (a.re 2 + b.re 2)) 7 (a.re 2 - b.re 2)) 8 (a.re 3 + b.re 3)) 3 (a.re 3 - b.re 3))
      4 (a.re 4 + b.re 4)) 9 (a.re 4 - b.re 4)
    im := Function.update (Function.update (Function.update (Function.update
      (Function.update (Function.update (Function.update (Function.update
      (Function.update (Function.update z.im
      0 (a.im 0 + b.im 0)) 5 (a.im 0 - b.im 0)) 6 (a.im 1 + b.im 1)) 1 (a.im 1 - b.im 1))
      2 (a.im 2 + b.im 2)) 7 (a.im 2 - b.im 2)) 8 (a.im 3 + b.im 3)) 3 (a.im 3 - b.im 3))
      4 (a.im 4 + b.im 4)) 9 (a.im 4 - b.im 4) }

/-- Source `case 2` of the `switch(radix)` in `twiddleTransf`. -/
def radix2 (z : CArr) : CArr :=
  let gem_re := z.re 0 + z.re 1
  let zRe1 := Function.update z.re 1 (z.re 0 - z.re 1)
  let gem_im := z.im 0 + z.im 1
  let zIm1 := Function.update z.im 1 (z.im 0 - z.im 1)
  { re := Function.update zRe1 0 gem_re, im := Function.update zIm1 0 gem_im }

/-- Source `case 3` of the `switch(radix)` in `twiddleTransf`. -/
noncomputable def radix3 (z : CArr) : CArr :=
  let t1_re := z.re 1 + z.re 2
  let t1_im := z.im 1 + z.im 2
  let zRe := Function.update z.re 0 (z.re 0 + t1_re)
  let zIm := Function.update z.im 0 (z.im 0 + t1_im)
  let m1_re := c3_1 * t1_re
  let m1_im := c3_1 * t1_im
  let m2_re := c3_2 * (zIm 1 - zIm 2)
  let m2_im := c3_2 * (zRe 2 - zRe 1)
  let s1_re := zRe 0 + m1_re
  let s1_im := zIm 0 + m1_im
  { re := Function.update (Function.update zRe 1 (s1_re + m2_re)) 2 (s1_re - m2_re)
    im := Function.update (Function.update zIm 1 (s1_im + m2_im)) 2 (s1_im - m2_im) }

/-- Source `case 4` of the `switch(radix)` in `twiddleTransf` (the body of `fft_4` on `z`). -/
def radix4 (z : CArr) : CArr :=
  let t1_re := z.re 0 + z.re 2
  let t1_im := z.im 0 + z.im 2
  let t2_re := z.re 1 + z.re 3
  let t2_im := z.im 1 + z.im 3
  let m2_re := z.re 0 - z.re 2
  let m2_im := z.im 0 - z.im 2
  let m3_re := z.im 1 - z.im 3
  let m3_im := z.re 3 - z.re 1
  { re := Function.update (Function.update (Function.update (Function.update z.re
      0 (t1_re + t2_re)) 2 (t1_re - t2_re)) 1 (m2_re + m3_re)) 3 (m2_re - m3_re)
    im := Function.update (Function.update (Function.update (Function.update z.im
      0 (t1_im + t2_im)) 2 (t1_im - t2_im)) 1 (m2_im + m3_im)) 3 (m2_im - m3_im) }

/-- Source `case 5` of the `switch(radix)` in `twiddleTransf` (the body of `fft_5` on `z`). -/
noncomputable def radix5 (z : CArr) : CArr :=
  let t1_re := z.re 1 + z.re 4
  let t1_im := z.im 1 + z.im 4
  let t2_re := z.re 2 + z.re 3
  let t2_im := z.im 2 + z.im 3
  let t3_re := z.re 1 - z.re 4
  let t3_im := z.im 1 - z.im 4
  let t4_re := z.re 3 - z.re 2
  let t4_im := z.im 3 - z.im 2
  let t5_re := t1_re + t2_re
  let t5_im := t1_im + t2_im
  let zRe := Function.update z.re 0 (z.re 0 + t5_re)
  let zIm := Function.update z.im 0 (z.im 0 + t5_im)
  let m1_re := c5_1 * t5_re
  let m1_im := c5_1 * t5_im
  let m2_re := c5_2 * (t1_re - t2_re)
  let m2_im := c5_2 * (t1_im - t2_im)
  let m3_re := -c5_3 * (t3_im + t4_im)
  let m3_im := c5_3 * (t3_re + t4_re)
  let m4_re := -c5_4 * t4_im
  let m4_im := c5_4 * t4_re
  let m5_re := -c5_5 * t3_im
  let m5_im := c5_5 * t3_re
  let s3_re := m3_re - m4_re
  let s3_im := m3_im - m4_im
  let s5_re := m3_re + m5_re
  let s5_im := m3_im + m5_im
  let s1_re := zRe 0 + m1_re
  let s1_im := zIm 0 + m1_im
  let s2_re := s1_re + m2_re
  let s2_im := s1_im + m2_im
  let s4_re := s1_re - m2_re
  let s4_im := s1_im - m2_im
  { re := Function.update (Function.update (Function.update (Function.update zRe
      1 (s2_re + s3_re)) 2 (s4_re + s5_re)) 3 (s4_re - s5_re)) 4 (s2_re - s3_re)
    im := Function.update (Function.update (Function.update (Function.update zIm
      1 (s2_im + s3_im)) 2 (s4_im + s5_im)) 3 (s4_im - s5_im)) 4 (s2_im - s3_im) }

/-! ## fft_odd -/

/-- The `static` blocks `z`, `v`, `w` that the kernels work on. -/
structure OddWork where
  z : CArr
  v : CArr
  w : CArr

/-- Body of the first loop of `fft_odd`: `vRe[j]`, `vIm[j]`, `wRe[j]`, `wIm[j]`.
The state is `(v, w)`. -/
def oddSym (n : ℕ) (z : CArr) (j : ℕ) (s : CArr × CArr) : CArr × CArr :=
  (⟨Function.update s.1.re j (z.re j + z.re (n - j)),
    Function.update s.1.im j (z.im j - z.im (n - j))⟩,
   ⟨Function.update s.2.re j (z.re j - z.re (n - j)),
    Function.update s.2.im j (z.im j + z.im (n - j))⟩)

/-- Body of the innermost loop of `fft_odd` (index `i`).  The state is `(z, k)`. -/
def oddInner (n j : ℕ) (trig v w : CArr) (i : ℕ) (s : CArr × ℕ) : CArr × ℕ :=
  let rere := trig.re s.2 * v.re i
  let imim := trig.im s.2 * v.im i
  let reim := trig.re s.2 * w.im i
  let imre := trig.im s.2 * w.re i
  let zRe1 := Function.update s.1.re (n - j) (s.1.re (n - j) + (rere + imim))
  let zIm1 := Function.update s.1.im (n - j) (s.1.im (n - j) + (reim - imre))
  let zRe2 := Function.update zRe1 j (zRe1 j + (rere - imim))
  let zIm2 := Function.update zIm1 j (zIm1 j + (reim + imre))
  (⟨zRe2, zIm2⟩, if s.2 + j ≥ n then s.2 + j - n else s.2 + j)

/-- Body of the second loop of `fft_odd` (index `j`): the outputs `j` and `n-j`. -/
def oddOuter (n max : ℕ) (trig v w : CArr) (j : ℕ) (z : CArr) : CArr :=
  let zRe1 := Function.update z.re j (z.re 0)
  let zIm1 := Function.update z.im j (z.im 0)
  let zRe2 := Function.update zRe1 (n - j) (zRe1 0)
  let zIm2 := Function.update zIm1 (n - j) (zIm1 0)
  (forLoop (oddInner n j trig v w) (max - 1) 1 (⟨zRe2, zIm2⟩, j)).1

/-- Body of the third loop of `fft_odd`: `zRe[0]=zRe[0] + vRe[j]; zIm[0]=zIm[0] + wIm[j];` -/
def oddDC (v w : CArr) (j : ℕ) (z : CArr) : CArr :=
  ⟨Function.update z.re 0 (z.re 0 + v.re j), Function.update z.im 0 (z.im 0 + w.im j)⟩

/-- Source `fft_odd(radix)`, reading the table `trigRe`, `trigIm`. -/
def fft_odd (radix : ℕ) (trig : CArr) (s : OddWork) : OddWork :=
  let vw := forLoop (oddSym radix s.z) ((radix + 1) / 2 - 1) 1 (s.v, s.w)
  let z2 := forLoop (oddOuter radix ((radix + 1) / 2) trig vw.1 vw.2) ((radix + 1) / 2 - 1) 1 s.z
  let z3 := forLoop (oddDC vw.1 vw.2) ((radix + 1) / 2 - 1) 1 z2
  { z := z3, v := vw.1, w := vw.2 }

/-! ## twiddleTransf -/

/-- Body of the loop of `initTrig`. -/
def trigStep (xre xim : ℝ) (i : ℕ) (t : CArr) : CArr :=
  ⟨Function.update t.re i (xre * t.re (i - 1) - xim * t.im (i - 1)),
   Function.update t.im i (xim * t.re (i - 1) + xre * t.im (i - 1))⟩

/-- Source `initTrig(radix)` on the table `trigRe`, `trigIm`. -/
noncomputable def initTrig (radix : ℕ) (trig : CArr) : CArr :=
  forLoop
    (trigStep (Real.cos (2 * pi / (radix : ℝ))) (-Real.sin (2 * pi / (radix : ℝ))))
    (radix - 2) 2
    ⟨Function.update (Function.update trig.re 0 1) 1 (Real.cos (2 * pi / (radix : ℝ))),
     Function.update (Function.update trig.im 0 0) 1 (-Real.sin (2 * pi / (radix : ℝ)))⟩

/-- The `switch(radix)` of `twiddleTransf`. -/
noncomputable def kernel (radix : ℕ) (trig : CArr) (s : OddWork) : OddWork :=
  if radix = 2 then { s with z := radix2 s.z }
  else if radix = 3 then { s with z := radix3 s.z }
  else if radix = 4 then { s with z := radix4 s.z }
  else if radix = 5 then { s with z := radix5 s.z }
  else if radix = 8 then { s with z := fft_8 s.z }
  else if radix = 10 then { s with z := fft_10 s.z }
  else fft_odd radix trig s

/-- The `static` data of `fft.cpp` together with the output arrays `yRe`, `yIm`. -/
structure Work where
  y : CArr
  z : CArr
  twiddle : CArr
  trig : CArr
  v : CArr
  w : CArr
  tw_re : ℝ
  tw_im : ℝ
  adr : ℕ
  groupOffset : ℕ
  dataOffset : ℕ

/-- Body of `do { adr = adr + sofarRadix; zRe[blockNo] = ...; zIm[blockNo] = ...;
blockNo++; } while (blockNo < radix);`.  The state is `(z, adr)`. -/
def gatherTwStep (sofarRadix : ℕ) (y twiddle : CArr) (blockNo : ℕ) (s : CArr × ℕ) :
    CArr × ℕ :=
  (⟨Function.update s.1.re blockNo
      (twiddle.re blockNo * y.re (s.2 + sofarRadix)
        - twiddle.im blockNo * y.im (s.2 + sofarRadix)),
    Function.update s.1.im blockNo
      (twiddle.re blockNo * y.im (s.2 + sofarRadix)
        + twiddle.im blockNo * y.re (s.2 + sofarRadix))⟩,
   s.2 + sofarRadix)

/-- Body of the copying loop `zRe[blockNo]=yRe[adr]; zIm[blockNo]=yIm[adr];
adr=adr+sofarRadix;`.  The state is `(z, adr)`. -/
def gatherStep (sofarRadix : ℕ) (y : CArr) (blockNo : ℕ) (s : CArr × ℕ) : CArr × ℕ :=
  (⟨Function.update s.1.re blockNo (y.re s.2), Function.update s.1.im blockNo (y.im s.2)⟩,
   s.2 + sofarRadix)

/-- Body of the loop `yRe[adr]=zRe[blockNo]; yIm[adr]=zIm[blockNo]; adr=adr+sofarRadix;`.
The state is `(y, adr)`. -/
def scatterStep (sofarRadix : ℕ) (z : CArr) (blockNo : ℕ) (s : CArr × ℕ) : CArr × ℕ :=
  (⟨Function.update s.1.re s.2 (z.re blockNo), Function.update s.1.im s.2 (z.im blockNo)⟩,
   s.2 + sofarRadix)

/-- Body of `for (groupNo=0; groupNo<remainRadix; groupNo++)`: gather one block
(a `do ... while` makes at least one round), transform it, write it back. -/
noncomputable def groupStep (sofarRadix radix dataNo : ℕ) (_groupNo : ℕ) (s : Work) : Work :=
  let g :=
    if sofarRadix > 1 ∧ dataNo > 0 then
      forLoop (gatherTwStep sofarRadix s.y s.twiddle) (max (radix - 1) 1) 1
        (⟨Function.update s.z.re 0 (s.y.re s.adr), Function.update s.z.im 0 (s.y.im s.adr)⟩,
          s.adr)
    else forLoop (gatherStep sofarRadix s.y) radix 0 (s.z, s.adr)
  let k := kernel radix s.trig ⟨g.1, s.v, s.w⟩
  let sc := forLoop (scatterStep sofarRadix k.z) radix 0 (s.y, s.groupOffset)
  { s with
    y := sc.1, z := k.z, v := k.v, w := k.w
    groupOffset := s.groupOffset + sofarRadix * radix
    adr := s.groupOffset + sofarRadix * radix }

/-- Body of `for (twNo=2; twNo<radix; twNo++)`. -/
def twiddleStep (tw_re tw_im : ℝ) (twNo : ℕ) (t : CArr) : CArr :=
  ⟨Function.update t.re twNo (tw_re * t.re (twNo - 1) - tw_im * t.im (twNo - 1)),
   Function.update t.im twNo (tw_im * t.re (twNo - 1) + tw_re * t.im (twNo - 1))⟩

/-- Body of `for (dataNo=0; dataNo<sofarRadix; dataNo++)`. -/
noncomputable def dataStep (sofarRadix radix remainRadix : ℕ) (cosw sinw : ℝ) (dataNo : ℕ)
    (s : Work) : Work :=
  let s1 : Work :=
    if sofarRadix > 1 then
      { s with
        twiddle := forLoop (twiddleStep s.tw_re s.tw_im) (radix - 2) 2
          ⟨Function.update (Function.update s.twiddle.re 0 1) 1 s.tw_re,
           Function.update (Function.update s.twiddle.im 0 0) 1 s.tw_im⟩
        tw_im := sinw * s.tw_re + cosw * s.tw_im
        tw_re := cosw * s.tw_re - sinw * s.tw_im }
    else s
  let s2 := forLoop (groupStep sofarRadix radix dataNo) remainRadix 0 s1
  { s2 with
    dataOffset := s2.dataOffset + 1
    groupOffset := s2.dataOffset + 1
    adr := s2.dataOffset + 1 }

/-- Source `twiddleTransf(sofarRadix, radix, remainRadix, yRe, yIm)`. -/
noncomputable def twiddleTransf (sofarRadix radix remainRadix : ℕ) (s : Work) : Work :=
  forLoop
    (dataStep sofarRadix radix remainRadix
      (Real.cos (2 * pi / ((sofarRadix * radix : ℕ) : ℝ)))
      (-Real.sin (2 * pi / ((sofarRadix * radix : ℕ) : ℝ))))
    sofarRadix 0
    { s with
      trig := initTrig radix s.trig
      tw_re := 1, tw_im := 0
      dataOffset := 0, groupOffset := 0, adr := 0 }

/-! ## permute -/

/-- Source `while (count[j] >= fact[j]) { count[j]=0; k=k-remain[j-1]+remain[j+1]; j=j+1;
count[j]=count[j]+1; }`.  The carry can pass through at most `nFact` digits. -/
def carryLoop (fact remain : ℕ → ℕ) : ℕ → ℕ → (ℕ → ℕ) → ℤ → (ℕ → ℕ) × ℤ
  | 0, _, count, k => (count, k)
  | fuel + 1, j, count, k =>
    if count j ≥ fact j then
      carryLoop fact remain fuel (j + 1)
        (Function.update (Function.update count j 0) (j + 1)
          (Function.update count j 0 (j + 1) + 1))
        (k - (remain (j - 1) : ℤ) + (remain (j + 1) : ℤ))
    else (count, k)

/-- The variables of `permute`: the output, the digit counters and the source index. -/
structure PermWork where
  y : CArr
  count : ℕ → ℕ
  k : ℤ

/-- Body of `for (i=0; i<=nPoint-2; i++)`. -/
def permuteStep (nFact : ℕ) (fact remain : ℕ → ℕ) (x : CArr) (i : ℕ) (s : PermWork) :
    PermWork :=
  { y := ⟨Function.update s.y.re i (x.re s.k.toNat), Function.update s.y.im i (x.im s.k.toNat)⟩
    count :=
      (carryLoop fact remain nFact 1 (Function.update s.count 1 (s.count 1 + 1))
        (s.k + (remain 1 : ℤ))).1
    k :=
      (carryLoop fact remain nFact 1 (Function.update s.count 1 (s.count 1 + 1))
        (s.k + (remain 1 : ℤ))).2 }

/-- Source `permute(nPoint, nFact, fact, remain, xRe, xIm, yRe, yIm)`; `count` is the
content of the local array `count` on entry, which the first loop overwrites. -/
def permute (nPoint nFact : ℕ) (fact remain : ℕ → ℕ) (x y : CArr) (count : ℕ → ℕ) : CArr :=
  let s := forLoop (permuteStep nFact fact remain x) (nPoint - 1) 0
    { y := y, count := forLoop (fun i c => Function.update c i 0) nFact 1 count, k := 0 }
  ⟨Function.update s.y.re (nPoint - 1) (x.re (nPoint - 1)),
   Function.update s.y.im (nPoint - 1) (x.im (nPoint - 1))⟩

/-! ## fft -/

/-- Source `fft(n, xRe, xIm, yRe, yIm)`: `s` holds the output arrays and the static data as
the call finds them, `count` the local array of `permute`.  `none` stands for the
`exit(1)` of `transTableSetup`. -/
noncomputable def fft (n : ℕ) (x : CArr) (s : Work) (count : ℕ → ℕ) : Option Work :=
  match transTableSetup n with
  | SetupResult.tooLarge _ => none
  | SetupResult.ok t =>
    some (forLoop (fun c w => twiddleTransf (t.sofar c) (t.actual c) (t.remain c) w)
      t.nFact 1
      { s with y := permute n t.nFact t.actual t.remain x s.y count })

/-! ## The discrete Fourier transform of the specification -/

/-- Source `y[k] = sum(x[m]*exp(-i*2*pi*k*m/n), m=0..(n-1))` -/
noncomputable def dft (n : ℕ) (x : ℕ → ℂ) (k : ℕ) : ℂ :=
  ∑ m in Finset.range n,
    x m * Complex.exp (-(Complex.I * 2 * (Real.pi : ℂ) * (k : ℂ) * (m : ℂ) / (n : ℂ)))

/-- The root of unity `exp(-2*pi*i/n)`. -/
noncomputable def root (n : ℕ) : ℂ :=
  Complex.exp (-(Complex.I * 2 * (Real.pi : ℂ) / (n : ℂ)))

/-! ## Mixed-radix digits (used to describe `permute`) -/

/-- Mixed-radix digit reversal: with `g = d1 + f1*(d2 + f2*(...))`, `dj < fj`, the
index `d1*(f2*f3*...) + d2*(f3*...) + ...`. -/
def digitRev : List ℕ → ℕ → ℕ
  | [], _ => 0
  | f :: fs, g => (g % f) * fs.prod + digitRev fs (g / f)

/-- The number whose mixed-radix digits are `count[j], count[j+1], ...` for the
radices `fs` (least significant first). -/
def digitVal (count : ℕ → ℕ) : ℕ → List ℕ → ℕ
  | _, [] => 0
  | j, f :: fs => count j + f * digitVal count (j + 1) fs

/-- The digits `count[j], count[j+1], ...` weighted by the products of the radices
that follow them: the source index `k` of `permute`. -/
def digitRVal (count : ℕ → ℕ) : ℕ → List ℕ → ℕ
  | _, [] => 0
  | j, _ :: fs => count j * fs.prod + digitRVal count (j + 1) fs

/-- Every digit `count[j], count[j+1], ...` is below its radix. -/
def digitsOK (count : ℕ → ℕ) : ℕ → List ℕ → Prop
  | _, [] => True
  | j, f :: fs => count j < f ∧ digitsOK count (j + 1) fs

/-! ## numerics.cpp: last_non_zero and impedance -/

/-- Source `while (p >= 0 && d1[p] == zero) p--;` with `DataTYPE` any type with a
decidable equality; `p` is an `int`, and the loop runs at most `d1.size() + 1` tests. -/
def lastLoop {α : Type} [DecidableEq α] (d1 : List α) (zero : α) : ℕ → ℤ → ℤ
  | 0, p => p
  | fuel + 1, p =>
    if 0 ≤ p ∧ d1[p.toNat]? = some zero then lastLoop d1 zero fuel (p - 1) else p

/-- Source `last_non_zero(d1, p, zero)`: the value left in `p`
(`int n = d1.size(); p = n-1; while (...) p--; p = n-1-p;`), for a vector whose size
fits an `int`. -/
def last_non_zero {α : Type} [DecidableEq α] (d1 : List α) (zero : α) : ℤ :=
  (d1.length : ℤ) - 1 - lastLoop d1 zero (d1.length + 1) ((d1.length : ℤ) - 1)

/-- The content of the eight arrays that `impedance` obtains from `new double[n]`, as
the call finds it: `new double[n]` does not initialise the memory. -/
structure ImpHeap where
  din : CArr
  dout : CArr
  fftin : CArr
  fftout : CArr

/-- Body of `for (int i= 1; i < n; i++)` in `impedance`:
`din_r[i] = in[i]; din_i[i] = 0.0; dout_r[i] = out[i]; dout_i[i] = 0.0;` -/
def copyStep (inp out : List ℝ) (i : ℕ) (s : CArr × CArr) : CArr × CArr :=
  (⟨Function.update s.1.re i (inp.getD i 0), Function.update s.1.im i 0⟩,
   ⟨Function.update s.2.re i (out.getD i 0), Function.update s.2.im i 0⟩)

/-- Source `impedance(in, out, z)`: the content of `z` after the call.  `h` is the
memory handed out by `new`, `s` the static data of fft.cpp as the call finds it,
`count`, `count2` the local array of `permute` in the two calls of `fft`; `none`
stands for the `exit(1)` of `transTableSetup`. -/
noncomputable def impedance (inp out z : List ℝ) (h : ImpHeap) (s : Work)
    (count count2 : ℕ → ℕ) : Option (List ℝ) :=
  if out.length < inp.length then some z
  else
    match fft inp.length (forLoop (copyStep inp out) (inp.length - 1) 1 (h.din, h.dout)).1
        { s with y := h.fftin } count with
    | none => none
    | some w1 =>
      match fft inp.length (forLoop (copyStep inp out) (inp.length - 1) 1 (h.din, h.dout)).2
          { w1 with y := h.fftout } count2 with
      | none => none
      | some w2 =>
        some ((List.range inp.length).map (fun i =>
          (w2.y.re i * w2.y.re i + w2.y.im i * w2.y.im i)
            / (w1.y.re i * w1.y.re i + w1.y.im i * w1.y.im i)))

/-! ## numerics.cpp: remove_ends -/

/-- Source `remove_ends(d1, n1, n2)`: the content of `d1` after the call, for a vector
whose size fits an `int`.  The sum `n1 + n2` is an `int`.  `none` when the
iterators `d1.begin()+n1`, `d1.end()-n2` handed to `copy` do not delimit a range of
`d1` (`n1` or `n2` negative, or a wrapped sum). -/
def remove_ends {α : Type} (d1 : List α) (n1 n2 : ℤ) : Option (List α) :=
  if n1 = 0 ∧ n2 = 0 then some d1
  else if d1.length = 0 then some d1
  else if wrapInt (n1 + n2) > (d1.length : ℤ) then some (d1.take 1)
  else if 0 ≤ n1 ∧ 0 ≤ n2 ∧ n1 + n2 ≤ (d1.length : ℤ) then
    some ((d1.drop n1.toNat).take (d1.length - n1.toNat - n2.toNat))
  else none

/-! ## Ghost values of permute and twiddleTransf -/

/-- The value of `j` with which the carry loop of `permute`
(`while (count[j] >= fact[j]) { ...; j=j+1; ... }`) ends. -/
def carryIndex (fact : ℕ → ℕ) : ℕ → ℕ → (ℕ → ℕ) → ℕ
  | 0, j, _ => j
  | fuel + 1, j, count =>
    if count j ≥ fact j then
      carryIndex fact fuel (j + 1)
        (Function.update (Function.update count j 0) (j + 1)
          (Function.update count j 0 (j + 1) + 1))
    else j

/-- The state of `twiddleTransf` when it enters `for (dataNo=0; ...)`: `initTrig` has
run, `tw_re = 1.0; tw_im = 0; dataOffset=0; groupOffset=dataOffset; adr=groupOffset;`. -/
noncomputable def twiddleInit (radix : ℕ) (s : Work) : Work :=
  { s with
    trig := initTrig radix s.trig
    tw_re := 1, tw_im := 0
    dataOffset := 0, groupOffset := 0, adr := 0 }

/-- The state with which a round of `for (dataNo=0; ...)` enters its group loop: for
`sofarRadix > 1` the twiddle table is filled and `tw` advanced. -/
def dataEntry (sofarRadix radix : ℕ) (cosw sinw : ℝ) (s : Work) : Work :=
  if sofarRadix > 1 then
    { s with
      twiddle := forLoop (twiddleStep s.tw_re s.tw_im) (radix - 2) 2
        ⟨Function.update (Function.update s.twiddle.re 0 1) 1 s.tw_re,
         Function.update (Function.update s.twiddle.im 0 0) 1 s.tw_im⟩
      tw_im := sinw * s.tw_re + cosw * s.tw_im
      tw_re := cosw * s.tw_re - sinw * s.tw_im }
  else s

/-- The state of `twiddleTransf(sofarRadix, radix, remainRadix, y)` at the beginning
of the round `dataNo = d`, `groupNo = g`. -/
noncomputable def groupEntry (sofarRadix radix remainRadix : ℕ) (s : Work) (d g : ℕ) : Work :=
  forLoop (groupStep sofarRadix radix d) g 0
    (dataEntry sofarRadix radix
      (Real.cos (2 * pi / ((sofarRadix * radix : ℕ) : ℝ)))
      (-Real.sin (2 * pi / ((sofarRadix * radix : ℕ) : ℝ)))
      (forLoop
        (dataStep sofarRadix radix remainRadix
          (Real.cos (2 * pi / ((sofarRadix * radix : ℕ) : ℝ)))
          (-Real.sin (2 * pi / ((sofarRadix * radix : ℕ) : ℝ))))
        d 0 (twiddleInit radix s)))

/-! ## factorize: the cell read by `if (factors[j] == 2)` -/

/-- Source `factors[j]` as read by `if (factors[j] == 2)`: `fs` holds
`factors[j], ..., factors[1]`, the cells stored so far, and `f0` is the content of the
cell `factors[0]` of the local array as the call finds it; no statement of
`factorize` writes `factors[0]`.  For `j = 0` the cell read is `factors[0]`. -/
def factorsTop (f0 : Nat) (fs : List Nat) : Nat :=
  match fs with
  | [] => f0
  | f :: _ => f

/-- Source `if (factors[j] == 2) { i = j-1; while ((i>0) && (factors[i] != 8)) i--;
if (i>0) { factors[j] = 4; factors[i] = 4; } }` with the cell `factors[0]` explicit:
the factors afterwards, and whether the body of the `if` was entered.  For `j = 0`
the body starts with `i = -1`, so the scan and the substitution are skipped. -/
def rebalanceAt (f0 : Nat) (fs : List Nat) : List Nat × Bool :=
  if factorsTop f0 fs = 2 then
    let fs1 : List Nat :=
      match fs with
      | [] => []
      | f :: rest =>
        match substEight rest with
        | some fs4 => 4 :: fs4
        | none => f :: rest
    (fs1, true)
  else (fs, false)
/-! # Theorems -/

/-! ## factorize: the loops run to their exit condition -/

theorem radices_ge_two {i : Nat} (h1 : 0 < i) (h6 : i ≤ 6) : 2 ≤ radices i := by
  interval_cases i <;> simp [radices]

theorem radices_mem {i : Nat} (h1 : 0 < i) (h6 : i ≤ 6) :
    radices i ∈ [2, 3, 4, 5, 8, 10] := by
  interval_cases i <;> simp [radices]

/-- More fuel than `n + i` does not change the result of the preferred-radix pass:
the pass always stops on its own condition. -/
theorem radixLoop_fuel (fuel : Nat) : ∀ (n i : Nat) (fs : List Nat), i ≤ 6 →
    n + i ≤ fuel → radixLoop fuel n i fs = radixLoop (n + i) n i fs := by
  induction fuel using Nat.strong_induction_on with
  | _ fuel ih =>
    intro n i fs h6 hf
    by_cases hc : 1 < n ∧ 0 < i
    · obtain ⟨fuel1, rfl⟩ : ∃ m, fuel = m + 1 := ⟨fuel - 1, by omega⟩
      obtain ⟨m, hm⟩ : ∃ m, n + i = m + 1 := ⟨n + i - 1, by omega⟩
      rw [hm]
      simp only [radixLoop, hc, and_self, if_true]
      have h2 := radices_ge_two hc.2 h6
      have hdiv : n / radices i < n := Nat.div_lt_self (by omega) (by omega)
      by_cases hd : n % radices i = 0
      · simp only [hd, if_true]
        rw [ih fuel1 (by omega) _ _ _ h6 (by omega), ih m (by omega) _ _ _ h6 (by omega)]
      · simp only [hd, if_false]
        rw [ih fuel1 (by omega) _ _ _ (by omega) (by omega),
          ih m (by omega) _ _ _ (by omega) (by omega)]
    · cases fuel with
      | zero =>
        have : n + i = 0 := by omega
        rw [this]
      | succ fuel1 =>
        cases hm : n + i with
        | zero => simp [radixLoop, hc]
        | succ m => simp [radixLoop, hc]

theorem divLoop_exit (k : Nat) (hk : 2 ≤ k) : ∀ (fuel n : Nat) (fs : List Nat),
    1 ≤ n → n ≤ fuel → (divLoop k fuel n fs).1 % k ≠ 0 := by
  intro fuel
  induction fuel with
  | zero => intro n fs h1 h2; omega
  | succ fuel ih =>
    intro n fs h1 h2
    by_cases hd : n % k = 0
    · simp only [divLoop, hd, if_true]
      have hdvd : k ∣ n := Nat.dvd_of_mod_eq_zero hd
      have hlt : n / k < n := Nat.div_lt_self (by omega) (by omega)
      have hpos : 0 < n / k := Nat.div_pos (Nat.le_of_dvd (by omega) hdvd) (by omega)
      exact ih _ _ hpos (by omega)
    · simp only [divLoop, hd, if_false]
      exact hd

/-! ## factorize: the product of the factors -/

theorem radixLoop_prod : ∀ (fuel n i : Nat) (fs : List Nat),
    (radixLoop fuel n i fs).1 * (radixLoop fuel n i fs).2.prod = n * fs.prod := by
  intro fuel
  induction fuel with
  | zero => intro n i fs; rfl
  | succ fuel ih =>
    intro n i fs
    by_cases hc : 1 < n ∧ 0 < i
    · by_cases hd : n % radices i = 0
      · simp only [radixLoop, hc, and_self, if_true, hd]
        rw [ih, List.prod_cons, ← mul_assoc, Nat.div_mul_cancel (Nat.dvd_of_mod_eq_zero hd)]
      · simp only [radixLoop, hc, and_self, if_true, hd, if_false]
        exact ih _ _ _
    · simp [radixLoop, hc]

theorem radixLoop_pos : ∀ (fuel n i : Nat) (fs : List Nat), 1 ≤ n →
    1 ≤ (radixLoop fuel n i fs).1 := by
  intro fuel
  induction fuel with
  | zero => intro n i fs h; exact h
  | succ fuel ih =>
    intro n i fs h
    by_cases hc : 1 < n ∧ 0 < i
    · by_cases hd : n % radices i = 0
      · simp only [radixLoop, hc, and_self, if_true, hd]
        apply ih
        have hdvd : radices i ∣ n := Nat.dvd_of_mod_eq_zero hd
        rcases Nat.eq_zero_or_pos (radices i) with h0 | h0
        · rw [h0] at hdvd; have := Nat.eq_zero_of_zero_dvd hdvd; omega
        · exact Nat.div_pos (Nat.le_of_dvd (by omega) hdvd) h0
      · simp only [radixLoop, hc, and_self, if_true, hd, if_false]
        exact ih _ _ _ h
    · simp [radixLoop, hc]; exact h

theorem substEight_prod : ∀ (fs fs4 : List Nat), substEight fs = some fs4 →
    2 * fs4.prod = fs.prod := by
  intro fs
  induction fs with
  | nil => intro fs4 h; simp [substEight] at h
  | cons f fs ih =>
    intro fs4 h
    by_cases h8 : f = 8
    · simp only [substEight, h8, if_true, Option.some.injEq] at h
      subst h; subst h8
      simp only [List.prod_cons]; omega
    · simp only [substEight, h8, if_false, Option.map_eq_some'] at h
      obtain ⟨r, hr, rfl⟩ := h
      have := ih r hr
      simp only [List.prod_cons]
      rw [← this]; ring

theorem rebalance_prod (fs : List Nat) : (rebalance fs).prod = fs.prod := by
  unfold rebalance
  split
  · rename_i fs1
    split
    · rename_i fs4 h
      have := substEight_prod _ _ h
      simp only [List.prod_cons]; omega
    · rfl
  · rfl

theorem divLoop_prod (k : Nat) : ∀ (fuel n : Nat) (fs : List Nat),
    (divLoop k fuel n fs).1 * (divLoop k fuel n fs).2.prod = n * fs.prod := by
  intro fuel
  induction fuel with
  | zero => intro n fs; rfl
  | succ fuel ih =>
    intro n fs
    by_cases hd : n % k = 0
    · simp only [divLoop, hd, if_true]
      rw [ih, List.prod_cons, ← mul_assoc, Nat.div_mul_cancel (Nat.dvd_of_mod_eq_zero hd)]
    · simp [divLoop, hd]

theorem divLoop_pos (k : Nat) : ∀ (fuel n : Nat) (fs : List Nat), 1 ≤ n →
    1 ≤ (divLoop k fuel n fs).1 := by
  intro fuel
  induction fuel with
  | zero => intro n fs h; exact h
  | succ fuel ih =>
    intro n fs h
    by_cases hd : n % k = 0
    · simp only [divLoop, hd, if_true]
      apply ih
      have hdvd : k ∣ n := Nat.dvd_of_mod_eq_zero hd
      rcases Nat.eq_zero_or_pos k with h0 | h0
      · rw [h0] at hdvd; have := Nat.eq_zero_of_zero_dvd hdvd; omega
      · exact Nat.div_pos (Nat.le_of_dvd (by omega) hdvd) h0
    · simp only [divLoop, hd, if_false]; exact h

theorem trialLoop_prod : ∀ (fuel k n : Nat) (fs : List Nat),
    (trialLoop fuel k n fs).1 * (trialLoop fuel k n fs).2.prod = n * fs.prod := by
  intro fuel
  induction fuel with
  | zero => intro k n fs; rfl
  | succ fuel ih =>
    intro k n fs
    by_cases hc : (k - 1) * (k - 1) < n
    · simp only [trialLoop, hc, if_true]
      rw [ih, divLoop_prod]
    · simp [trialLoop, hc]

theorem trialLoop_pos : ∀ (fuel k n : Nat) (fs : List Nat), 1 ≤ n →
    1 ≤ (trialLoop fuel k n fs).1 := by
  intro fuel
  induction fuel with
  | zero => intro k n fs h; exact h
  | succ fuel ih =>
    intro k n fs h
    by_cases hc : (k - 1) * (k - 1) < n
    · simp only [trialLoop, hc, if_true]
      exact ih _ _ _ (divLoop_pos _ _ _ _ h)
    · simp only [trialLoop, hc, if_false]; exact h

theorem trialPart_prod (n : Nat) (fs : List Nat) (h : 1 ≤ n) :
    (trialPart n fs).prod = n * fs.prod := by
  unfold trialPart
  have hp := trialLoop_prod n 2 n fs
  have h1 := trialLoop_pos n 2 n fs h
  by_cases hn : 1 < n
  · simp only [hn, if_true]
    by_cases ht : 1 < (trialLoop n 2 n fs).1
    · simp only [ht, if_true, List.prod_cons]; exact hp
    · simp only [ht, if_false]
      have : (trialLoop n 2 n fs).1 = 1 := by omega
      rw [this, one_mul] at hp; exact hp
  · simp only [hn, if_false]
    have : n = 1 := by omega
    rw [this, one_mul]

theorem factorize_prod_aux (N : Nat) (h : 1 ≤ N) : (factorize N).prod = N := by
  unfold factorize
  rw [trialPart_prod _ _ (radixLoop_pos _ _ _ _ h), rebalance_prod, radixLoop_prod]
  split <;> simp

/-- C4: for every N >= 1 the factors `fact[1..nFact]` returned by `factorize(N)`
multiply to exactly N. -/
theorem factorize_prod (N : Nat) (h : 1 ≤ N) : (factorize N).prod = N :=
  factorize_prod_aux N h

/-- C4 at N = 12: the factors are 3 and 4 and their product is 12. -/
theorem factorize_prod_witness : 1 ≤ 12 ∧ (factorize 12).prod = 12 :=
  ⟨by decide, factorize_prod 12 (by decide)⟩

/-! ## factorize: what the factors are -/

theorem radixLoop_dvd : ∀ (fuel n i : Nat) (fs : List Nat),
    (radixLoop fuel n i fs).1 ∣ n := by
  intro fuel
  induction fuel with
  | zero => intro n i fs; exact dvd_rfl
  | succ fuel ih =>
    intro n i fs
    by_cases hc : 1 < n ∧ 0 < i
    · by_cases hd : n % radices i = 0
      · simp only [radixLoop, hc, and_self, if_true, hd]
        exact dvd_trans (ih _ _ _) (Nat.div_dvd_of_dvd (Nat.dvd_of_mod_eq_zero hd))
      · simp only [radixLoop, hc, and_self, if_true, hd, if_false]
        exact ih _ _ _
    · simp [radixLoop, hc]

theorem radixLoop_mem : ∀ (fuel n i : Nat) (fs : List Nat), i ≤ 6 →
    ∀ x ∈ (radixLoop fuel n i fs).2, x ∈ fs ∨ x ∈ [2, 3, 4, 5, 8, 10] := by
  intro fuel
  induction fuel with
  | zero => intro n i fs _ x hx; exact Or.inl hx
  | succ fuel ih =>
    intro n i fs h6 x hx
    by_cases hc : 1 < n ∧ 0 < i
    · by_cases hd : n % radices i = 0
      · simp only [radixLoop, hc, and_self, if_true, hd] at hx
        rcases ih _ _ _ h6 x hx with h | h
        · rcases List.mem_cons.1 h with h | h
          · right; rw [h]; exact radices_mem hc.2 h6
          · exact Or.inl h
        · exact Or.inr h
      · simp only [radixLoop, hc, and_self, if_true, hd, if_false] at hx
        exact ih _ _ _ (by omega) x hx
    · simp only [radixLoop, hc, if_false] at hx
      exact Or.inl hx

theorem substEight_mem : ∀ (fs fs4 : List Nat), substEight fs = some fs4 →
    ∀ x ∈ fs4, x ∈ fs ∨ x = 4 := by
  intro fs
  induction fs with
  | nil => intro fs4 h; simp [substEight] at h
  | cons f fs ih =>
    intro fs4 h x hx
    by_cases h8 : f = 8
    · simp only [substEight, h8, if_true, Option.some.injEq] at h
      subst h
      rcases List.mem_cons.1 hx with h | h
      · exact Or.inr h
      · exact Or.inl (List.mem_cons_of_mem _ h)
    · simp only [substEight, h8, if_false, Option.map_eq_some'] at h
      obtain ⟨r, hr, rfl⟩ := h
      rcases List.mem_cons.1 hx with h | h
      · left; rw [h]; exact List.mem_cons_self _ _
      · rcases ih r hr x h with h | h
        · exact Or.inl (List.mem_cons_of_mem _ h)
        · exact Or.inr h

theorem rebalance_mem (fs : List Nat) : ∀ x ∈ rebalance fs, x ∈ fs ∨ x = 4 := by
  intro x hx
  unfold rebalance at hx
  split at hx
  · rename_i fs1
    split at hx
    · rename_i fs4 h
      rcases List.mem_cons.1 hx with h1 | h1
      · exact Or.inr h1
      · rcases substEight_mem _ _ h x h1 with h2 | h2
        · exact Or.inl (List.mem_cons_of_mem _ h2)
        · exact Or.inr h2
    · exact Or.inl hx
  · exact Or.inl hx

theorem divLoop_dvd (k : Nat) : ∀ (fuel n : Nat) (fs : List Nat),
    (divLoop k fuel n fs).1 ∣ n := by
  intro fuel
  induction fuel with
  | zero => intro n fs; exact dvd_rfl
  | succ fuel ih =>
    intro n fs
    by_cases hd : n % k = 0
    · simp only [divLoop, hd, if_true]
      exact dvd_trans (ih _ _) (Nat.div_dvd_of_dvd (Nat.dvd_of_mod_eq_zero hd))
    · simp [divLoop, hd]

theorem divLoop_mem (k : Nat) : ∀ (fuel n : Nat) (fs : List Nat),
    ∀ x ∈ (divLoop k fuel n fs).2, x ∈ fs ∨ (x = k ∧ k ∣ n) := by
  intro fuel
  induction fuel with
  | zero => intro n fs x hx; exact Or.inl hx
  | succ fuel ih =>
    intro n fs x hx
    by_cases hd : n % k = 0
    · simp only [divLoop, hd, if_true] at hx
      rcases ih _ _ x hx with h | h
      · rcases List.mem_cons.1 h with h | h
        · exact Or.inr ⟨h, Nat.dvd_of_mod_eq_zero hd⟩
        · exact Or.inl h
      · exact Or.inr ⟨h.1, Nat.dvd_of_mod_eq_zero hd⟩
    · simp only [divLoop, hd, if_false] at hx
      exact Or.inl hx

/-- A divisor `k >= 2` of `n`, when `n` has no divisor in `2..k-1`, is prime. -/
theorem prime_of_least_dvd {k n : Nat} (hk : 2 ≤ k) (hd : k ∣ n)
    (hno : ∀ d, 2 ≤ d → d < k → ¬ d ∣ n) : k.Prime := by
  have hne : k ≠ 1 := by omega
  have hp := Nat.minFac_prime hne
  have hle : k.minFac ≤ k := Nat.minFac_le (by omega)
  have hge : ¬ k.minFac < k := fun hlt =>
    hno _ hp.two_le hlt (dvd_trans (Nat.minFac_dvd k) hd)
  have : k.minFac = k := by omega
  rw [← this]; exact hp

/-- A number `n > 1` with no divisor in `2..k-1` and `n <= (k-1)^2` is prime. -/
theorem prime_of_no_small_dvd {k n : Nat} (hn : 1 < n)
    (hsq : ¬ (k - 1) * (k - 1) < n)
    (hno : ∀ d, 2 ≤ d → d < k → ¬ d ∣ n) : n.Prime := by
  by_contra hnp
  have hsq2 := Nat.minFac_sq_le_self (by omega : 0 < n) hnp
  have hp := Nat.minFac_prime (by omega : n ≠ 1)
  have hge : k ≤ n.minFac := by
    by_contra hlt
    exact hno _ hp.two_le (by omega) (Nat.minFac_dvd n)
  have h1 : (k - 1) * (k - 1) < n.minFac ^ 2 := by
    have h2 := hp.two_le
    have : k - 1 < n.minFac := by omega
    calc (k - 1) * (k - 1) < n.minFac * n.minFac := Nat.mul_self_lt_mul_self this
      _ = n.minFac ^ 2 := by ring
  omega

/-- The trial division started at `k` on an `n` without divisors in `2..k-1`
(enough fuel: `n + 1 <= fuel + k`): what is left divides `n` and is 1 or a prime,
and every new factor is a prime divisor of `n`. -/
theorem trialLoop_spec : ∀ (fuel k n : Nat) (fs : List Nat), 2 ≤ k → 1 ≤ n →
    n + 1 ≤ fuel + k → (∀ d, 2 ≤ d → d < k → ¬ d ∣ n) →
    (trialLoop fuel k n fs).1 ∣ n ∧
    (1 < (trialLoop fuel k n fs).1 → (trialLoop fuel k n fs).1.Prime) ∧
    ∀ x ∈ (trialLoop fuel k n fs).2, x ∈ fs ∨ (x.Prime ∧ x ∣ n) := by
  intro fuel
  induction fuel with
  | zero =>
    intro k n fs hk hn hf hno
    have hsq : ¬ (k - 1) * (k - 1) < n := by
      have : n ≤ k - 1 := by omega
      have h2 : k - 1 ≤ (k - 1) * (k - 1) := Nat.le_mul_self _
      omega
    refine ⟨dvd_rfl, fun h1 => prime_of_no_small_dvd h1 hsq hno, fun x hx => Or.inl hx⟩
  | succ fuel ih =>
    intro k n fs hk hn hf hno
    by_cases hc : (k - 1) * (k - 1) < n
    · simp only [trialLoop, hc, if_true]
      have hdv := divLoop_dvd k n n fs
      have hps := divLoop_pos k n n fs hn
      have hex := divLoop_exit k hk n n fs hn le_rfl
      have hle : (divLoop k n n fs).1 ≤ n := Nat.le_of_dvd (by omega) hdv
      have hno1 : ∀ d, 2 ≤ d → d < k + 1 → ¬ d ∣ (divLoop k n n fs).1 := by
        intro d hd2 hdk hdd
        by_cases hdk2 : d < k
        · exact hno d hd2 hdk2 (dvd_trans hdd hdv)
        · have : d = k := by omega
          subst this
          exact hex (Nat.mod_eq_zero_of_dvd hdd)
      obtain ⟨h1, h2, h3⟩ := ih (k + 1) _ (divLoop k n n fs).2 (by omega) hps (by omega) hno1
      refine ⟨dvd_trans h1 hdv, h2, ?_⟩
      intro x hx
      rcases h3 x hx with h | h
      · rcases divLoop_mem k n n fs x h with h4 | h4
        · exact Or.inl h4
        · right
          rw [h4.1]
          exact ⟨prime_of_least_dvd hk h4.2 hno, h4.2⟩
      · exact Or.inr ⟨h.1, dvd_trans h.2 hdv⟩
    · simp only [trialLoop, hc, if_false]
      exact ⟨dvd_rfl, fun h1 => prime_of_no_small_dvd h1 hc hno, fun x hx => Or.inl hx⟩

theorem trialPart_mem (n : Nat) (fs : List Nat) :
    ∀ x ∈ trialPart n fs, x ∈ fs ∨ (x.Prime ∧ x ∣ n) := by
  intro x hx
  unfold trialPart at hx
  by_cases hn : 1 < n
  · simp only [hn, if_true] at hx
    obtain ⟨h1, h2, h3⟩ := trialLoop_spec n 2 n fs le_rfl (by omega) (by omega)
      (fun d hd2 hdk => by omega)
    by_cases ht : 1 < (trialLoop n 2 n fs).1
    · simp only [ht, if_true] at hx
      rcases List.mem_cons.1 hx with h | h
      · right; rw [h]; exact ⟨h2 ht, h1⟩
      · exact h3 x h
    · simp only [ht, if_false] at hx
      exact h3 x hx
  · simp only [hn, if_false] at hx
    exact Or.inl hx

/-- Every element of `factorize N` is 1 (only when `N = 1`), a preferred radix, or a
prime divisor of `N`. -/
theorem factorize_mem (N : Nat) : ∀ x ∈ factorize N,
    (x = 1 ∧ N = 1) ∨ x ∈ [2, 3, 4, 5, 8, 10] ∨ (x.Prime ∧ x ∣ N) := by
  intro x hx
  unfold factorize at hx
  rcases trialPart_mem _ _ x hx with h | h
  · rcases rebalance_mem _ x h with h1 | h1
    · rcases radixLoop_mem _ _ _ _ le_rfl x h1 with h2 | h2
      · by_cases hN : N = 1
        · simp only [hN, if_true, List.mem_singleton] at h2
          exact Or.inl ⟨h2, hN⟩
        · simp [hN] at h2
      · exact Or.inr (Or.inl h2)
    · right; left; rw [h1]; simp
  · exact Or.inr (Or.inr ⟨h.1, dvd_trans h.2 (radixLoop_dvd _ _ _ _)⟩)

/-- C5 as stated fails at N = 1: `factorize(1)` returns the single factor 1, which
is neither one of 2, 3, 4, 5, 8, 10 nor a prime, although 1 has no prime factor
above 37. -/
theorem factorize_one_not_radix_or_prime :
    ¬ ∀ N : Nat, 1 ≤ N → (∀ p : Nat, p.Prime → p ∣ N → p ≤ 37) →
      ∀ x ∈ factorize N, x ∈ [2, 3, 4, 5, 8, 10] ∨ (x.Prime ∧ x ≤ 37) := by
  intro h
  have h1 := h 1 le_rfl
    (fun p hp hd => absurd (Nat.dvd_one.1 hd) hp.one_lt.ne') 1 (by decide)
  rcases h1 with h2 | h2
  · revert h2; decide
  · exact Nat.not_prime_one h2.1

/-- C5 (amended): for every N >= 2 whose largest prime factor is at most 37, every
element of the factor list returned by `factorize(N)` is one of the fast radices
2, 3, 4, 5, 8, 10 or a prime <= 37. -/
theorem factorize_radix_or_prime (N : Nat) (hN : 2 ≤ N)
    (hp : ∀ p : Nat, p.Prime → p ∣ N → p ≤ 37) :
    ∀ x ∈ factorize N, x ∈ [2, 3, 4, 5, 8, 10] ∨ (x.Prime ∧ x ≤ 37) := by
  intro x hx
  rcases factorize_mem N x hx with h | h | h
  · omega
  · exact Or.inl h
  · exact Or.inr ⟨h.1, hp x h.1 h.2⟩

/-- C5 (amended) at N = 112 = 7 * 4 * 4. -/
theorem factorize_radix_or_prime_witness :
    2 ≤ 112 ∧ (∀ p : Nat, p.Prime → p ∣ 112 → p ≤ 37) ∧
    ∀ x ∈ factorize 112, x ∈ [2, 3, 4, 5, 8, 10] ∨ (x.Prime ∧ x ≤ 37) :=
  have hp : ∀ p : Nat, p.Prime → p ∣ 112 → p ≤ 37 := by
    intro p hp hd
    have h2 : p ∣ 2 ^ 4 * 7 := by norm_num; exact hd
    rcases (Nat.Prime.dvd_mul hp).1 h2 with h | h
    · have := Nat.le_of_dvd (by norm_num) (hp.dvd_of_dvd_pow h); omega
    · have := Nat.le_of_dvd (by norm_num) h; omega
  ⟨by decide, hp, factorize_radix_or_prime 112 (by decide) hp⟩


/-! ## The table of nice numbers -/

theorem ascendingB_pairwise : ∀ l : List Nat, ascendingB l = true →
    l.Pairwise (fun a b => a < b) := by
  intro l
  induction l with
  | nil => intro _; exact List.Pairwise.nil
  | cons a l ih =>
    intro h
    cases l with
    | nil => exact List.pairwise_singleton _ _
    | cons b rest =>
      simp only [ascendingB, Bool.and_eq_true, decide_eq_true_eq] at h
      have hp := ih h.2
      refine List.Pairwise.cons ?_ hp
      intro x hx
      rcases List.mem_cons.1 hx with h1 | h1
      · rw [h1]; exact h.1
      · exact lt_trans h.1 (List.rel_of_pairwise_cons hp h1)

theorem subsetB_sound : ∀ (l2 l1 : List Nat), subsetB l1 l2 = true →
    ∀ x ∈ l1, x ∈ l2 := by
  intro l2
  induction l2 with
  | nil =>
    intro l1 h x hx
    cases l1 with
    | nil => simp at hx
    | cons a as => simp [subsetB] at h
  | cons b bs ih =>
    intro l1 h x hx
    cases l1 with
    | nil => simp at hx
    | cons a as =>
      by_cases hab : a = b
      · simp only [subsetB, hab, if_true] at h
        rcases List.mem_cons.1 hx with h1 | h1
        · rw [h1, hab]; exact List.mem_cons_self _ _
        · exact List.mem_cons_of_mem _ (ih as h x h1)
      · by_cases hba : b < a
        · simp only [subsetB, hab, if_false, hba, if_true] at h
          exact List.mem_cons_of_mem _ (ih (a :: as) h x hx)
        · simp [subsetB, hab, hba] at h

theorem divOut_spec (f : Nat) : ∀ (fuel n : Nat), ∃ e : Nat, n = divOut f fuel n * f ^ e := by
  intro fuel
  induction fuel with
  | zero => intro n; exact ⟨0, by simp [divOut]⟩
  | succ fuel ih =>
    intro n
    by_cases hd : n % f = 0
    · simp only [divOut, hd, if_true]
      obtain ⟨e, he⟩ := ih (n / f)
      refine ⟨e + 1, ?_⟩
      have h1 : n = n / f * f := (Nat.div_mul_cancel (Nat.dvd_of_mod_eq_zero hd)).symm
      calc n = n / f * f := h1
        _ = divOut f fuel (n / f) * f ^ e * f := by rw [← he]
        _ = divOut f fuel (n / f) * f ^ (e + 1) := by ring
    · exact ⟨0, by simp [divOut, hd]⟩

theorem smoothB_sound (n : Nat) (h : smoothB n = true) : FiveSmooth (n : Int) := by
  simp only [smoothB, decide_eq_true_eq] at h
  obtain ⟨a, ha⟩ := divOut_spec 2 32 n
  obtain ⟨b, hb⟩ := divOut_spec 3 32 (divOut 2 32 n)
  obtain ⟨c, hc⟩ := divOut_spec 5 32 (divOut 3 32 (divOut 2 32 n))
  rw [h, one_mul] at hc
  rw [hc] at hb
  rw [hb] at ha
  refine ⟨a, b, c, ?_⟩
  have : n = 2 ^ a * 3 ^ b * 5 ^ c := by rw [ha]; ring
  rw [this]; push_cast; ring

set_option maxRecDepth 100000 in
set_option maxHeartbeats 4000000 in
theorem nice_ascendingB : ascendingB fft_nice_numbers = true := by decide

set_option maxRecDepth 100000 in
set_option maxHeartbeats 4000000 in
theorem nice_all_smoothB : fft_nice_numbers.all smoothB = true := by decide

set_option maxRecDepth 100000 in
set_option maxHeartbeats 4000000 in
theorem nice_closed_two :
    subsetB ((fft_nice_numbers.map (fun t => 2 * t)).filter (fun t => t ≤ 9953280))
      fft_nice_numbers = true := by decide

set_option maxRecDepth 100000 in
set_option maxHeartbeats 4000000 in
theorem nice_closed_three :
    subsetB ((fft_nice_numbers.map (fun t => 3 * t)).filter (fun t => t ≤ 9953280))
      fft_nice_numbers = true := by decide

set_option maxRecDepth 100000 in
set_option maxHeartbeats 4000000 in
theorem nice_closed_five :
    subsetB ((fft_nice_numbers.map (fun t => 5 * t)).filter (fun t => t ≤ 9953280))
      fft_nice_numbers = true := by decide

set_option maxRecDepth 100000 in
set_option maxHeartbeats 4000000 in
theorem nice_length : fft_nice_numbers.length = 767 := by decide


theorem nice_pairwise : fft_nice_numbers.Pairwise (fun a b => a < b) :=
  ascendingB_pairwise _ nice_ascendingB

theorem niceAt_eq_getElem (i : Nat) (h : i < fft_nice_numbers.length) :
    niceAt i = ((fft_nice_numbers[i] : Nat) : Int) := by
  unfold niceAt
  rw [List.getD_eq_getElem _ _ h]

theorem niceAt_lt {i j : Nat} (hij : i < j) (hj : j < 767) : niceAt i < niceAt j := by
  have hl := nice_length
  rw [niceAt_eq_getElem i (by omega), niceAt_eq_getElem j (by omega)]
  have := (List.pairwise_iff_getElem.1 nice_pairwise) i j (by omega) (by omega) hij
  exact_mod_cast this

theorem niceAt_le {i j : Nat} (hij : i ≤ j) (hj : j < 767) : niceAt i ≤ niceAt j := by
  rcases Nat.lt_or_ge i j with h | h
  · exact le_of_lt (niceAt_lt h hj)
  · have : i = j := by omega
    rw [this]

theorem niceAt_zero : niceAt 0 = 1 := by decide

set_option maxRecDepth 100000 in
theorem niceAt_last : niceAt 766 = 9953280 := by decide

theorem niceAt_smooth {i : Nat} (hi : i < 767) : FiveSmooth (niceAt i) := by
  have hl := nice_length
  rw [niceAt_eq_getElem i (by omega)]
  apply smoothB_sound
  exact (List.all_eq_true.1 nice_all_smoothB) _ (List.getElem_mem _)

theorem nice_mem_index {x : Nat} (hx : x ∈ fft_nice_numbers) :
    ∃ j, j < 767 ∧ niceAt j = (x : Int) := by
  obtain ⟨j, hj, hjx⟩ := List.getElem_of_mem hx
  have hl := nice_length
  refine ⟨j, by omega, ?_⟩
  rw [niceAt_eq_getElem j hj, hjx]

/-- Every natural of the form `2^a * 3^b * 5^c` up to the last entry 9953280 is in
the table. -/
theorem nice_complete : ∀ (s a b c : Nat), a + b + c = s →
    2 ^ a * 3 ^ b * 5 ^ c ≤ 9953280 → 2 ^ a * 3 ^ b * 5 ^ c ∈ fft_nice_numbers := by
  intro s
  induction s with
  | zero =>
    intro a b c hs _
    have ha : a = 0 := by omega
    have hb : b = 0 := by omega
    have hc : c = 0 := by omega
    subst ha; subst hb; subst hc
    decide
  | succ s ih =>
    intro a b c hs hle
    have key : ∀ (p t : Nat), t ∈ fft_nice_numbers → p * t ≤ 9953280 →
        subsetB ((fft_nice_numbers.map (fun t => p * t)).filter (fun t => t ≤ 9953280))
          fft_nice_numbers = true → p * t ∈ fft_nice_numbers := by
      intro p t ht hpt hsub
      apply subsetB_sound _ _ hsub
      rw [List.mem_filter]
      refine ⟨List.mem_map.2 ⟨t, ht, rfl⟩, ?_⟩
      simpa using hpt
    rcases Nat.eq_zero_or_pos a with ha | ha
    · rcases Nat.eq_zero_or_pos b with hb | hb
      · obtain ⟨c1, rfl⟩ : ∃ c1, c = c1 + 1 := ⟨c - 1, by omega⟩
        have e : 2 ^ a * 3 ^ b * 5 ^ (c1 + 1) = 5 * (2 ^ a * 3 ^ b * 5 ^ c1) := by ring
        rw [e] at hle ⊢
        exact key 5 _ (ih a b c1 (by omega) (by omega)) hle nice_closed_five
      · obtain ⟨b1, rfl⟩ : ∃ b1, b = b1 + 1 := ⟨b - 1, by omega⟩
        have e : 2 ^ a * 3 ^ (b1 + 1) * 5 ^ c = 3 * (2 ^ a * 3 ^ b1 * 5 ^ c) := by ring
        rw [e] at hle ⊢
        exact key 3 _ (ih a b1 c (by omega) (by omega)) hle nice_closed_three
    · obtain ⟨a1, rfl⟩ : ∃ a1, a = a1 + 1 := ⟨a - 1, by omega⟩
      have e : 2 ^ (a1 + 1) * 3 ^ b * 5 ^ c = 2 * (2 ^ a1 * 3 ^ b * 5 ^ c) := by ring
      rw [e] at hle ⊢
      exact key 2 _ (ih a1 b c (by omega) (by omega)) hle nice_closed_two

theorem fiveSmooth_pos {d : Int} (h : FiveSmooth d) : 0 < d := by
  obtain ⟨a, b, c, rfl⟩ := h
  positivity

/-- A 5-smooth integer up to 9953280 is an entry of the table. -/
theorem fiveSmooth_index {d : Int} (h : FiveSmooth d) (hle : d ≤ 9953280) :
    ∃ j, j < 767 ∧ niceAt j = d := by
  obtain ⟨a, b, c, rfl⟩ := h
  have h1 : ((2 ^ a * 3 ^ b * 5 ^ c : Nat) : Int) = 2 ^ a * 3 ^ b * 5 ^ c := by push_cast; ring
  have h2 : 2 ^ a * 3 ^ b * 5 ^ c ≤ 9953280 := by
    have : ((2 ^ a * 3 ^ b * 5 ^ c : Nat) : Int) ≤ 9953280 := by rw [h1]; exact hle
    exact_mod_cast this
  obtain ⟨j, hj, hjx⟩ := nice_mem_index (nice_complete _ a b c rfl h2)
  exact ⟨j, hj, by rw [hjx, h1]⟩

/-! ## The scan of the table -/

/-- The scan started at `i` stops at the first index `r >= i` with
`n <= fft_nice_numbers[r]`, or at 767 when there is none. -/
theorem scanLoop_spec (n : Int) : ∀ (fuel i : Nat), i ≤ 767 → 767 ≤ i + fuel →
    i ≤ scanLoop n fuel i ∧ scanLoop n fuel i ≤ 767 ∧
    (scanLoop n fuel i < 767 → n ≤ niceAt (scanLoop n fuel i)) ∧
    ∀ j, i ≤ j → j < scanLoop n fuel i → niceAt j < n := by
  intro fuel
  induction fuel with
  | zero =>
    intro i hi hf
    simp only [scanLoop]
    exact ⟨le_rfl, hi, fun h => by omega, fun j h1 h2 => by omega⟩
  | succ fuel ih =>
    intro i hi hf
    by_cases hc : i < n_fft_nice_numbers ∧ n > niceAt i
    · simp only [scanLoop, hc, and_self, if_true]
      have hi2 : i < 767 := hc.1
      obtain ⟨h1, h2, h3, h4⟩ := ih (i + 1) (by omega) (by omega)
      refine ⟨by omega, h2, h3, ?_⟩
      intro j hj1 hj2
      rcases Nat.lt_or_ge i j with h | h
      · exact h4 j h hj2
      · have : j = i := by omega
        rw [this]; exact hc.2
    · simp only [scanLoop, hc, if_false]
      refine ⟨le_rfl, hi, ?_, fun j h1 h2 => by omega⟩
      intro hlt
      by_contra hgt
      exact hc ⟨hlt, by omega⟩

theorem scanTable_spec (n : Int) :
    1 ≤ scanTable n ∧ scanTable n ≤ 767 ∧
    (scanTable n < 767 → n ≤ niceAt (scanTable n)) ∧
    ∀ j, 1 ≤ j → j < scanTable n → niceAt j < n :=
  scanLoop_spec n 767 1 (by omega) (by omega)

theorem scanTable_lt_of_le {n : Int} (h : n ≤ 9953280) : scanTable n < 767 := by
  obtain ⟨h1, h2, h3, h4⟩ := scanTable_spec n
  by_contra hge
  have := h4 766 (by omega) (by omega)
  rw [niceAt_last] at this
  omega

theorem scanTable_eq_of_gt {n : Int} (h : 9953280 < n) : scanTable n = 767 := by
  obtain ⟨h1, h2, h3, h4⟩ := scanTable_spec n
  by_contra hne
  have hlt : scanTable n < 767 := by omega
  have h5 := h3 hlt
  have h6 := niceAt_le (show scanTable n ≤ 766 by omega) (by omega)
  rw [niceAt_last] at h6
  omega


/-! ## The branch for lengths beyond the table -/

theorem wrapInt_eq {x : Int} (h1 : -2147483648 ≤ x) (h2 : x < 2147483648) :
    wrapInt x = x := by
  unfold wrapInt; omega

/-- Dividing a positive `k` by `f >= 2` as long as possible: what is left is
positive and `k * f^mult` is unchanged. -/
theorem stripLoop_spec (f : Int) (hf : 2 ≤ f) : ∀ (fuel : Nat) (k : Int) (m : Nat),
    0 < k →
    0 < (stripLoop f fuel k m).1 ∧ (stripLoop f fuel k m).1 ≤ k ∧
    (stripLoop f fuel k m).1 * f ^ (stripLoop f fuel k m).2 = k * f ^ m := by
  intro fuel
  induction fuel with
  | zero => intro k m hk; exact ⟨hk, le_rfl, rfl⟩
  | succ fuel ih =>
    intro k m hk
    by_cases hd : Int.tmod k f = 0
    · simp only [stripLoop, hd, if_true]
      rw [Int.tmod_eq_emod (le_of_lt hk) (by omega)] at hd
      rw [Int.tdiv_eq_ediv (le_of_lt hk) (by omega)]
      have hdvd : f ∣ k := Int.dvd_of_emod_eq_zero hd
      have hpos : 0 < k / f := Int.ediv_pos_of_pos_of_dvd hk (by omega) hdvd
      obtain ⟨h1, h2, h3⟩ := ih (k / f) (m + 1) hpos
      refine ⟨h1, le_trans h2 (Int.ediv_le_self f (le_of_lt hk)), ?_⟩
      rw [h3, pow_succ, ← mul_assoc, mul_comm (k / f) (f ^ m), mul_assoc,
        Int.ediv_mul_cancel hdvd, mul_comm]
    · simp only [stripLoop, hd, if_false]
      exact ⟨hk, le_rfl, trivial⟩

/-- What the three division rounds leave: `n = k * 2^mult[0] * 3^mult[1] * 5^mult[2]`
with `0 < k <= n`. -/
theorem strip5_spec {n : Int} (hn : 0 < n) :
    0 < (strip5 n).1 ∧ (strip5 n).1 ≤ n ∧
    (strip5 n).1 * 2 ^ (strip2 n).2 * 3 ^ (strip3 n).2 * 5 ^ (strip5 n).2 = n := by
  obtain ⟨a1, a2, a3⟩ := stripLoop_spec 2 (by norm_num) 32 n 0 hn
  obtain ⟨b1, b2, b3⟩ := stripLoop_spec 3 (by norm_num) 32 (strip2 n).1 0 a1
  obtain ⟨c1, c2, c3⟩ := stripLoop_spec 5 (by norm_num) 32 (strip3 n).1 0 b1
  refine ⟨c1, le_trans c2 (le_trans b2 a2), ?_⟩
  simp only [pow_zero, mul_one] at a3 b3 c3
  have e3 : (strip5 n).1 * 5 ^ (strip5 n).2 = (strip3 n).1 := c3
  have e2 : (strip3 n).1 * 3 ^ (strip3 n).2 = (strip2 n).1 := b3
  have e1 : (strip2 n).1 * 2 ^ (strip2 n).2 = n := a3
  calc (strip5 n).1 * 2 ^ (strip2 n).2 * 3 ^ (strip3 n).2 * 5 ^ (strip5 n).2
      = (strip5 n).1 * 5 ^ (strip5 n).2 * 3 ^ (strip3 n).2 * 2 ^ (strip2 n).2 := by ring
    _ = n := by rw [e3, e2, e1]

/-- Without overflow the loop `k *= f` multiplies by `f^mult`. -/
theorem mulLoop_eq (f : Int) (hf : 1 ≤ f) : ∀ (m : Nat) (k : Int), 0 ≤ k →
    k * f ^ m < 2147483648 → mulLoop f m k = k * f ^ m := by
  intro m
  induction m with
  | zero => intro k _ _; simp [mulLoop]
  | succ m ih =>
    intro k hk hlt
    have hfm : (1 : Int) ≤ f ^ m := one_le_pow₀ hf
    have e : k * f ^ (m + 1) = k * f * f ^ m := by ring
    have hkf : 0 ≤ k * f := mul_nonneg hk (by omega)
    have hle : k * f ≤ k * f * f ^ m := le_mul_of_one_le_right hkf hfm
    simp only [mulLoop]
    rw [wrapInt_eq (by omega) (by omega), ih (k * f) hkf (by omega), e]

/-- For `k <= 2^30` the loop `while (p2 < k) p2 *= 2` started at `2^j` ends at the
least power of two that is `>= k`, never leaving the range of `int`. -/
theorem p2Loop_spec (k : Int) (hk : k ≤ 2 ^ 30) : ∀ (fuel j : Nat), j ≤ 30 →
    31 ≤ fuel + j → (j = 0 ∨ (2 : Int) ^ (j - 1) < k) →
    ∃ j2 : Nat, j2 ≤ 30 ∧ p2Loop k fuel (2 ^ j) = some (2 ^ j2) ∧ k ≤ 2 ^ j2 ∧
      (j2 = 0 ∨ (2 : Int) ^ (j2 - 1) < k) := by
  intro fuel
  induction fuel with
  | zero => intro j h1 h2 _; omega
  | succ fuel ih =>
    intro j hj hf hprev
    by_cases hc : (2 : Int) ^ j < k
    · have hj30 : j < 30 := by
        by_contra hge
        have : j = 30 := by omega
        rw [this] at hc
        omega
      have hpow : (2 : Int) ^ (j + 1) ≤ 2 ^ 30 :=
        pow_le_pow_right₀ (by norm_num) (by omega)
      have hpos : (0 : Int) < 2 ^ (j + 1) := by positivity
      have e : (2 : Int) ^ j * 2 = 2 ^ (j + 1) := by ring
      simp only [p2Loop, hc, if_true]
      rw [e, wrapInt_eq (by omega) (by norm_num at hpow ⊢; omega)]
      exact ih (j + 1) (by omega) (by omega) (Or.inr (by simpa using hc))
    · simp only [p2Loop, hc, if_false]
      exact ⟨j, hj, rfl, by omega, hprev⟩

/-! ## find_good_smaller_fft_size and find_good_larger_fft_size -/

theorem find_good_smaller_table {n : Int} (h2 : 2 ≤ n) (hB : n ≤ 9953280) :
    find_good_smaller_fft_size n = some (niceAt (scanTable n - 1)) ∧
    niceAt (scanTable n - 1) < n := by
  obtain ⟨h1, _, _, h4⟩ := scanTable_spec n
  have hlt := scanTable_lt_of_le hB
  refine ⟨?_, ?_⟩
  · unfold find_good_smaller_fft_size
    rw [if_neg (by omega), if_pos (show scanTable n < n_fft_nice_numbers from hlt)]
  · rcases Nat.lt_or_ge 1 (scanTable n) with h | h
    · exact h4 _ (by omega) (by omega)
    · have : scanTable n - 1 = 0 := by omega
      rw [this, niceAt_zero]; omega

theorem find_good_smaller_beyond {n : Int} (hB : 9953280 < n) (h31 : n < 2 ^ 31)
    (hk : (strip5 n).1 ≤ 2 ^ 30) :
    ∃ r, find_good_smaller_fft_size n = some r ∧ r ≤ n := by
  obtain ⟨k1, k2, k3⟩ := strip5_spec (show 0 < n by omega)
  unfold find_good_smaller_fft_size
  rw [if_neg (by omega), if_neg (by rw [scanTable_eq_of_gt hB]; decide)]
  by_cases h1 : (strip5 n).1 = 1
  · rw [if_pos h1]; exact ⟨n, rfl, le_rfl⟩
  · rw [if_neg h1]
    obtain ⟨j, hj, hp, hkj, hprev⟩ :=
      p2Loop_spec (strip5 n).1 hk 64 0 (by omega) (by omega) (Or.inl rfl)
    rw [pow_zero] at hp
    rw [hp]
    have hj0 : j ≠ 0 := by
      intro h0
      rw [h0, pow_zero] at hkj
      omega
    have hprev2 : (2 : Int) ^ (j - 1) < (strip5 n).1 := by
      rcases hprev with h | h
      · exact absurd h hj0
      · exact h
    have hhalf : Int.tdiv (2 ^ j) 2 = 2 ^ (j - 1) := by
      obtain ⟨i, rfl⟩ : ∃ i, j = i + 1 := ⟨j - 1, by omega⟩
      rw [Int.tdiv_eq_ediv (by positivity) (by norm_num), pow_succ]
      simp
    refine ⟨_, rfl, ?_⟩
    show rebuild n (Int.tdiv (2 ^ j) 2) ≤ n
    rw [hhalf]
    set q : Int := 2 ^ (j - 1) with hq
    have hq0 : (0 : Int) < q := by positivity
    have ha : (1 : Int) ≤ 2 ^ (strip2 n).2 := one_le_pow₀ (by norm_num)
    have hb : (1 : Int) ≤ 3 ^ (strip3 n).2 := one_le_pow₀ (by norm_num)
    have hc : (1 : Int) ≤ 5 ^ (strip5 n).2 := one_le_pow₀ (by norm_num)
    have hlt : q * 2 ^ (strip2 n).2 * 3 ^ (strip3 n).2 * 5 ^ (strip5 n).2 < n := by
      have h5 : (0 : Int) < 2 ^ (strip2 n).2 * 3 ^ (strip3 n).2 * 5 ^ (strip5 n).2 := by
        positivity
      calc q * 2 ^ (strip2 n).2 * 3 ^ (strip3 n).2 * 5 ^ (strip5 n).2
          = q * (2 ^ (strip2 n).2 * 3 ^ (strip3 n).2 * 5 ^ (strip5 n).2) := by ring
        _ < (strip5 n).1 * (2 ^ (strip2 n).2 * 3 ^ (strip3 n).2 * 5 ^ (strip5 n).2) :=
          mul_lt_mul_of_pos_right hprev2 h5
        _ = (strip5 n).1 * 2 ^ (strip2 n).2 * 3 ^ (strip3 n).2 * 5 ^ (strip5 n).2 := by ring
        _ = n := k3
    have h2 : 0 ≤ q * 2 ^ (strip2 n).2 := by positivity
    have h3 : 0 ≤ q * 2 ^ (strip2 n).2 * 3 ^ (strip3 n).2 := by positivity
    have l3 : q * 2 ^ (strip2 n).2 * 3 ^ (strip3 n).2
        ≤ q * 2 ^ (strip2 n).2 * 3 ^ (strip3 n).2 * 5 ^ (strip5 n).2 :=
      le_mul_of_one_le_right h3 hc
    have l2 : q * 2 ^ (strip2 n).2 ≤ q * 2 ^ (strip2 n).2 * 3 ^ (strip3 n).2 :=
      le_mul_of_one_le_right h2 hb
    have h31b : n < 2147483648 := by norm_num at h31; exact h31
    unfold rebuild
    rw [mulLoop_eq 2 (by norm_num) _ q (le_of_lt hq0) (by omega),
      mulLoop_eq 3 (by norm_num) _ _ h2 (by omega),
      mulLoop_eq 5 (by norm_num) _ _ h3 (by omega)]
    exact le_of_lt hlt

theorem find_good_smaller_le_aux (n : Int) (h1 : 1 ≤ n) (h31 : n < 2 ^ 31)
    (hk : (strip5 n).1 ≤ 2 ^ 30) :
    ∃ r, find_good_smaller_fft_size n = some r ∧ r ≤ n := by
  by_cases hB : n ≤ 9953280
  · by_cases h2 : 2 ≤ n
    · obtain ⟨e, hlt⟩ := find_good_smaller_table h2 hB
      exact ⟨_, e, le_of_lt hlt⟩
    · have : n = 1 := by omega
      subst this
      exact ⟨1, by decide, le_rfl⟩
  · exact find_good_smaller_beyond (by omega) h31 hk

theorem find_good_larger_table {n : Int} (h2 : 2 ≤ n) (hB : n ≤ 9953280) :
    find_good_larger_fft_size n = some (niceAt (scanTable n)) ∧
    scanTable n < 767 ∧ n ≤ niceAt (scanTable n) := by
  obtain ⟨_, _, h3, _⟩ := scanTable_spec n
  have hlt := scanTable_lt_of_le hB
  refine ⟨?_, hlt, h3 hlt⟩
  unfold find_good_larger_fft_size
  rw [if_neg (by omega), if_pos (show scanTable n < n_fft_nice_numbers from hlt)]

theorem find_good_larger_least_aux (n : Int) (h2 : 2 ≤ n) (hB : n ≤ 9953280) :
    ∃ r, find_good_larger_fft_size n = some r ∧ n ≤ r ∧ FiveSmooth r ∧
      ∀ d : Int, FiveSmooth d → n ≤ d → r ≤ d := by
  obtain ⟨e, hlt, hle⟩ := find_good_larger_table h2 hB
  obtain ⟨_, _, _, h4⟩ := scanTable_spec n
  refine ⟨_, e, hle, niceAt_smooth hlt, ?_⟩
  intro d hd hnd
  by_cases hdB : d ≤ 9953280
  · obtain ⟨j, hj, hjd⟩ := fiveSmooth_index hd hdB
    rcases Nat.lt_or_ge j (scanTable n) with h | h
    · exfalso
      rcases Nat.eq_zero_or_pos j with h0 | h0
      · rw [h0, niceAt_zero] at hjd; omega
      · have := h4 j h0 h
        omega
    · rw [← hjd]; exact niceAt_le h hj
  · have h6 := niceAt_le (show scanTable n ≤ 766 by omega) (by omega)
    rw [niceAt_last] at h6
    omega


/-! ## Claims on the size search -/

set_option maxRecDepth 100000 in
theorem find_good_larger_eval_overflow :
    find_good_larger_fft_size 1879048192 = some (-2147483648) := by
  unfold find_good_larger_fft_size
  rw [if_neg (by decide), if_neg (by rw [scanTable_eq_of_gt (by decide)]; decide)]
  decide

set_option maxRecDepth 100000 in
theorem find_good_eval_overflow :
    find_good_fft_size 1879048192 = some (-2147483648) := by
  unfold find_good_fft_size
  rw [if_neg (by decide), if_neg (by rw [scanTable_eq_of_gt (by decide)]; decide)]
  decide

/-- C6 fails at n = 1879048192 = 7 * 2^28: the residual is k = 7 with mult[0] = 28,
the loop gives p2 = 8, and `k = p2` multiplied back 28 times by 2 reaches 2^31, which
does not fit an `int`: the value returned is -2147483648, below n. -/
theorem find_good_larger_fft_size_overflow :
    (0 : Int) ≤ 1879048192 ∧ (1879048192 : Int) < 2 ^ 31 ∧
    strip5 1879048192 = (7, 0) ∧ (strip2 1879048192).2 = 28 ∧
    find_good_larger_fft_size 1879048192 = some (-2147483648) ∧
    ¬ ((1879048192 : Int) ≤ -2147483648) := by
  exact ⟨by decide, by decide, by decide, by decide, find_good_larger_eval_overflow,
    by decide⟩

/-- C7 as stated fails at n = 0: the guard `if (n<=1) return 1;` returns 1 > 0. -/
theorem find_good_smaller_fft_size_zero :
    find_good_smaller_fft_size 0 = some 1 ∧ ¬ ((1 : Int) ≤ 0) := by
  refine ⟨by decide, by decide⟩

/-- The three clauses of the amended C7. -/
theorem find_good_smaller_clauses (n : Int) :
    (n ≤ 1 → find_good_smaller_fft_size n = some 1) ∧
    (1 ≤ n → n < 2 ^ 31 → (strip5 n).1 ≤ 2 ^ 30 →
      ∃ r, find_good_smaller_fft_size n = some r ∧ r ≤ n) ∧
    (1 ≤ n → n ≤ 2 ^ 30 → (strip5 n).1 ≤ 2 ^ 30) := by
  refine ⟨?_, fun h1 h31 hk => find_good_smaller_le_aux n h1 h31 hk, ?_⟩
  · intro h
    unfold find_good_smaller_fft_size
    rw [if_pos h]
  · intro h1 h30
    exact le_trans (strip5_spec (show 0 < n by omega)).2.1 h30

/-- C7 (amended): for every `int` n <= 1, 0 and the negative values included,
`find_good_smaller_fft_size(n)` returns 1; for every `int` n >= 1 such that what is
left of n after dividing out all factors 2, 3 and 5 is at most 2^30, it returns a
value that is <= n; and that condition holds for every n with 1 <= n <= 2^30. -/
theorem find_good_smaller_fft_size_le (n : Int) :
    (n ≤ 1 → find_good_smaller_fft_size n = some 1) ∧
    (1 ≤ n → n < 2 ^ 31 → (strip5 n).1 ≤ 2 ^ 30 →
      ∃ r, find_good_smaller_fft_size n = some r ∧ r ≤ n) ∧
    (1 ≤ n → n ≤ 2 ^ 30 → (strip5 n).1 ≤ 2 ^ 30) :=
  find_good_smaller_clauses n

/-- C7 (amended) at n = -7 and n = 1 (the value is 1), at n = 1234567890 =
2 * 3^2 * 5 * 13717421, beyond the table, whose residual 13717421 is below 2^30
(the value is <= n), and at n = 1000 <= 2^30 (the residual is at most 2^30). -/
theorem find_good_smaller_fft_size_le_witness :
    ((-7 : Int) ≤ 1 ∧ find_good_smaller_fft_size (-7) = some 1) ∧
    ((1 : Int) ≤ 1 ∧ find_good_smaller_fft_size 1 = some 1) ∧
    ((1 : Int) ≤ 1234567890 ∧ (1234567890 : Int) < 2 ^ 31 ∧
      (strip5 1234567890).1 ≤ 2 ^ 30 ∧
      ∃ r, find_good_smaller_fft_size 1234567890 = some r ∧ r ≤ 1234567890) ∧
    ((1 : Int) ≤ 1000 ∧ (1000 : Int) ≤ 2 ^ 30 ∧ (strip5 1000).1 ≤ 2 ^ 30) :=
  ⟨⟨by decide, (find_good_smaller_fft_size_le (-7)).1 (by decide)⟩,
    ⟨by decide, (find_good_smaller_fft_size_le 1).1 (by decide)⟩,
    ⟨by decide, by decide, by decide,
      (find_good_smaller_fft_size_le 1234567890).2.1 (by decide) (by decide) (by decide)⟩,
    ⟨by decide, by decide,
      (find_good_smaller_fft_size_le 1000).2.2 (by decide) (by decide)⟩⟩

/-- C8 fails at n = 1879048192 = 7 * 2^28 for `find_good_fft_size`: the lower
candidate is k = 4 * 2^28 = 2^30, `k*2` overflows to -2147483648, the comparison
`(n-k) < (k*2-n)` is false, and the value returned is -2147483648, which is not
positive. -/
theorem find_good_fft_size_overflow :
    (1879048192 : Int) < 2 ^ 31 ∧
    find_good_fft_size 1879048192 = some (-2147483648) ∧
    ¬ ((0 : Int) < -2147483648) := by
  exact ⟨by decide, find_good_eval_overflow, by decide⟩

/-- C9 fails at n = 1000 = 2^3 * 5^3: the scan stops at the entry 1000 itself and
`find_good_smaller_fft_size` returns the entry before it, 972. -/
theorem find_good_smaller_fft_size_1000 :
    FiveSmooth 1000 ∧ find_good_smaller_fft_size 1000 = some 972 := by
  refine ⟨⟨3, 0, 3, by norm_num⟩, ?_⟩
  decide

/-- C10: for every n with 2 <= n <= 9953280, `find_good_larger_fft_size(n)` is the
smallest integer of the form 2^a * 3^b * 5^c that is >= n. -/
theorem find_good_larger_fft_size_least (n : Int) (h2 : 2 ≤ n) (hB : n ≤ 9953280) :
    ∃ r, find_good_larger_fft_size n = some r ∧ n ≤ r ∧ FiveSmooth r ∧
      ∀ d : Int, FiveSmooth d → n ≤ d → r ≤ d :=
  find_good_larger_least_aux n h2 hB

/-- C10 at n = 1001: the value is 1024. -/
theorem find_good_larger_fft_size_least_witness :
    (2 : Int) ≤ 1001 ∧ (1001 : Int) ≤ 9953280 ∧
    find_good_larger_fft_size 1001 = some 1024 ∧
    ∃ r, find_good_larger_fft_size 1001 = some r ∧ (1001 : Int) ≤ r ∧ FiveSmooth r ∧
      ∀ d : Int, FiveSmooth d → 1001 ≤ d → r ≤ d :=
  ⟨by decide, by decide, by decide,
    find_good_larger_fft_size_least 1001 (by decide) (by decide)⟩


/-! ## Roots of unity -/

theorem pi_eq : pi = Real.pi := by
  unfold pi
  rw [Real.arctan_one]; ring

theorem root_pow (n j : ℕ) :
    root n ^ j = Complex.exp (-(Complex.I * 2 * (Real.pi : ℂ) * (j : ℂ) / (n : ℂ))) := by
  unfold root
  rw [← Complex.exp_nat_mul]
  congr 1; ring

theorem root_pow_self {n : ℕ} (hn : n ≠ 0) : root n ^ n = 1 := by
  rw [root_pow]
  have h : (n : ℂ) ≠ 0 := by exact_mod_cast hn
  have e : -(Complex.I * 2 * (Real.pi : ℂ) * (n : ℂ) / (n : ℂ))
      = ((-1 : ℤ) : ℂ) * (2 * Real.pi * Complex.I) := by
    field_simp; ring
  rw [e, Complex.exp_int_mul_two_pi_mul_I]

theorem root_pow_mod {n : ℕ} (hn : n ≠ 0) (j : ℕ) : root n ^ j = root n ^ (j % n) := by
  conv_lhs => rw [← Nat.div_add_mod j n]
  rw [pow_add, pow_mul, root_pow_self hn, one_pow, one_mul]

theorem root_mul_pow {a b : ℕ} (ha : a ≠ 0) (hb : b ≠ 0) : root (a * b) ^ a = root b := by
  rw [root_pow]
  unfold root
  congr 1
  have h1 : (a : ℂ) ≠ 0 := by exact_mod_cast ha
  have h2 : (b : ℂ) ≠ 0 := by exact_mod_cast hb
  push_cast
  field_simp
  ring

theorem dft_eq_sum_pow (n : ℕ) (x : ℕ → ℂ) (k : ℕ) :
    dft n x k = ∑ m in Finset.range n, x m * root n ^ (k * m) := by
  unfold dft
  apply Finset.sum_congr rfl
  intro m _
  rw [root_pow]
  congr 2
  push_cast; ring

/-- The power `root n ^ j` by its real and imaginary part. -/
theorem root_pow_cx (n j : ℕ) :
    root n ^ j = ⟨Real.cos (2 * Real.pi * j / n), -Real.sin (2 * Real.pi * j / n)⟩ := by
  rw [root_pow]
  have e : -(Complex.I * 2 * (Real.pi : ℂ) * (j : ℂ) / (n : ℂ))
      = ((-(2 * Real.pi * j / n) : ℝ) : ℂ) * Complex.I := by
    push_cast; ring
  rw [e]
  apply Complex.ext
  · rw [Complex.exp_ofReal_mul_I_re, Real.cos_neg]
  · rw [Complex.exp_ofReal_mul_I_im, Real.sin_neg]


/-! ## The short transforms compute the DFT -/

theorem root_two : root 2 = -1 := by
  have h := root_pow_cx 2 1
  rw [pow_one] at h
  rw [h]
  have e : 2 * Real.pi * ((1 : ℕ) : ℝ) / ((2 : ℕ) : ℝ) = Real.pi := by push_cast; ring
  rw [e, Real.cos_pi, Real.sin_pi]
  apply Complex.ext <;> simp

theorem root_four : root 4 = -Complex.I := by
  have h := root_pow_cx 4 1
  rw [pow_one] at h
  rw [h]
  have e : 2 * Real.pi * ((1 : ℕ) : ℝ) / ((4 : ℕ) : ℝ) = Real.pi / 2 := by push_cast; ring
  rw [e, Real.cos_pi_div_two, Real.sin_pi_div_two]
  apply Complex.ext <;> simp

theorem radix2_spec (z : CArr) (k : ℕ) (hk : k < 2) : (radix2 z).cx k = dft 2 z.cx k := by
  rw [dft_eq_sum_pow, root_two]
  interval_cases k <;>
    simp [Finset.sum_range_succ, radix2, CArr.cx, Function.update_apply] <;>
    apply Complex.ext <;> simp <;> ring

theorem radix4_spec (z : CArr) (k : ℕ) (hk : k < 4) : (radix4 z).cx k = dft 4 z.cx k := by
  rw [dft_eq_sum_pow, root_four]
  interval_cases k <;>
    simp [Finset.sum_range_succ, radix4, CArr.cx, Function.update_apply, pow_succ] <;>
    apply Complex.ext <;> simp <;> ring

theorem fft_4_eq_radix4 (a : CArr) : fft_4 a = radix4 a := rfl

theorem fft_4_spec (a : CArr) (k : ℕ) (hk : k < 4) : (fft_4 a).cx k = dft 4 a.cx k :=
  radix4_spec a k hk

theorem dft_eq_sum_pow_mod {n : ℕ} (hn : n ≠ 0) (x : ℕ → ℂ) (k : ℕ) :
    dft n x k = ∑ m in Finset.range n, x m * root n ^ ((k * m) % n) := by
  rw [dft_eq_sum_pow]
  apply Finset.sum_congr rfl
  intro m _
  rw [root_pow_mod hn]

theorem root_three_one : root 3 = ⟨c3_1 + 1, -c3_2⟩ := by
  have h := root_pow_cx 3 1
  rw [pow_one] at h
  rw [h]
  have e : 2 * Real.pi * ((1 : ℕ) : ℝ) / ((3 : ℕ) : ℝ) = 2 * Real.pi / 3 := by push_cast; ring
  rw [e]
  unfold c3_1 c3_2
  congr 1; ring

theorem root_three_two : root 3 ^ 2 = ⟨c3_1 + 1, c3_2⟩ := by
  rw [root_pow_cx 3 2]
  have e : 2 * Real.pi * ((2 : ℕ) : ℝ) / ((3 : ℕ) : ℝ) = 2 * Real.pi - 2 * Real.pi / 3 := by
    push_cast; ring
  rw [e, Real.cos_two_pi_sub, Real.sin_two_pi_sub]
  unfold c3_1 c3_2
  congr 1 <;> ring

theorem radix3_spec (z : CArr) (k : ℕ) (hk : k < 3) : (radix3 z).cx k = dft 3 z.cx k := by
  rw [dft_eq_sum_pow_mod (by norm_num)]
  interval_cases k <;>
    simp only [Finset.sum_range_succ, Finset.sum_range_zero, Nat.reduceMul, Nat.reduceMod,
      root_three_two] <;>
    simp [radix3, CArr.cx, Function.update_apply, root_three_one] <;>
    apply Complex.ext <;> simp <;> ring

theorem root_five_one : root 5 = ⟨Real.cos u5, -Real.sin u5⟩ := by
  have h := root_pow_cx 5 1
  rw [pow_one] at h
  rw [h]
  have e : 2 * Real.pi * ((1 : ℕ) : ℝ) / ((5 : ℕ) : ℝ) = u5 := by unfold u5; push_cast; ring
  rw [e]

theorem root_five_two : root 5 ^ 2 = ⟨Real.cos (2 * u5), -Real.sin (2 * u5)⟩ := by
  rw [root_pow_cx 5 2]
  have e : 2 * Real.pi * ((2 : ℕ) : ℝ) / ((5 : ℕ) : ℝ) = 2 * u5 := by unfold u5; push_cast; ring
  rw [e]

theorem root_five_three : root 5 ^ 3 = ⟨Real.cos (2 * u5), Real.sin (2 * u5)⟩ := by
  rw [root_pow_cx 5 3]
  have e : 2 * Real.pi * ((3 : ℕ) : ℝ) / ((5 : ℕ) : ℝ) = 2 * Real.pi - 2 * u5 := by
    unfold u5; push_cast; ring
  rw [e, Real.cos_two_pi_sub, Real.sin_two_pi_sub, neg_neg]

theorem root_five_four : root 5 ^ 4 = ⟨Real.cos u5, Real.sin u5⟩ := by
  rw [root_pow_cx 5 4]
  have e : 2 * Real.pi * ((4 : ℕ) : ℝ) / ((5 : ℕ) : ℝ) = 2 * Real.pi - u5 := by
    unfold u5; push_cast; ring
  rw [e, Real.cos_two_pi_sub, Real.sin_two_pi_sub, neg_neg]

theorem radix5_spec (z : CArr) (k : ℕ) (hk : k < 5) : (radix5 z).cx k = dft 5 z.cx k := by
  rw [dft_eq_sum_pow_mod (by norm_num)]
  interval_cases k <;>
    simp only [Finset.sum_range_succ, Finset.sum_range_zero, Nat.reduceMul, Nat.reduceMod,
      root_five_two, root_five_three, root_five_four] <;>
    simp [radix5, CArr.cx, Function.update_apply, root_five_one] <;>
    apply Complex.ext <;> simp [c5_1, c5_2, c5_3, c5_4, c5_5] <;> ring

theorem fft_5_eq_radix5 (a : CArr) : fft_5 a = radix5 a := rfl

theorem fft_5_spec (a : CArr) (k : ℕ) (hk : k < 5) : (fft_5 a).cx k = dft 5 a.cx k :=
  radix5_spec a k hk

theorem c8_eq_cos : Real.cos (Real.pi / 4) = c8 := by
  rw [Real.cos_pi_div_four]
  unfold c8
  have h : Real.sqrt 2 * Real.sqrt 2 = 2 := Real.mul_self_sqrt (by norm_num)
  have h0 : Real.sqrt 2 ≠ 0 := by
    intro h1; rw [h1] at h; norm_num at h
  field_simp

theorem c8_eq_sin : Real.sin (Real.pi / 4) = c8 := by
  rw [Real.sin_pi_div_four]
  unfold c8
  have h : Real.sqrt 2 * Real.sqrt 2 = 2 := Real.mul_self_sqrt (by norm_num)
  have h0 : Real.sqrt 2 ≠ 0 := by
    intro h1; rw [h1] at h; norm_num at h
  field_simp

theorem root_eight_one : root 8 = ⟨c8, -c8⟩ := by
  have h := root_pow_cx 8 1
  rw [pow_one] at h
  rw [h]
  have e : 2 * Real.pi * ((1 : ℕ) : ℝ) / ((8 : ℕ) : ℝ) = Real.pi / 4 := by push_cast; ring
  rw [e, c8_eq_cos, c8_eq_sin]

theorem root_eight_two : root 8 ^ 2 = ⟨0, -1⟩ := by
  rw [root_pow_cx 8 2]
  have e : 2 * Real.pi * ((2 : ℕ) : ℝ) / ((8 : ℕ) : ℝ) = Real.pi / 2 := by push_cast; ring
  rw [e, Real.cos_pi_div_two, Real.sin_pi_div_two]

theorem root_eight_three : root 8 ^ 3 = ⟨-c8, -c8⟩ := by
  rw [root_pow_cx 8 3]
  have e : 2 * Real.pi * ((3 : ℕ) : ℝ) / ((8 : ℕ) : ℝ) = Real.pi - Real.pi / 4 := by
    push_cast; ring
  rw [e, Real.cos_pi_sub, Real.sin_pi_sub, c8_eq_cos, c8_eq_sin]

theorem root_eight_four : root 8 ^ 4 = ⟨-1, 0⟩ := by
  rw [root_pow_cx 8 4]
  have e : 2 * Real.pi * ((4 : ℕ) : ℝ) / ((8 : ℕ) : ℝ) = Real.pi := by push_cast; ring
  rw [e, Real.cos_pi, Real.sin_pi, neg_zero]

theorem root_eight_five : root 8 ^ 5 = ⟨-c8, c8⟩ := by
  rw [root_pow_cx 8 5]
  have e : 2 * Real.pi * ((5 : ℕ) : ℝ) / ((8 : ℕ) : ℝ) = Real.pi / 4 + Real.pi := by
    push_cast; ring
  rw [e, Real.cos_add_pi, Real.sin_add_pi, c8_eq_cos, c8_eq_sin, neg_neg]

theorem root_eight_six : root 8 ^ 6 = ⟨0, 1⟩ := by
  rw [root_pow_cx 8 6]
  have e : 2 * Real.pi * ((6 : ℕ) : ℝ) / ((8 : ℕ) : ℝ) = 2 * Real.pi - Real.pi / 2 := by
    push_cast; ring
  rw [e, Real.cos_two_pi_sub, Real.sin_two_pi_sub, Real.cos_pi_div_two, Real.sin_pi_div_two,
    neg_neg]

theorem root_eight_seven : root 8 ^ 7 = ⟨c8, c8⟩ := by
  rw [root_pow_cx 8 7]
  have e : 2 * Real.pi * ((7 : ℕ) : ℝ) / ((8 : ℕ) : ℝ) = 2 * Real.pi - Real.pi / 4 := by
    push_cast; ring
  rw [e, Real.cos_two_pi_sub, Real.sin_two_pi_sub, c8_eq_cos, c8_eq_sin, neg_neg]

set_option maxHeartbeats 1600000 in
theorem fft_8_spec (z : CArr) (k : ℕ) (hk : k < 8) : (fft_8 z).cx k = dft 8 z.cx k := by
  rw [dft_eq_sum_pow_mod (by norm_num)]
  interval_cases k <;>
    simp only [Finset.sum_range_succ, Finset.sum_range_zero, Nat.reduceMul, Nat.reduceMod,
      root_eight_two, root_eight_three, root_eight_four, root_eight_five, root_eight_six,
      root_eight_seven] <;>
    simp [fft_8, fft_4, arrOf, CArr.cx, Function.update_apply, root_eight_one] <;>
    apply Complex.ext <;> simp <;> ring

theorem root_ten_one : root 10 = ⟨-Real.cos (2 * u5), -Real.sin (2 * u5)⟩ := by
  have h := root_pow_cx 10 1
  rw [pow_one] at h
  rw [h]
  have e : 2 * Real.pi * ((1 : ℕ) : ℝ) / ((10 : ℕ) : ℝ) = Real.pi - 2 * u5 := by
    unfold u5; push_cast; ring
  rw [e, Real.cos_pi_sub, Real.sin_pi_sub]

theorem root_ten_two : root 10 ^ 2 = ⟨Real.cos u5, -Real.sin u5⟩ := by
  rw [root_pow_cx 10 2]
  have e : 2 * Real.pi * ((2 : ℕ) : ℝ) / ((10 : ℕ) : ℝ) = u5 := by
    unfold u5; push_cast; ring
  rw [e]

theorem root_ten_three : root 10 ^ 3 = ⟨-Real.cos u5, -Real.sin u5⟩ := by
  rw [root_pow_cx 10 3]
  have e : 2 * Real.pi * ((3 : ℕ) : ℝ) / ((10 : ℕ) : ℝ) = Real.pi - u5 := by
    unfold u5; push_cast; ring
  rw [e, Real.cos_pi_sub, Real.sin_pi_sub]

theorem root_ten_four : root 10 ^ 4 = ⟨Real.cos (2 * u5), -Real.sin (2 * u5)⟩ := by
  rw [root_pow_cx 10 4]
  have e : 2 * Real.pi * ((4 : ℕ) : ℝ) / ((10 : ℕ) : ℝ) = 2 * u5 := by
    unfold u5; push_cast; ring
  rw [e]

theorem root_ten_five : root 10 ^ 5 = ⟨-1, 0⟩ := by
  rw [root_pow_cx 10 5]
  have e : 2 * Real.pi * ((5 : ℕ) : ℝ) / ((10 : ℕ) : ℝ) = Real.pi := by push_cast; ring
  rw [e, Real.cos_pi, Real.sin_pi, neg_zero]

theorem root_ten_six : root 10 ^ 6 = ⟨Real.cos (2 * u5), Real.sin (2 * u5)⟩ := by
  rw [root_pow_cx 10 6]
  have e : 2 * Real.pi * ((6 : ℕ) : ℝ) / ((10 : ℕ) : ℝ) = 2 * Real.pi - 2 * u5 := by
    unfold u5; push_cast; ring
  rw [e, Real.cos_two_pi_sub, Real.sin_two_pi_sub, neg_neg]

theorem root_ten_seven : root 10 ^ 7 = ⟨-Real.cos u5, Real.sin u5⟩ := by
  rw [root_pow_cx 10 7]
  have e : 2 * Real.pi * ((7 : ℕ) : ℝ) / ((10 : ℕ) : ℝ) = u5 + Real.pi := by
    unfold u5; push_cast; ring
  rw [e, Real.cos_add_pi, Real.sin_add_pi, neg_neg]

theorem root_ten_eight : root 10 ^ 8 = ⟨Real.cos u5, Real.sin u5⟩ := by
  rw [root_pow_cx 10 8]
  have e : 2 * Real.pi * ((8 : ℕ) : ℝ) / ((10 : ℕ) : ℝ) = 2 * Real.pi - u5 := by
    unfold u5; push_cast; ring
  rw [e, Real.cos_two_pi_sub, Real.sin_two_pi_sub, neg_neg]

theorem root_ten_nine : root 10 ^ 9 = ⟨-Real.cos (2 * u5), Real.sin (2 * u5)⟩ := by
  rw [root_pow_cx 10 9]
  have e : 2 * Real.pi * ((9 : ℕ) : ℝ) / ((10 : ℕ) : ℝ) = 2 * u5 + Real.pi := by
    unfold u5; push_cast; ring
  rw [e, Real.cos_add_pi, Real.sin_add_pi, neg_neg]

set_option maxHeartbeats 3200000 in
theorem fft_10_spec (z : CArr) (k : ℕ) (hk : k < 10) : (fft_10 z).cx k = dft 10 z.cx k := by
  rw [dft_eq_sum_pow_mod (by norm_num)]
  interval_cases k <;>
    simp only [Finset.sum_range_succ, Finset.sum_range_zero, Nat.reduceMul, Nat.reduceMod,
      root_ten_two, root_ten_three, root_ten_four, root_ten_five, root_ten_six,
      root_ten_seven, root_ten_eight, root_ten_nine] <;>
    simp [fft_10, fft_5, arrOf, CArr.cx, Function.update_apply, root_ten_one] <;>
    apply Complex.ext <;> simp [c5_1, c5_2, c5_3, c5_4, c5_5] <;> ring


/-! ## Loops -/

/-- Invariant rule for `forLoop`. -/
theorem forLoop_inv {σ : Type} (P : ℕ → σ → Prop) (body : ℕ → σ → σ) :
    ∀ (n i : ℕ) (s : σ), P i s →
      (∀ j t, i ≤ j → j < i + n → P j t → P (j + 1) (body j t)) →
      P (i + n) (forLoop body n i s) := by
  intro n
  induction n with
  | zero => intro i s h _; simpa [forLoop] using h
  | succ n ih =>
    intro i s h hstep
    have h1 : P (i + 1) (body i s) := hstep i s le_rfl (by omega) h
    have h2 := ih (i + 1) (body i s) h1
      (fun j t hj1 hj2 hP => hstep j t (by omega) (by omega) hP)
    have e : i + (n + 1) = i + 1 + n := by omega
    rw [e]
    simpa [forLoop] using h2

/-! ## fft_odd computes the DFT of odd length -/

theorem root_conj_pow {n : ℕ} (hn : n ≠ 0) {m k : ℕ} (h : m ≤ n * k) :
    (starRingEnd ℂ) (root n ^ m) = root n ^ (n * k - m) := by
  have h1 : root n ^ (n * k - m) * root n ^ m = 1 := by
    rw [← pow_add, Nat.sub_add_cancel h, pow_mul, root_pow_self hn, one_pow]
  have h2 : (starRingEnd ℂ) (root n ^ m) * root n ^ m = 1 := by
    have e : -(Complex.I * 2 * (Real.pi : ℂ) * (m : ℂ) / (n : ℂ))
        = ((-(2 * Real.pi * m / n) : ℝ) : ℂ) * Complex.I := by
      push_cast; ring
    rw [root_pow, e, ← Complex.exp_conj, ← Complex.exp_add, map_mul, Complex.conj_ofReal,
      Complex.conj_I]
    have : ((-(2 * Real.pi * m / n) : ℝ) : ℂ) * -Complex.I
        + ((-(2 * Real.pi * m / n) : ℝ) : ℂ) * Complex.I = 0 := by ring
    rw [this, Complex.exp_zero]
  have h3 : root n ^ m ≠ 0 := by
    intro h0; rw [h0, mul_zero] at h1; exact zero_ne_one h1
  exact mul_right_cancel₀ h3 (h2.trans h1.symm)

/-- The first loop of `fft_odd`: sums and differences of the entries `j` and `n-j`
of the block. -/
theorem oddSym_loop (n : ℕ) (z : CArr) (cnt : ℕ) (s : CArr × CArr) :
    ∀ j, 1 ≤ j → j < 1 + cnt →
      (forLoop (oddSym n z) cnt 1 s).1.re j = z.re j + z.re (n - j) ∧
      (forLoop (oddSym n z) cnt 1 s).1.im j = z.im j - z.im (n - j) ∧
      (forLoop (oddSym n z) cnt 1 s).2.re j = z.re j - z.re (n - j) ∧
      (forLoop (oddSym n z) cnt 1 s).2.im j = z.im j + z.im (n - j) := by
  refine forLoop_inv
    (fun i (t : CArr × CArr) => ∀ j, 1 ≤ j → j < i →
      t.1.re j = z.re j + z.re (n - j) ∧ t.1.im j = z.im j - z.im (n - j) ∧
      t.2.re j = z.re j - z.re (n - j) ∧ t.2.im j = z.im j + z.im (n - j))
    (oddSym n z) cnt 1 s (fun j h1 h2 => by omega) ?_
  intro i t _ _ hP j hj1 hj2
  by_cases hji : j = i
  · subst hji
    simp [oddSym]
  · have := hP j hj1 (by omega)
    simp [oddSym, Function.update_apply, hji, this]

theorem sum_range_odd (h : ℕ) (F : ℕ → ℂ) :
    ∑ m in Finset.range (2 * h + 1), F m
      = F 0 + ∑ i in Finset.range h, (F (i + 1) + F (2 * h + 1 - (i + 1))) := by
  have e1 : 2 * h + 1 = 1 + (h + h) := by omega
  rw [e1, Finset.sum_range_add, Finset.sum_range_one, Finset.sum_range_add,
    Finset.sum_add_distrib]
  congr 2
  · apply Finset.sum_congr rfl
    intro i _; rw [add_comm]
  · rw [← Finset.sum_range_reflect (fun i => F (1 + (h + i))) h]
    apply Finset.sum_congr rfl
    intro i hi
    have := Finset.mem_range.1 hi
    congr 1; omega

theorem sum_range_odd_Ico (h : ℕ) (F : ℕ → ℂ) :
    ∑ m in Finset.range (2 * h + 1), F m
      = F 0 + ∑ i in Finset.Ico 1 (h + 1), (F i + F (2 * h + 1 - i)) := by
  rw [sum_range_odd, Finset.sum_Ico_eq_sum_range]
  have e : h + 1 - 1 = h := by omega
  rw [e]
  congr 1
  apply Finset.sum_congr rfl
  intro i _
  rw [add_comm 1 i]

/-- One round of the innermost loop of `fft_odd`, in complex terms: `Xi` and `Xni`
are the entries `i` and `n-i` of the block on entry of `fft_odd`. -/
theorem oddInner_step (n j i : ℕ) (hjn : j ≠ n - j) (trig v w : CArr) (Xi Xni : ℂ)
    (hv : v.re i = Xi.re + Xni.re ∧ v.im i = Xi.im - Xni.im ∧
      w.re i = Xi.re - Xni.re ∧ w.im i = Xi.im + Xni.im) (t : CArr × ℕ) :
    (oddInner n j trig v w i t).1.cx j
      = t.1.cx j + (Xi * trig.cx t.2 + Xni * (starRingEnd ℂ) (trig.cx t.2)) ∧
    (oddInner n j trig v w i t).1.cx (n - j)
      = t.1.cx (n - j) + (Xi * (starRingEnd ℂ) (trig.cx t.2) + Xni * trig.cx t.2) ∧
    (∀ m, m ≠ j → m ≠ n - j →
      (oddInner n j trig v w i t).1.re m = t.1.re m ∧
      (oddInner n j trig v w i t).1.im m = t.1.im m) ∧
    (oddInner n j trig v w i t).2 = if t.2 + j ≥ n then t.2 + j - n else t.2 + j := by
  obtain ⟨h1, h2, h3, h4⟩ := hv
  have hnj : n - j ≠ j := fun h => hjn h.symm
  refine ⟨?_, ?_, ?_, rfl⟩
  · apply Complex.ext
    · simp [oddInner, CArr.cx, Function.update_apply, hjn, h1, h2, h3, h4]; ring
    · simp [oddInner, CArr.cx, Function.update_apply, hjn, h1, h2, h3, h4]; ring
  · apply Complex.ext
    · simp [oddInner, CArr.cx, Function.update_apply, hnj, h1, h2, h3, h4]; ring
    · simp [oddInner, CArr.cx, Function.update_apply, hnj, h1, h2, h3, h4]; ring
  · intro m hm1 hm2
    simp [oddInner, Function.update_apply, hm1, hm2]

theorem add_mod_step {n a j : ℕ} (ha : a < n) (hj : j < n) :
    (if a + j ≥ n then a + j - n else a + j) = (a + j) % n := by
  by_cases h : a + j ≥ n
  · rw [if_pos h, Nat.mod_eq_sub_mod h, Nat.mod_eq_of_lt (by omega)]
  · rw [if_neg h, Nat.mod_eq_of_lt (by omega)]

/-- The innermost loop of `fft_odd` for the outputs `j` and `n-j`: `cnt` rounds add
the contributions of the entries `i` and `n-i`, `i = 1..cnt`. -/
theorem oddInner_loop (n j : ℕ) (hn : n ≠ 0) (hjn : j < n - j) (trig v w : CArr)
    (X : ℕ → ℂ) (htrig : ∀ k, k < n → trig.cx k = root n ^ k) (cnt : ℕ)
    (hv : ∀ i, 1 ≤ i → i < 1 + cnt →
      v.re i = (X i).re + (X (n - i)).re ∧ v.im i = (X i).im - (X (n - i)).im ∧
      w.re i = (X i).re - (X (n - i)).re ∧ w.im i = (X i).im + (X (n - i)).im)
    (z : CArr) :
    (forLoop (oddInner n j trig v w) cnt 1 (z, j)).1.cx j
      = z.cx j + ∑ i in Finset.Ico 1 (1 + cnt),
          (X i * root n ^ (i * j) + X (n - i) * (starRingEnd ℂ) (root n ^ (i * j))) ∧
    (forLoop (oddInner n j trig v w) cnt 1 (z, j)).1.cx (n - j)
      = z.cx (n - j) + ∑ i in Finset.Ico 1 (1 + cnt),
          (X i * (starRingEnd ℂ) (root n ^ (i * j)) + X (n - i) * root n ^ (i * j)) ∧
    ∀ m, m ≠ j → m ≠ n - j →
      (forLoop (oddInner n j trig v w) cnt 1 (z, j)).1.re m = z.re m ∧
      (forLoop (oddInner n j trig v w) cnt 1 (z, j)).1.im m = z.im m := by
  have hjlt : j < n := by omega
  have key := forLoop_inv
    (fun i (t : CArr × ℕ) => t.2 = (i * j) % n ∧
      t.1.cx j = z.cx j + ∑ i in Finset.Ico 1 i,
          (X i * root n ^ (i * j) + X (n - i) * (starRingEnd ℂ) (root n ^ (i * j))) ∧
      t.1.cx (n - j) = z.cx (n - j) + ∑ i in Finset.Ico 1 i,
          (X i * (starRingEnd ℂ) (root n ^ (i * j)) + X (n - i) * root n ^ (i * j)) ∧
      ∀ m, m ≠ j → m ≠ n - j → t.1.re m = z.re m ∧ t.1.im m = z.im m)
    (oddInner n j trig v w) cnt 1 (z, j)
    ⟨by simp [Nat.mod_eq_of_lt hjlt], by simp, by simp, fun m _ _ => ⟨rfl, rfl⟩⟩ ?_
  · exact ⟨key.2.1, key.2.2.1, key.2.2.2⟩
  · intro i t hi1 hi2 hP
    obtain ⟨hk, hzj, hznj, hfr⟩ := hP
    have hklt : t.2 < n := by rw [hk]; exact Nat.mod_lt _ (Nat.pos_of_ne_zero hn)
    obtain ⟨s1, s2, s3, s4⟩ :=
      oddInner_step n j i (by omega) trig v w (X i) (X (n - i)) (hv i hi1 hi2) t
    have htr : trig.cx t.2 = root n ^ (i * j) := by
      rw [htrig _ hklt, hk, ← root_pow_mod hn]
    rw [htr] at s1 s2
    refine ⟨?_, ?_, ?_, ?_⟩
    · rw [s4, add_mod_step hklt hjlt, hk, Nat.add_mul, one_mul, Nat.mod_add_mod]
    · rw [s1, hzj, Finset.sum_Ico_succ_top hi1, add_assoc]
    · rw [s2, hznj, Finset.sum_Ico_succ_top hi1, add_assoc]
    · intro m hm1 hm2
      obtain ⟨a, b⟩ := s3 m hm1 hm2
      obtain ⟨c, d⟩ := hfr m hm1 hm2
      exact ⟨a.trans c, b.trans d⟩

theorem sub_mul_sub {n i j : ℕ} (h : i + j ≤ n) :
    (n - j) * (n - i) = n * (n - i - j) + i * j := by
  obtain ⟨c, rfl⟩ : ∃ c, n = i + j + c := ⟨n - (i + j), by omega⟩
  have e1 : i + j + c - j = i + c := by omega
  have e2 : i + j + c - i = j + c := by omega
  have e3 : j + c - j = c := by omega
  rw [e1, e2, e3]; ring

/-- The sum that the innermost loop builds for the output `j` is the DFT. -/
theorem odd_sum_eq_dft (h j : ℕ) (X : ℕ → ℂ) :
    X 0 + ∑ i in Finset.Ico 1 (h + 1),
        (X i * root (2 * h + 1) ^ (i * j)
          + X (2 * h + 1 - i) * (starRingEnd ℂ) (root (2 * h + 1) ^ (i * j)))
      = dft (2 * h + 1) X j := by
  rw [dft_eq_sum_pow, sum_range_odd_Ico h (fun m => X m * root (2 * h + 1) ^ (j * m))]
  simp only [Nat.mul_zero, pow_zero, mul_one]
  congr 1
  apply Finset.sum_congr rfl
  intro i hi
  have hi2 := Finset.mem_Ico.1 hi
  rw [root_conj_pow (by omega) (show i * j ≤ (2 * h + 1) * j from
    Nat.mul_le_mul_right j (by omega))]
  have e : (2 * h + 1) * j - i * j = j * (2 * h + 1 - i) := by
    rw [← Nat.sub_mul, Nat.mul_comm]
  rw [e, Nat.mul_comm i j]

/-- The sum that the innermost loop builds for the output `n-j` is the DFT. -/
theorem odd_sum_eq_dft_neg (h j : ℕ) (hj : j ≤ h) (X : ℕ → ℂ) :
    X 0 + ∑ i in Finset.Ico 1 (h + 1),
        (X i * (starRingEnd ℂ) (root (2 * h + 1) ^ (i * j))
          + X (2 * h + 1 - i) * root (2 * h + 1) ^ (i * j))
      = dft (2 * h + 1) X (2 * h + 1 - j) := by
  rw [dft_eq_sum_pow,
    sum_range_odd_Ico h (fun m => X m * root (2 * h + 1) ^ ((2 * h + 1 - j) * m))]
  simp only [Nat.mul_zero, pow_zero, mul_one]
  congr 1
  apply Finset.sum_congr rfl
  intro i hi
  have hi2 := Finset.mem_Ico.1 hi
  rw [root_conj_pow (by omega) (show i * j ≤ (2 * h + 1) * i by
    rw [Nat.mul_comm i j]; exact Nat.mul_le_mul_right i (by omega))]
  have e : (2 * h + 1) * i - i * j = (2 * h + 1 - j) * i := by
    rw [Nat.sub_mul, Nat.mul_comm j i]
  rw [e, sub_mul_sub (show i + j ≤ 2 * h + 1 by omega), pow_add,
    pow_mul (root (2 * h + 1)) (2 * h + 1) (2 * h + 1 - i - j),
    root_pow_self (by omega), one_pow, one_mul]

/-- One round of the second loop of `fft_odd`. -/
theorem oddOuter_step (h j : ℕ) (hj1 : 1 ≤ j) (hj : j ≤ h) (trig v w : CArr) (X : ℕ → ℂ)
    (htrig : ∀ k, k < 2 * h + 1 → trig.cx k = root (2 * h + 1) ^ k)
    (hv : ∀ i, 1 ≤ i → i < 1 + h →
      v.re i = (X i).re + (X (2 * h + 1 - i)).re ∧
      v.im i = (X i).im - (X (2 * h + 1 - i)).im ∧
      w.re i = (X i).re - (X (2 * h + 1 - i)).re ∧
      w.im i = (X i).im + (X (2 * h + 1 - i)).im)
    (z : CArr) (hz0 : z.cx 0 = X 0) :
    (oddOuter (2 * h + 1) (h + 1) trig v w j z).cx j = dft (2 * h + 1) X j ∧
    (oddOuter (2 * h + 1) (h + 1) trig v w j z).cx (2 * h + 1 - j)
      = dft (2 * h + 1) X (2 * h + 1 - j) ∧
    ∀ m, m ≠ j → m ≠ 2 * h + 1 - j →
      (oddOuter (2 * h + 1) (h + 1) trig v w j z).re m = z.re m ∧
      (oddOuter (2 * h + 1) (h + 1) trig v w j z).im m = z.im m := by
  have hj0 : j ≠ 0 := by omega
  have hjn : j ≠ 2 * h + 1 - j := by omega
  have hnj0 : 2 * h + 1 - j ≠ 0 := by omega
  unfold oddOuter
  rw [show h + 1 - 1 = h by omega]
  obtain ⟨l1, l2, l3⟩ := oddInner_loop (2 * h + 1) j (by omega) (by omega) trig v w X
    htrig h hv
    ⟨Function.update (Function.update z.re j (z.re 0)) (2 * h + 1 - j)
      (Function.update z.re j (z.re 0) 0),
     Function.update (Function.update z.im j (z.im 0)) (2 * h + 1 - j)
      (Function.update z.im j (z.im 0) 0)⟩
  rw [add_comm 1 h] at l1 l2
  refine ⟨?_, ?_, ?_⟩
  · rw [l1, ← odd_sum_eq_dft h j X, ← hz0]
    congr 1
    simp [CArr.cx, Function.update_apply, hjn, hj0]
  · rw [l2, ← odd_sum_eq_dft_neg h j hj X, ← hz0]
    congr 1
    simp [CArr.cx, Function.update_apply, hjn, hj0, hnj0]
  · intro m hm1 hm2
    obtain ⟨a, b⟩ := l3 m hm1 hm2
    rw [a, b]
    simp [Function.update_apply, hm1, hm2]

theorem cx_congr {a b : CArr} {m : ℕ} (h : a.re m = b.re m ∧ a.im m = b.im m) :
    a.cx m = b.cx m := by
  unfold CArr.cx; rw [h.1, h.2]

/-- The second loop of `fft_odd`: the outputs `1..h` and `n-1..n-h` hold the DFT,
the entry 0 is untouched. -/
theorem oddOuter_loop (h : ℕ) (trig v w : CArr) (X : ℕ → ℂ)
    (htrig : ∀ k, k < 2 * h + 1 → trig.cx k = root (2 * h + 1) ^ k)
    (hv : ∀ i, 1 ≤ i → i < 1 + h →
      v.re i = (X i).re + (X (2 * h + 1 - i)).re ∧
      v.im i = (X i).im - (X (2 * h + 1 - i)).im ∧
      w.re i = (X i).re - (X (2 * h + 1 - i)).re ∧
      w.im i = (X i).im + (X (2 * h + 1 - i)).im)
    (z : CArr) (hz0 : z.cx 0 = X 0) :
    (forLoop (oddOuter (2 * h + 1) (h + 1) trig v w) h 1 z).cx 0 = X 0 ∧
    ∀ j, 1 ≤ j → j < 1 + h →
      (forLoop (oddOuter (2 * h + 1) (h + 1) trig v w) h 1 z).cx j = dft (2 * h + 1) X j ∧
      (forLoop (oddOuter (2 * h + 1) (h + 1) trig v w) h 1 z).cx (2 * h + 1 - j)
        = dft (2 * h + 1) X (2 * h + 1 - j) := by
  refine forLoop_inv
    (fun i (t : CArr) => t.cx 0 = X 0 ∧ ∀ j, 1 ≤ j → j < i →
      t.cx j = dft (2 * h + 1) X j ∧ t.cx (2 * h + 1 - j) = dft (2 * h + 1) X (2 * h + 1 - j))
    _ h 1 z ⟨hz0, fun j h1 h2 => by omega⟩ ?_
  intro i t hi1 hi2 hP
  obtain ⟨hP0, hPj⟩ := hP
  obtain ⟨s1, s2, s3⟩ := oddOuter_step h i hi1 (by omega) trig v w X htrig hv t hP0
  refine ⟨?_, ?_⟩
  · rw [cx_congr (s3 0 (by omega) (by omega)), hP0]
  · intro j hj1 hj2
    by_cases hji : j = i
    · subst hji; exact ⟨s1, s2⟩
    · obtain ⟨a, b⟩ := hPj j hj1 (by omega)
      refine ⟨?_, ?_⟩
      · rw [cx_congr (s3 j hji (by omega)), a]
      · rw [cx_congr (s3 (2 * h + 1 - j) (by omega) (by omega)), b]

/-- The third loop of `fft_odd`: the entry 0 receives the sum of all entries. -/
theorem oddDC_loop (h : ℕ) (v w : CArr) (X : ℕ → ℂ)
    (hv : ∀ i, 1 ≤ i → i < 1 + h →
      v.re i = (X i).re + (X (2 * h + 1 - i)).re ∧
      v.im i = (X i).im - (X (2 * h + 1 - i)).im ∧
      w.re i = (X i).re - (X (2 * h + 1 - i)).re ∧
      w.im i = (X i).im + (X (2 * h + 1 - i)).im)
    (z : CArr) (hz0 : z.cx 0 = X 0) :
    (forLoop (oddDC v w) h 1 z).cx 0 = dft (2 * h + 1) X 0 ∧
    ∀ m, m ≠ 0 → (forLoop (oddDC v w) h 1 z).cx m = z.cx m := by
  have key := forLoop_inv
    (fun i (t : CArr) =>
      t.cx 0 = X 0 + ∑ j in Finset.Ico 1 i, (X j + X (2 * h + 1 - j)) ∧
      ∀ m, m ≠ 0 → t.cx m = z.cx m)
    (oddDC v w) h 1 z ⟨by simp [hz0], fun m _ => rfl⟩ ?_
  · refine ⟨?_, key.2⟩
    rw [key.1, dft_eq_sum_pow, sum_range_odd_Ico h (fun m => X m * root (2 * h + 1) ^ (0 * m)),
      add_comm 1 h]
    simp
  · intro i t hi1 hi2 hP
    obtain ⟨hP0, hPm⟩ := hP
    obtain ⟨h1, _, _, h4⟩ := hv i hi1 hi2
    refine ⟨?_, ?_⟩
    · rw [Finset.sum_Ico_succ_top hi1, ← add_assoc, ← hP0]
      apply Complex.ext
      · simp [oddDC, CArr.cx, h1]
      · simp [oddDC, CArr.cx, h4]
    · intro m hm
      rw [← hPm m hm]
      simp [oddDC, CArr.cx, Function.update_apply, hm]

/-- Kernel `fft_odd` on an odd length `n = 2h+1`, with the table `trig[k] = exp(-2*pi*i*k/n)`,
replaces the block `z[0..n-1]` by its DFT. -/
theorem fft_odd_spec (h : ℕ) (trig : CArr)
    (htrig : ∀ k, k < 2 * h + 1 → trig.cx k = root (2 * h + 1) ^ k) (s : OddWork) :
    ∀ q, q < 2 * h + 1 → (fft_odd (2 * h + 1) trig s).z.cx q = dft (2 * h + 1) s.z.cx q := by
  intro q hq
  have e1 : (2 * h + 1 + 1) / 2 = h + 1 := by omega
  have e2 : h + 1 - 1 = h := by omega
  unfold fft_odd
  simp only [e1, e2]
  have hv : ∀ i, 1 ≤ i → i < 1 + h →
      (forLoop (oddSym (2 * h + 1) s.z) h 1 (s.v, s.w)).1.re i
        = (s.z.cx i).re + (s.z.cx (2 * h + 1 - i)).re ∧
      (forLoop (oddSym (2 * h + 1) s.z) h 1 (s.v, s.w)).1.im i
        = (s.z.cx i).im - (s.z.cx (2 * h + 1 - i)).im ∧
      (forLoop (oddSym (2 * h + 1) s.z) h 1 (s.v, s.w)).2.re i
        = (s.z.cx i).re - (s.z.cx (2 * h + 1 - i)).re ∧
      (forLoop (oddSym (2 * h + 1) s.z) h 1 (s.v, s.w)).2.im i
        = (s.z.cx i).im + (s.z.cx (2 * h + 1 - i)).im :=
    fun i hi1 hi2 => oddSym_loop (2 * h + 1) s.z h (s.v, s.w) i hi1 hi2
  obtain ⟨o0, oj⟩ := oddOuter_loop h trig _ _ s.z.cx htrig hv s.z rfl
  obtain ⟨d0, dm⟩ := oddDC_loop h _ _ s.z.cx hv _ o0
  rcases Nat.eq_zero_or_pos q with hq0 | hq0
  · subst hq0; exact d0
  · rw [dm q (by omega)]
    by_cases hqh : q ≤ h
    · exact (oj q hq0 (by omega)).1
    · have := (oj (2 * h + 1 - q) (by omega) (by omega)).2
      rw [show 2 * h + 1 - (2 * h + 1 - q) = q by omega] at this
      exact this


/-! ## twiddleTransf: tables, gather, scatter -/

theorem cx_mul_eq (a b c d : ℝ) :
    (⟨a * c - b * d, b * c + a * d⟩ : ℂ) = (⟨a, b⟩ : ℂ) * ⟨c, d⟩ := by
  apply Complex.ext
  · simp
  · simp; ring

theorem cx_mul_eq2 (a b c d : ℝ) :
    (⟨a * c - b * d, a * d + b * c⟩ : ℂ) = (⟨a, b⟩ : ℂ) * ⟨c, d⟩ := by
  apply Complex.ext <;> simp

theorem root_eq_cos_sin (n : ℕ) :
    (⟨Real.cos (2 * pi / (n : ℝ)), -Real.sin (2 * pi / (n : ℝ))⟩ : ℂ) = root n := by
  have h := root_pow_cx n 1
  rw [pow_one] at h
  rw [h, pi_eq]
  simp

/-- The loop of `initTrig` and the loop that fills `twiddleRe`, `twiddleIm` store
the powers of the complex number `(a, b)` held in the entry 1. -/
theorem powTable_loop (a b : ℝ) (cnt : ℕ) (t0 : CArr) (h0 : t0.cx 0 = 1)
    (h1 : t0.cx 1 = ⟨a, b⟩) :
    ∀ k, k < 2 + cnt → (forLoop (trigStep a b) cnt 2 t0).cx k = (⟨a, b⟩ : ℂ) ^ k := by
  refine forLoop_inv (fun i (t : CArr) => ∀ k, k < i → t.cx k = (⟨a, b⟩ : ℂ) ^ k)
    (trigStep a b) cnt 2 t0 ?_ ?_
  · intro k hk
    interval_cases k
    · rw [h0, pow_zero]
    · rw [h1, pow_one]
  · intro i t hi1 _ hP k hk
    by_cases hki : k = i
    · subst hki
      have hp := hP (k - 1) (by omega)
      have e : (trigStep a b k t).cx k = (⟨a, b⟩ : ℂ) * t.cx (k - 1) := by
        unfold CArr.cx at hp ⊢
        simp only [trigStep, Function.update_same]
        rw [cx_mul_eq]
      rw [e, hp, ← pow_succ', Nat.sub_add_cancel (by omega)]
    · rw [← hP k (by omega)]
      simp [trigStep, CArr.cx, Function.update_apply, hki]

theorem twiddleStep_eq : twiddleStep = trigStep := rfl

/-- Function `initTrig(radix)` fills `trig[k] = exp(-2*pi*i*k/radix)` for `k < radix`. -/
theorem initTrig_spec (radix : ℕ) (trig : CArr) :
    ∀ k, k < radix → (initTrig radix trig).cx k = root radix ^ k := by
  intro k hk
  unfold initTrig
  rw [← root_eq_cos_sin radix]
  exact powTable_loop _ _ (radix - 2) _ (by simp [CArr.cx]; rfl) (by simp [CArr.cx]) k
    (by omega)

/-- The copying loop: `z[k] = y[adr + k*sofarRadix]`. -/
theorem gather_loop (S : ℕ) (y : CArr) (r : ℕ) (z : CArr) (a : ℕ) :
    ∀ k, k < r → (forLoop (gatherStep S y) r 0 (z, a)).1.cx k = y.cx (a + k * S) := by
  have key := forLoop_inv
    (fun i (t : CArr × ℕ) => t.2 = a + i * S ∧ ∀ k, k < i → t.1.cx k = y.cx (a + k * S))
    (gatherStep S y) r 0 (z, a) ⟨by simp, fun k hk => by omega⟩ ?_
  · intro k hk
    exact key.2 k (by omega)
  · intro i t _ _ hP
    obtain ⟨ha, hk⟩ := hP
    refine ⟨by simp [gatherStep, ha]; ring, ?_⟩
    intro k hki
    by_cases hk2 : k = i
    · subst hk2
      simp [gatherStep, CArr.cx, ha]
    · rw [← hk k (by omega)]
      simp [gatherStep, CArr.cx, Function.update_apply, hk2]

/-- The gathering loop with twiddle multiplication (a `do ... while` entered with
`blockNo = 1`), for `radix >= 2`: `z[0] = y[adr]`, `z[k] = twiddle[k] * y[adr + k*S]`. -/
theorem gatherTw_loop (S : ℕ) (y tw : CArr) (r : ℕ) (hr : 2 ≤ r) (z : CArr) (a : ℕ) :
    (forLoop (gatherTwStep S y tw) (max (r - 1) 1) 1
      (⟨Function.update z.re 0 (y.re a), Function.update z.im 0 (y.im a)⟩, a)).1.cx 0
      = y.cx a ∧
    ∀ k, 1 ≤ k → k < r →
      (forLoop (gatherTwStep S y tw) (max (r - 1) 1) 1
        (⟨Function.update z.re 0 (y.re a), Function.update z.im 0 (y.im a)⟩, a)).1.cx k
        = tw.cx k * y.cx (a + k * S) := by
  have key := forLoop_inv
    (fun i (t : CArr × ℕ) => t.2 + S = a + i * S ∧ t.1.cx 0 = y.cx a ∧
      ∀ k, 1 ≤ k → k < i → t.1.cx k = tw.cx k * y.cx (a + k * S))
    (gatherTwStep S y tw) (max (r - 1) 1) 1
    (⟨Function.update z.re 0 (y.re a), Function.update z.im 0 (y.im a)⟩, a)
    ⟨by simp, by simp [CArr.cx], fun k h1 h2 => by omega⟩ ?_
  · refine ⟨key.2.1, fun k hk1 hk2 => key.2.2 k hk1 ?_⟩
    have : max (r - 1) 1 = r - 1 := max_eq_left (by omega)
    omega
  · intro i t hi1 _ hP
    obtain ⟨ha, h0, hk⟩ := hP
    have hi0 : (0 : ℕ) ≠ i := by omega
    refine ⟨by simp [gatherTwStep]; rw [ha]; ring, ?_, ?_⟩
    · rw [← h0]
      simp [gatherTwStep, CArr.cx, Function.update_apply, hi0]
    · intro k hk1 hki
      by_cases hk2 : k = i
      · subst hk2
        simp only [gatherTwStep, CArr.cx, Function.update_same]
        rw [ha, cx_mul_eq2]
      · rw [← hk k hk1 (by omega)]
        simp [gatherTwStep, CArr.cx, Function.update_apply, hk2]

/-- The loop that writes the block back: `y[adr + k*S] = z[k]` for `k < radix`, all
other entries of `y` are kept. -/
theorem scatter_loop (S : ℕ) (hS : 1 ≤ S) (z : CArr) (r : ℕ) (y : CArr) (a : ℕ) :
    (∀ k, k < r → (forLoop (scatterStep S z) r 0 (y, a)).1.cx (a + k * S) = z.cx k) ∧
    ∀ m, (∀ k, k < r → m ≠ a + k * S) →
      (forLoop (scatterStep S z) r 0 (y, a)).1.cx m = y.cx m := by
  have key := forLoop_inv
    (fun i (t : CArr × ℕ) => t.2 = a + i * S ∧
      (∀ k, k < i → t.1.cx (a + k * S) = z.cx k) ∧
      ∀ m, (∀ k, k < i → m ≠ a + k * S) → t.1.cx m = y.cx m)
    (scatterStep S z) r 0 (y, a) ⟨by simp, fun k hk => by omega, fun m _ => rfl⟩ ?_
  · simp only [zero_add] at key
    exact ⟨key.2.1, key.2.2⟩
  · intro i t _ _ hP
    obtain ⟨ha, hk, hm⟩ := hP
    refine ⟨by simp [scatterStep, ha]; ring, ?_, ?_⟩
    · intro k hki
      by_cases hk2 : k = i
      · subst hk2
        simp [scatterStep, CArr.cx, ha]
      · have hlt : k < i := by omega
        have hne : a + k * S ≠ a + i * S := by
          have : k * S < i * S := Nat.mul_lt_mul_of_pos_right hlt (by omega)
          omega
        rw [← hk k hlt]
        simp [scatterStep, CArr.cx, Function.update_apply, ha, hne]
    · intro m hmk
      have hne : m ≠ a + i * S := hmk i (by omega)
      rw [← hm m (fun k hk2 => hmk k (by omega))]
      simp [scatterStep, CArr.cx, Function.update_apply, ha, hne]

/-! ## twiddleTransf: one block, one group loop, one stage -/

theorem dft_congr {n : ℕ} {x x2 : ℕ → ℂ} (h : ∀ k, k < n → x k = x2 k) (q : ℕ) :
    dft n x q = dft n x2 q := by
  unfold dft
  apply Finset.sum_congr rfl
  intro m hm
  rw [h m (Finset.mem_range.1 hm)]

/-- The radices for which `twiddleTransf` has a kernel: the six fast ones and every
odd number (handled by `fft_odd`). -/
theorem kernel_spec (r : ℕ)
    (hr : r = 2 ∨ r = 3 ∨ r = 4 ∨ r = 5 ∨ r = 8 ∨ r = 10 ∨ r % 2 = 1)
    (trig : CArr) (htrig : ∀ k, k < r → trig.cx k = root r ^ k) (o : OddWork) :
    ∀ q, q < r → (kernel r trig o).z.cx q = dft r o.z.cx q := by
  intro q hq
  unfold kernel
  by_cases h2 : r = 2
  · subst h2; simp only [if_true]; exact radix2_spec _ q hq
  by_cases h3 : r = 3
  · subst h3; simp only [if_true, if_neg h2]; exact radix3_spec _ q hq
  by_cases h4 : r = 4
  · subst h4; simp only [if_true, if_neg h2, if_neg h3]; exact radix4_spec _ q hq
  by_cases h5 : r = 5
  · subst h5; simp only [if_true, if_neg h2, if_neg h3, if_neg h4]; exact radix5_spec _ q hq
  by_cases h8 : r = 8
  · subst h8
    simp only [if_true, if_neg h2, if_neg h3, if_neg h4, if_neg h5]
    exact fft_8_spec _ q hq
  by_cases h10 : r = 10
  · subst h10
    simp only [if_true, if_neg h2, if_neg h3, if_neg h4, if_neg h5, if_neg h8]
    exact fft_10_spec _ q hq
  simp only [if_neg h2, if_neg h3, if_neg h4, if_neg h5, if_neg h8, if_neg h10]
  have hodd : r % 2 = 1 := by
    rcases hr with h | h | h | h | h | h | h
    · exact absurd h h2
    · exact absurd h h3
    · exact absurd h h4
    · exact absurd h h5
    · exact absurd h h8
    · exact absurd h h10
    · exact h
  obtain ⟨h, rfl⟩ : ∃ h, r = 2 * h + 1 := ⟨r / 2, by omega⟩
  exact fft_odd_spec h trig htrig o q hq

/-- One round of the group loop: the block at `groupOffset` is replaced by the DFT
of its entries multiplied by the powers of the twiddle factor `T`. -/
theorem groupStep_spec (S r d : ℕ) (hS : 1 ≤ S) (hSr : 1 < S → 2 ≤ r) (T : ℂ) (s : Work)
    (hker : ∀ (o : OddWork) q, q < r → (kernel r s.trig o).z.cx q = dft r o.z.cx q)
    (htw : 1 < S ∧ 0 < d → ∀ k, k < r → s.twiddle.cx k = T ^ k)
    (hT : ¬(1 < S ∧ 0 < d) → T = 1) (g : ℕ) :
    (∀ q, q < r → (groupStep S r d g s).y.cx (s.groupOffset + q * S)
        = dft r (fun k => T ^ k * s.y.cx (s.adr + k * S)) q) ∧
    (∀ m, (∀ q, q < r → m ≠ s.groupOffset + q * S) →
        (groupStep S r d g s).y.cx m = s.y.cx m) := by
  have hg : ∀ k, k < r →
      (if S > 1 ∧ d > 0 then
        forLoop (gatherTwStep S s.y s.twiddle) (max (r - 1) 1) 1
          (⟨Function.update s.z.re 0 (s.y.re s.adr), Function.update s.z.im 0 (s.y.im s.adr)⟩,
            s.adr)
        else forLoop (gatherStep S s.y) r 0 (s.z, s.adr)).1.cx k
        = T ^ k * s.y.cx (s.adr + k * S) := by
    intro k hk
    by_cases hc : S > 1 ∧ d > 0
    · rw [if_pos hc]
      obtain ⟨g0, gk⟩ := gatherTw_loop S s.y s.twiddle r (hSr hc.1) s.z s.adr
      rcases Nat.eq_zero_or_pos k with h0 | h0
      · subst h0; rw [g0]; simp
      · rw [gk k h0 hk, htw hc k hk]
    · rw [if_neg hc, gather_loop S s.y r s.z s.adr k hk, hT hc, one_pow, one_mul]
  obtain ⟨sc1, sc2⟩ := scatter_loop S hS
    (kernel r s.trig
      ⟨(if S > 1 ∧ d > 0 then
        forLoop (gatherTwStep S s.y s.twiddle) (max (r - 1) 1) 1
          (⟨Function.update s.z.re 0 (s.y.re s.adr), Function.update s.z.im 0 (s.y.im s.adr)⟩,
            s.adr)
        else forLoop (gatherStep S s.y) r 0 (s.z, s.adr)).1, s.v, s.w⟩).z
    r s.y s.groupOffset
  refine ⟨?_, ?_⟩
  · intro q hq
    show (forLoop (scatterStep S _) r 0 (s.y, s.groupOffset)).1.cx (s.groupOffset + q * S) = _
    rw [sc1 q hq, hker _ q hq]
    exact dft_congr hg q
  · intro m hm
    exact sc2 m hm

/-- Blocks of one group loop lie in increasing order in memory. -/
theorem block_addr_lt {S r g i q : ℕ} (hS : 1 ≤ S) (hgi : g < i) (hq : q < r) (k : ℕ) :
    g * (S * r) + q * S < i * (S * r) + k * S := by
  have h1 : (g + 1) * (S * r) ≤ i * (S * r) := Nat.mul_le_mul_right _ hgi
  have h2 : q * S < r * S := Nat.mul_lt_mul_of_pos_right hq (by omega)
  have h3 : (g + 1) * (S * r) = g * (S * r) + r * S := by ring
  omega


/-- The group loop for one `dataNo = d`: every block `d + g*(S*r) + k*S`, `g < R`, is
replaced by the DFT of its entries multiplied by the powers of `T`; the rest of `y`
and the tables are kept. -/
theorem group_loop (S r d R : ℕ) (hS : 1 ≤ S) (hSr : 1 < S → 2 ≤ r) (T : ℂ) (s : Work)
    (hker : ∀ (o : OddWork) q, q < r → (kernel r s.trig o).z.cx q = dft r o.z.cx q)
    (htw : 1 < S ∧ 0 < d → ∀ k, k < r → s.twiddle.cx k = T ^ k)
    (hT : ¬(1 < S ∧ 0 < d) → T = 1) (hadr : s.adr = d) (hgo : s.groupOffset = d) :
    (∀ g q, g < R → q < r →
      (forLoop (groupStep S r d) R 0 s).y.cx (d + g * (S * r) + q * S)
        = dft r (fun k => T ^ k * s.y.cx (d + g * (S * r) + k * S)) q) ∧
    (∀ m, (∀ g q, g < R → q < r → m ≠ d + g * (S * r) + q * S) →
      (forLoop (groupStep S r d) R 0 s).y.cx m = s.y.cx m) ∧
    (forLoop (groupStep S r d) R 0 s).trig = s.trig ∧
    (forLoop (groupStep S r d) R 0 s).tw_re = s.tw_re ∧
    (forLoop (groupStep S r d) R 0 s).tw_im = s.tw_im ∧
    (forLoop (groupStep S r d) R 0 s).dataOffset = s.dataOffset := by
  have key := forLoop_inv
    (fun i (t : Work) =>
      t.adr = d + i * (S * r) ∧ t.groupOffset = d + i * (S * r) ∧
      (∀ g q, g < i → q < r →
        t.y.cx (d + g * (S * r) + q * S)
          = dft r (fun k => T ^ k * s.y.cx (d + g * (S * r) + k * S)) q) ∧
      (∀ m, (∀ g q, g < i → q < r → m ≠ d + g * (S * r) + q * S) → t.y.cx m = s.y.cx m) ∧
      t.twiddle = s.twiddle ∧ t.trig = s.trig ∧ t.tw_re = s.tw_re ∧ t.tw_im = s.tw_im ∧
      t.dataOffset = s.dataOffset)
    (groupStep S r d) R 0 s
    ⟨by simp [hadr], by simp [hgo], fun g q hg _ => by omega, fun m _ => rfl,
      rfl, rfl, rfl, rfl, rfl⟩ ?_
  · simp only [zero_add] at key
    exact ⟨key.2.2.1, key.2.2.2.1, key.2.2.2.2.2.1, key.2.2.2.2.2.2.1, key.2.2.2.2.2.2.2.1,
      key.2.2.2.2.2.2.2.2⟩
  · intro i t _ _ hP
    obtain ⟨ha, hg, hdone, hframe, htwd, htrig, htre, htim, hdo⟩ := hP
    obtain ⟨b1, b2⟩ := groupStep_spec S r d hS hSr T t
      (by rw [htrig]; exact hker) (by rw [htwd]; exact htw) hT i
    rw [hg] at b1 b2
    rw [ha] at b1
    refine ⟨?_, ?_, ?_, ?_, htwd, htrig, htre, htim, hdo⟩
    · show t.groupOffset + S * r = _
      rw [hg]; ring
    · show t.groupOffset + S * r = _
      rw [hg]; ring
    · intro g q hgi hq
      by_cases hgi2 : g = i
      · subst hgi2
        rw [b1 q hq]
        apply dft_congr
        intro k _
        rw [hframe]
        intro g2 q2 hg2 hq2
        have := block_addr_lt hS hg2 hq2 k (i := g) (r := r)
        omega
      · have hlt : g < i := by omega
        rw [b2, hdone g q hlt hq]
        intro q2 _
        have := block_addr_lt hS hlt hq q2 (i := i) (r := r)
        omega
    · intro m hm
      rw [b2 m (fun q hq => hm i q (by omega) hq)]
      exact hframe m (fun g q hg2 hq => hm g q (by omega) hq)

theorem block_addr_mod {S : ℕ} (d g r q : ℕ) (hd : d < S) :
    (d + g * (S * r) + q * S) % S = d := by
  have e : d + g * (S * r) + q * S = d + S * (g * r + q) := by ring
  rw [e, Nat.add_mul_mod_self_left, Nat.mod_eq_of_lt hd]

/-- The state with which `dataStep` enters the group loop: the twiddle table holds
the powers of `tw`, and `tw` has been advanced by the base rotation. -/
theorem dataStep_setup (S r : ℕ) (cosw sinw : ℝ) (t : Work) (T : ℂ)
    (hT : 1 < S → (⟨t.tw_re, t.tw_im⟩ : ℂ) = T) :
    ∀ s1 : Work,
      s1 = (if S > 1 then
        { t with
          twiddle := forLoop (twiddleStep t.tw_re t.tw_im) (r - 2) 2
            ⟨Function.update (Function.update t.twiddle.re 0 1) 1 t.tw_re,
             Function.update (Function.update t.twiddle.im 0 0) 1 t.tw_im⟩
          tw_im := sinw * t.tw_re + cosw * t.tw_im
          tw_re := cosw * t.tw_re - sinw * t.tw_im }
        else t) →
      s1.y = t.y ∧ s1.trig = t.trig ∧ s1.adr = t.adr ∧ s1.groupOffset = t.groupOffset ∧
      s1.dataOffset = t.dataOffset ∧
      (1 < S → ∀ k, k < r → s1.twiddle.cx k = T ^ k) ∧
      (1 < S → (⟨s1.tw_re, s1.tw_im⟩ : ℂ) = (⟨cosw, sinw⟩ : ℂ) * T) := by
  intro s1 hs1
  by_cases hS : S > 1
  · rw [if_pos hS] at hs1
    subst hs1
    refine ⟨rfl, rfl, rfl, rfl, rfl, ?_, ?_⟩
    · intro _ k hk
      rw [← hT hS]
      show (forLoop (twiddleStep t.tw_re t.tw_im) (r - 2) 2 _).cx k = _
      rw [twiddleStep_eq]
      exact powTable_loop _ _ (r - 2) _ (by simp [CArr.cx]; rfl) (by simp [CArr.cx]) k
        (by omega)
    · intro _
      rw [← hT hS]
      exact cx_mul_eq cosw sinw t.tw_re t.tw_im
  · rw [if_neg hS] at hs1
    subst hs1
    exact ⟨rfl, rfl, rfl, rfl, rfl, fun h => absurd h hS, fun h => absurd h hS⟩

/-- One call of `twiddleTransf(S, r, R, y)`: every block `d + g*(S*r) + k*S`
(`d < S`, `g < R`, `k < r`) of `y` is multiplied by the twiddle factors
`exp(-2*pi*i*d*k/(S*r))` and replaced by its `r`-point DFT; everything else in `y`
is kept. -/
theorem twiddleTransf_spec (S r R : ℕ) (hS : 1 ≤ S) (hSr : 1 < S → 2 ≤ r)
    (hr : r = 2 ∨ r = 3 ∨ r = 4 ∨ r = 5 ∨ r = 8 ∨ r = 10 ∨ r % 2 = 1) (s : Work) :
    (∀ d g q, d < S → g < R → q < r →
      (twiddleTransf S r R s).y.cx (d + g * (S * r) + q * S)
        = dft r (fun k => root (S * r) ^ (d * k) * s.y.cx (d + g * (S * r) + k * S)) q) ∧
    (∀ m, (∀ d g q, d < S → g < R → q < r → m ≠ d + g * (S * r) + q * S) →
      (twiddleTransf S r R s).y.cx m = s.y.cx m) := by
  have hker : ∀ (o : OddWork) q, q < r →
      (kernel r (initTrig r s.trig) o).z.cx q = dft r o.z.cx q :=
    fun o q hq => kernel_spec r hr _ (initTrig_spec r s.trig) o q hq
  have key := forLoop_inv
    (fun d0 (t : Work) =>
      t.dataOffset = d0 ∧ t.adr = d0 ∧ t.groupOffset = d0 ∧
      (1 < S → (⟨t.tw_re, t.tw_im⟩ : ℂ) = root (S * r) ^ d0) ∧
      t.trig = initTrig r s.trig ∧
      (∀ d g q, d < d0 → g < R → q < r →
        t.y.cx (d + g * (S * r) + q * S)
          = dft r (fun k => root (S * r) ^ (d * k) * s.y.cx (d + g * (S * r) + k * S)) q) ∧
      (∀ m, (∀ d g q, d < d0 → g < R → q < r → m ≠ d + g * (S * r) + q * S) →
        t.y.cx m = s.y.cx m))
    (dataStep S r R (Real.cos (2 * pi / ((S * r : ℕ) : ℝ)))
      (-Real.sin (2 * pi / ((S * r : ℕ) : ℝ))))
    S 0
    { s with
      trig := initTrig r s.trig
      tw_re := 1, tw_im := 0
      dataOffset := 0, groupOffset := 0, adr := 0 }
    ⟨rfl, rfl, rfl, fun _ => by rw [pow_zero]; rfl, rfl, fun d g q hd _ _ => by omega,
      fun m _ => rfl⟩ ?_
  · simp only [zero_add] at key
    exact ⟨key.2.2.2.2.2.1, key.2.2.2.2.2.2⟩
  · intro d t _ hdS hP
    simp only [zero_add] at hdS
    obtain ⟨hdo, hadr, hgo, htw, htrig, hdone, hframe⟩ := hP
    obtain ⟨e1, e2, e3, e4, e5, e6, e7⟩ :=
      dataStep_setup S r (Real.cos (2 * pi / ((S * r : ℕ) : ℝ)))
        (-Real.sin (2 * pi / ((S * r : ℕ) : ℝ))) t (root (S * r) ^ d) htw _ rfl
    obtain ⟨g1, g2, g3, g4, g5, g6⟩ := group_loop S r d R hS hSr (root (S * r) ^ d) _
      (by rw [e2, htrig]; exact hker) (fun h k hk => e6 h.1 k hk)
      (fun h => by
        have : d = 0 := by
          by_contra hd0
          exact h ⟨by
            by_contra hS1
            have : S = 1 := by omega
            omega, by omega⟩
        rw [this, pow_zero])
      (by rw [e3, hadr]) (by rw [e4, hgo])
    rw [e1] at g1 g2
    refine ⟨?_, ?_, ?_, ?_, ?_, ?_, ?_⟩
    · show (forLoop (groupStep S r d) R 0 _).dataOffset + 1 = d + 1
      rw [g6, e5, hdo]
    · show (forLoop (groupStep S r d) R 0 _).dataOffset + 1 = d + 1
      rw [g6, e5, hdo]
    · show (forLoop (groupStep S r d) R 0 _).dataOffset + 1 = d + 1
      rw [g6, e5, hdo]
    · intro hS1
      show (⟨(forLoop (groupStep S r d) R 0 _).tw_re,
        (forLoop (groupStep S r d) R 0 _).tw_im⟩ : ℂ) = _
      rw [g4, g5, e7 hS1, root_eq_cos_sin, pow_succ']
    · show (forLoop (groupStep S r d) R 0 _).trig = _
      rw [g3, e2, htrig]
    · intro d2 g q hd2 hg hq
      show (forLoop (groupStep S r d) R 0 _).y.cx _ = _
      by_cases hdd : d2 = d
      · subst hdd
        rw [g1 g q hg hq]
        apply dft_congr
        intro k hk
        rw [pow_mul, hframe]
        intro d3 g3 q3 hd3 _ _ heq
        have m1 := block_addr_mod d2 g r k hdS
        have m2 := block_addr_mod d3 g3 r q3 (show d3 < S by omega)
        rw [heq, m2] at m1
        omega
      · rw [g2, hdone d2 g q (by omega) hg hq]
        intro g3 q3 _ _ heq
        have m1 := block_addr_mod d2 g r q (show d2 < S by omega)
        have m2 := block_addr_mod d g3 r q3 hdS
        rw [heq, m2] at m1
        omega
    · intro m hm
      show (forLoop (groupStep S r d) R 0 _).y.cx m = _
      rw [g2 m (fun g q hg hq => hm d g q (by omega) hg hq)]
      exact hframe m (fun d2 g q hd2 hg hq => hm d2 g q (by omega) hg hq)


/-! ## permute: the mixed-radix odometer -/

theorem digitVal_congr (c c2 : ℕ → ℕ) : ∀ (fs : List ℕ) (j : ℕ),
    (∀ l, j ≤ l → c l = c2 l) → digitVal c j fs = digitVal c2 j fs := by
  intro fs
  induction fs with
  | nil => intro j _; rfl
  | cons f fs ih =>
    intro j h
    simp only [digitVal]
    rw [h j le_rfl, ih (j + 1) (fun l hl => h l (by omega))]

theorem digitRVal_congr (c c2 : ℕ → ℕ) : ∀ (fs : List ℕ) (j : ℕ),
    (∀ l, j ≤ l → c l = c2 l) → digitRVal c j fs = digitRVal c2 j fs := by
  intro fs
  induction fs with
  | nil => intro j _; rfl
  | cons f fs ih =>
    intro j h
    simp only [digitRVal]
    rw [h j le_rfl, ih (j + 1) (fun l hl => h l (by omega))]

theorem digitsOK_congr (c c2 : ℕ → ℕ) : ∀ (fs : List ℕ) (j : ℕ),
    (∀ l, j ≤ l → c l = c2 l) → digitsOK c j fs → digitsOK c2 j fs := by
  intro fs
  induction fs with
  | nil => intro j _ _; trivial
  | cons f fs ih =>
    intro j h hok
    simp only [digitsOK] at hok ⊢
    exact ⟨by rw [← h j le_rfl]; exact hok.1, ih (j + 1) (fun l hl => h l (by omega)) hok.2⟩

/-- Digits that are zero below the position `j + pre.length`. -/
theorem digits_leading_zero (c : ℕ → ℕ) : ∀ (pre suf : List ℕ) (j : ℕ),
    (∀ f ∈ pre, 1 ≤ f) → (∀ l, j ≤ l → l < j + pre.length → c l = 0) →
    digitVal c j (pre ++ suf) = pre.prod * digitVal c (j + pre.length) suf ∧
    digitRVal c j (pre ++ suf) = digitRVal c (j + pre.length) suf ∧
    (digitsOK c (j + pre.length) suf → digitsOK c j (pre ++ suf)) := by
  intro pre
  induction pre with
  | nil => intro suf j _ _; simp
  | cons f pre ih =>
    intro suf j hpos hz
    have h0 : c j = 0 := hz j le_rfl (by simp)
    have hf : 1 ≤ f := hpos f (List.mem_cons_self _ _)
    obtain ⟨a, b, d⟩ := ih suf (j + 1) (fun x hx => hpos x (List.mem_cons_of_mem _ hx))
      (fun l h1 h2 => hz l (by omega) (by simp only [List.length_cons]; omega))
    have e : j + (f :: pre).length = j + 1 + pre.length := by
      simp only [List.length_cons]; omega
    rw [e]
    refine ⟨?_, ?_, ?_⟩
    · rw [List.cons_append, digitVal, h0, a, List.prod_cons]; ring
    · rw [List.cons_append, digitRVal, h0, b]; ring
    · intro hok
      rw [List.cons_append, digitsOK]
      exact ⟨by omega, d hok⟩

/-- For digits below their radices the source index is the digit reversal of the
number that the digits spell. -/
theorem digitRVal_eq_digitRev (c : ℕ → ℕ) : ∀ (fs : List ℕ) (j : ℕ),
    digitsOK c j fs → digitRVal c j fs = digitRev fs (digitVal c j fs) := by
  intro fs
  induction fs with
  | nil => intro j _; rfl
  | cons f fs ih =>
    intro j hok
    simp only [digitsOK] at hok
    simp only [digitRVal, digitVal, digitRev]
    have h1 : (c j + f * digitVal c (j + 1) fs) % f = c j := by
      rw [Nat.add_mul_mod_self_left, Nat.mod_eq_of_lt hok.1]
    have h2 : (c j + f * digitVal c (j + 1) fs) / f = digitVal c (j + 1) fs := by
      rw [Nat.add_mul_div_left _ _ (by omega), Nat.div_eq_of_lt hok.1, zero_add]
    rw [h1, h2, ih (j + 1) hok.2]

theorem digitVal_lt (c : ℕ → ℕ) : ∀ (fs : List ℕ) (j : ℕ),
    digitsOK c j fs → digitVal c j fs < fs.prod := by
  intro fs
  induction fs with
  | nil => intro j _; simp [digitVal]
  | cons f fs ih =>
    intro j hok
    simp only [digitsOK] at hok
    simp only [digitVal, List.prod_cons]
    have := ih (j + 1) hok.2
    calc c j + f * digitVal c (j + 1) fs < f + f * digitVal c (j + 1) fs := by omega
      _ = f * (digitVal c (j + 1) fs + 1) := by ring
      _ ≤ f * fs.prod := Nat.mul_le_mul_left f this

/-- The last index is a fixed point of the digit reversal. -/
theorem digitRev_last : ∀ (fs : List ℕ), (∀ f ∈ fs, 1 ≤ f) → fs ≠ [] →
    digitRev fs (fs.prod - 1) = fs.prod - 1 := by
  intro fs
  induction fs with
  | nil => intro _ h; exact absurd rfl h
  | cons f fs ih =>
    intro hpos _
    have hf : 1 ≤ f := hpos f (List.mem_cons_self _ _)
    have hfs : ∀ x ∈ fs, 1 ≤ x := fun x hx => hpos x (List.mem_cons_of_mem _ hx)
    have hP : 1 ≤ fs.prod := by
      apply Nat.pos_of_ne_zero
      intro h0
      obtain h := List.prod_eq_zero_iff.1 h0
      have := hfs 0 h
      omega
    simp only [digitRev, List.prod_cons]
    have e : f * fs.prod - 1 = (f - 1) + f * (fs.prod - 1) := by
      have : f * fs.prod = f * (fs.prod - 1) + f := by
        conv_lhs => rw [show fs.prod = (fs.prod - 1) + 1 by omega]
        ring
      omega
    have h1 : (f * fs.prod - 1) % f = f - 1 := by
      rw [e, Nat.add_mul_mod_self_left, Nat.mod_eq_of_lt (by omega)]
    have h2 : (f * fs.prod - 1) / f = fs.prod - 1 := by
      rw [e, Nat.add_mul_div_left _ _ (by omega), Nat.div_eq_of_lt (by omega), zero_add]
    rw [h1, h2]
    cases fs with
    | nil => simp [digitRev]
    | cons f2 fs2 =>
      rw [ih hfs (by simp)]
      have : (f - 1) * (f2 :: fs2).prod + ((f2 :: fs2).prod - 1) = f * (f2 :: fs2).prod - 1 := by
        have h3 : f * (f2 :: fs2).prod = (f - 1) * (f2 :: fs2).prod + (f2 :: fs2).prod := by
          conv_lhs => rw [show f = (f - 1) + 1 by omega]
          ring
        omega
      exact this

/-- The carry loop of `permute`, entered at digit `j` with all lower digits zero and
digit `j` at most equal to its radix, while the digits spell a number `v` below the
transform length: it ends with every digit below its radix, the digits still spell
`v`, and `k` is the weighted sum of the digits. -/
theorem carryLoop_spec (fs : List ℕ) (fact remain : ℕ → ℕ)
    (hfact : ∀ (pre : List ℕ) f suf, fs = pre ++ f :: suf → fact (pre.length + 1) = f)
    (hremain : ∀ (pre suf : List ℕ), fs = pre ++ suf → remain pre.length = suf.prod)
    (hpos : ∀ f ∈ fs, 1 ≤ f) :
    ∀ (fuel : ℕ) (pre : List ℕ) (f : ℕ) (suf : List ℕ) (j : ℕ) (count : ℕ → ℕ) (k : ℤ)
      (v : ℕ),
      fs = pre ++ f :: suf → j = pre.length + 1 → suf.length + 1 ≤ fuel →
      (∀ l, 1 ≤ l → l < j → count l = 0) →
      count j ≤ f → digitsOK count (j + 1) suf →
      pre.prod * digitVal count j (f :: suf) = v → v < fs.prod →
      k = (digitRVal count j (f :: suf) : ℤ) →
      digitsOK (carryLoop fact remain fuel j count k).1 1 fs ∧
      digitVal (carryLoop fact remain fuel j count k).1 1 fs = v ∧
      (carryLoop fact remain fuel j count k).2
        = (digitRVal (carryLoop fact remain fuel j count k).1 1 fs : ℤ) := by
  intro fuel
  induction fuel with
  | zero => intro pre f suf j count k v _ _ h; omega
  | succ fuel ih =>
    intro pre f suf j count k v hfs hj hfuel hzero hcj hok hv hvlt hk
    have hfj : fact j = f := by rw [hj]; exact hfact pre f suf hfs
    have hpre : ∀ x ∈ pre, 1 ≤ x := fun x hx => hpos x (by rw [hfs]; simp [hx])
    by_cases hc : count j ≥ fact j
    · -- carry into the next digit
      rw [hfj] at hc
      have hcjf : count j = f := by omega
      cases suf with
      | nil =>
        exfalso
        simp only [digitVal, hcjf, Nat.mul_zero, Nat.add_zero] at hv
        rw [hfs, List.prod_append, List.prod_singleton, hv] at hvlt
        omega
      | cons f2 suf2 =>
        simp only [digitsOK] at hok
        have hfs2 : fs = (pre ++ [f]) ++ f2 :: suf2 := by rw [hfs]; simp
        have hfs3 : fs = (pre ++ [f, f2]) ++ suf2 := by rw [hfs]; simp
        have hr0 : remain (j - 1) = f * (f2 * suf2.prod) := by
          have := hremain pre (f :: f2 :: suf2) hfs
          rw [show j - 1 = pre.length by omega, this]
          simp
        have hr2 : remain (j + 1) = suf2.prod := by
          have := hremain (pre ++ [f, f2]) suf2 hfs3
          rw [show j + 1 = (pre ++ [f, f2]).length by simp; omega, this]
        have hne1 : j + 1 ≠ j := by omega
        obtain ⟨count2, hcount2⟩ : ∃ c : ℕ → ℕ, c = Function.update (Function.update count j 0)
            (j + 1) (Function.update count j 0 (j + 1) + 1) := ⟨_, rfl⟩
        have c2a : count2 (j + 1) = count (j + 1) + 1 := by
          rw [hcount2]; simp [Function.update_apply]
        have c2b : count2 j = 0 := by
          rw [hcount2]; simp [Function.update_apply]
        have c2c : ∀ l, l ≠ j → l ≠ j + 1 → count2 l = count l := by
          intro l h1 h2
          rw [hcount2]; simp [Function.update_apply, h1, h2]
        have c2d : ∀ l, j + 1 + 1 ≤ l → count2 l = count l :=
          fun l hl => c2c l (by omega) (by omega)
        have key := ih (pre ++ [f]) f2 suf2 (j + 1) count2
          (k - (remain (j - 1) : ℤ) + (remain (j + 1) : ℤ)) v hfs2
          (by simp; omega) (by simp only [List.length_cons] at hfuel; omega)
          (by
            intro l hl1 hl2
            by_cases hlj : l = j
            · rw [hlj, c2b]
            · rw [c2c l hlj (by omega)]
              exact hzero l hl1 (by omega))
          (by rw [c2a]; omega)
          (digitsOK_congr count count2 suf2 (j + 1 + 1) (fun l hl => (c2d l hl).symm) hok.2)
          (by
            rw [← hv]
            simp only [digitVal, List.prod_append, List.prod_singleton, hcjf, c2a]
            rw [digitVal_congr count2 count suf2 (j + 1 + 1) c2d]
            ring)
          hvlt
          (by
            rw [hk, hr0, hr2]
            simp only [digitRVal, hcjf, List.prod_cons, c2a]
            rw [digitRVal_congr count2 count suf2 (j + 1 + 1) c2d]
            push_cast
            ring)
        simp only [carryLoop, hfj, hc, if_true]
        rw [← hcount2]
        exact key
    · -- the digit is below its radix: the loop ends
      simp only [carryLoop, hc, if_false]
      rw [hfj] at hc
      have hz := digits_leading_zero count pre (f :: suf) 1 hpre
        (fun l h1 h2 => hzero l h1 (by omega))
      have e : 1 + pre.length = j := by omega
      rw [e, ← hfs] at hz
      obtain ⟨z1, z2, z3⟩ := hz
      refine ⟨z3 ⟨by omega, hok⟩, by rw [z1, hv], by rw [z2, hk]⟩

theorem countInit_loop (n : ℕ) (count : ℕ → ℕ) :
    ∀ l, 1 ≤ l → l < 1 + n → forLoop (fun i c => Function.update c i 0) n 1 count l = 0 := by
  refine forLoop_inv (fun i (c : ℕ → ℕ) => ∀ l, 1 ≤ l → l < i → c l = 0)
    (fun i c => Function.update c i 0) n 1 count (fun l h1 h2 => by omega) ?_
  intro i c _ _ hP l hl1 hl2
  by_cases h : l = i
  · simp [Function.update_apply, h]
  · simp only [Function.update_apply, h, if_false]
    exact hP l hl1 (by omega)

/-- Function `permute` writes `y[g] = x[digitRev fact g]` for every `g < N`: the mixed-radix
digit reversal of the input. -/
theorem permute_spec (fs : List ℕ) (fact remain : ℕ → ℕ) (hne : fs ≠ [])
    (hfact : ∀ (pre : List ℕ) f suf, fs = pre ++ f :: suf → fact (pre.length + 1) = f)
    (hremain : ∀ (pre suf : List ℕ), fs = pre ++ suf → remain pre.length = suf.prod)
    (hpos : ∀ f ∈ fs, 1 ≤ f) (x y : CArr) (count : ℕ → ℕ) :
    ∀ g, g < fs.prod →
      (permute fs.prod fs.length fact remain x y count).cx g = x.cx (digitRev fs g) := by
  obtain ⟨f, suf, hfs⟩ : ∃ f suf, fs = f :: suf := by
    cases fs with
    | nil => exact absurd rfl hne
    | cons f suf => exact ⟨f, suf, rfl⟩
  have hz := countInit_loop fs.length count
  have hz0 := digits_leading_zero
    (forLoop (fun i c => Function.update c i 0) fs.length 1 count) fs [] 1 hpos
    (fun l h1 h2 => hz l h1 h2)
  rw [List.append_nil] at hz0
  have key := forLoop_inv
    (fun i (t : PermWork) =>
      digitsOK t.count 1 fs ∧ digitVal t.count 1 fs = i ∧
      t.k = (digitRVal t.count 1 fs : ℤ) ∧
      ∀ g, g < i → t.y.cx g = x.cx (digitRev fs g))
    (permuteStep fs.length fact remain x) (fs.prod - 1) 0
    { y := y, count := forLoop (fun i c => Function.update c i 0) fs.length 1 count, k := 0 }
    ⟨hz0.2.2 trivial, by rw [hz0.1]; simp [digitVal], by rw [hz0.2.1]; simp [digitRVal],
      fun g hg => by omega⟩ ?_
  · intro g hg
    simp only [zero_add] at key
    obtain ⟨_, _, _, ky⟩ := key
    by_cases hlast : g = fs.prod - 1
    · subst hlast
      rw [digitRev_last fs hpos hne]
      simp [permute, CArr.cx]
    · rw [← ky g (by omega)]
      simp [permute, CArr.cx, Function.update_apply, hlast]
  · intro i t _ hi hP
    simp only [zero_add] at hi
    obtain ⟨hok, hval, hk, hy⟩ := hP
    have hkrev : t.k = (digitRev fs i : ℤ) := by
      rw [hk, digitRVal_eq_digitRev t.count fs 1 hok, hval]
    have hok2 := hok
    rw [hfs] at hok2
    simp only [digitsOK] at hok2
    obtain ⟨count1, hcount1⟩ : ∃ c : ℕ → ℕ, c = Function.update t.count 1 (t.count 1 + 1) :=
      ⟨_, rfl⟩
    have c1a : count1 1 = t.count 1 + 1 := by rw [hcount1]; simp
    have c1b : ∀ l, 1 + 1 ≤ l → count1 l = t.count l := by
      intro l hl
      have : l ≠ 1 := by omega
      rw [hcount1]; simp [Function.update_apply, this]
    have hr1 : remain 1 = suf.prod := by
      have := hremain [f] suf (by rw [hfs]; rfl)
      simpa using this
    have hlen : fs.length = suf.length + 1 := by rw [hfs]; rfl
    have carry := carryLoop_spec fs fact remain hfact hremain hpos fs.length [] f suf 1
      count1 (t.k + (remain 1 : ℤ)) (i + 1) hfs rfl (by omega)
      (fun l h1 h2 => by omega) (by rw [c1a]; omega)
      (digitsOK_congr t.count count1 suf (1 + 1) (fun l hl => (c1b l hl).symm) hok2.2)
      (by
        simp only [List.prod_nil, one_mul, digitVal, c1a]
        rw [digitVal_congr count1 t.count suf (1 + 1) c1b, ← hval, hfs]
        simp only [digitVal]
        ring)
      (by omega)
      (by
        rw [hk, hr1, hfs]
        simp only [digitRVal, c1a]
        rw [digitRVal_congr count1 t.count suf (1 + 1) c1b]
        push_cast
        ring)
    rw [hcount1] at carry
    refine ⟨carry.1, carry.2.1, carry.2.2, ?_⟩
    intro g hg
    by_cases hgi : g = i
    · subst hgi
      simp [permuteStep, CArr.cx, hkrev]
    · rw [← hy g (by omega)]
      simp [permuteStep, CArr.cx, Function.update_apply, hgi]


/-! ## The stage tables -/

theorem actualTab_app (fs pre : List ℕ) (f : ℕ) (suf : List ℕ) (h : fs = pre ++ f :: suf) :
    actualTab fs (pre.length + 1) = f := by
  unfold actualTab
  rw [h, Nat.add_sub_cancel, List.getD_eq_getElem?_getD,
    List.getElem?_append_right (le_refl _)]
  simp

theorem prod_pos_of_pos (l : List ℕ) (h : ∀ f ∈ l, 1 ≤ f) : 1 ≤ l.prod := by
  apply Nat.pos_of_ne_zero
  intro h0
  have := h 0 (List.prod_eq_zero_iff.1 h0)
  omega

/-- Entry `remain[i]` is the product of the factors after the `i`-th. -/
theorem remainTab_app (fs : List ℕ) (hpos : ∀ f ∈ fs, 1 ≤ f) :
    ∀ (n : ℕ) (pre suf : List ℕ), pre.length = n → fs = pre ++ suf →
      remainTab fs.prod (actualTab fs) pre.length = suf.prod := by
  intro n
  induction n with
  | zero =>
    intro pre suf hl h
    have : pre = [] := List.length_eq_zero.1 hl
    subst this
    simp only [List.nil_append] at h
    rw [h]; rfl
  | succ n ih =>
    intro pre suf hl h
    have hne : pre ≠ [] := by
      intro h0; rw [h0] at hl; simp at hl
    obtain ⟨pre1, f, rfl⟩ : ∃ pre1 f, pre = pre1 ++ [f] :=
      ⟨pre.dropLast, pre.getLast hne, (List.dropLast_append_getLast hne).symm⟩
    have hl1 : pre1.length = n := by simp at hl; exact hl
    have h2 : fs = pre1 ++ f :: suf := by rw [h]; simp
    have hf : 1 ≤ f := hpos f (by rw [h2]; simp)
    have e : (pre1 ++ [f]).length = pre1.length + 1 := by simp
    rw [e, remainTab, ih pre1 (f :: suf) hl1 h2, actualTab_app fs pre1 f suf h2, List.prod_cons,
      Nat.mul_div_cancel_left _ (by omega)]

/-- Entry `sofar[i]` is the product of the factors before the `i`-th. -/
theorem sofarTab_app (fs : List ℕ) :
    ∀ (n : ℕ) (pre suf : List ℕ), pre.length = n → fs = pre ++ suf →
      sofarTab (actualTab fs) (pre.length + 1) = pre.prod := by
  intro n
  induction n with
  | zero =>
    intro pre suf hl _
    have : pre = [] := List.length_eq_zero.1 hl
    subst this
    rfl
  | succ n ih =>
    intro pre suf hl h
    have hne : pre ≠ [] := by
      intro h0; rw [h0] at hl; simp at hl
    obtain ⟨pre1, f, rfl⟩ : ∃ pre1 f, pre = pre1 ++ [f] :=
      ⟨pre.dropLast, pre.getLast hne, (List.dropLast_append_getLast hne).symm⟩
    have hl1 : pre1.length = n := by simp at hl; exact hl
    have h2 : fs = pre1 ++ f :: suf := by rw [h]; simp
    have e : (pre1 ++ [f]).length + 1 = pre1.length + 2 := by simp
    rw [e, sofarTab, ih pre1 (f :: suf) hl1 h2, actualTab_app fs pre1 f suf h2,
      List.prod_append, List.prod_singleton]

/-! ## The Cooley-Tukey step -/

theorem sum_range_mul (S r : ℕ) (G : ℕ → ℂ) :
    ∑ m in Finset.range (S * r), G m
      = ∑ m in Finset.range S, ∑ k in Finset.range r, G (k + m * r) := by
  induction S with
  | zero => simp
  | succ S ih =>
    rw [Nat.succ_mul, Finset.sum_range_add, ih, Finset.sum_range_succ]
    congr 1
    apply Finset.sum_congr rfl
    intro k _
    rw [add_comm]

/-- An `r`-point DFT over `S`-point DFTs of the decimated sequences, with the
twiddle factors `exp(-2*pi*i*d*k/(S*r))` in between, is the `S*r`-point DFT. -/
theorem cooley_tukey (S r : ℕ) (hS : S ≠ 0) (hr : r ≠ 0) (F : ℕ → ℂ) (d q : ℕ) :
    dft r (fun k => root (S * r) ^ (d * k) * dft S (fun m => F (k + m * r)) d) q
      = dft (S * r) F (d + q * S) := by
  rw [dft_eq_sum_pow, dft_eq_sum_pow, sum_range_mul, Finset.sum_comm]
  apply Finset.sum_congr rfl
  intro k _
  rw [dft_eq_sum_pow, Finset.mul_sum, Finset.sum_mul]
  apply Finset.sum_congr rfl
  intro m _
  have e1 : root S = root (S * r) ^ r := by
    rw [Nat.mul_comm S r, root_mul_pow hr hS]
  have e2 : root r = root (S * r) ^ S := by
    rw [root_mul_pow hS hr]
  have e3 : (d + q * S) * (k + m * r) = d * k + r * (d * m) + S * (q * k) + (S * r) * (q * m) := by
    ring
  rw [e1, e2, e3, pow_add, pow_add, pow_add, pow_mul (root (S * r)) (S * r) (q * m),
    root_pow_self (Nat.mul_ne_zero hS hr), one_pow, ← pow_mul, ← pow_mul]
  ring

theorem digitRev_cons_add (f : ℕ) (suf : List ℕ) (k g : ℕ) (hk : k < f) :
    digitRev (f :: suf) (k + g * f) = k * suf.prod + digitRev suf g := by
  simp only [digitRev]
  rw [Nat.add_mul_mod_self_right, Nat.mod_eq_of_lt hk,
    Nat.add_mul_div_right _ _ (by omega), Nat.div_eq_of_lt hk, zero_add]

/-! ## The stages of `fft` -/

/-- The loop over the stages: after the stages `1..c-1` every run of
`sofar[c]` consecutive entries of `y` holds a DFT of a decimated part of `x`; after
the last stage `y` is the DFT of `x`. -/
theorem stage_loop (fs : List ℕ) (sofar actual remain : ℕ → ℕ)
    (hsofar : ∀ (pre suf : List ℕ), fs = pre ++ suf → sofar (pre.length + 1) = pre.prod)
    (hfact : ∀ (pre : List ℕ) f suf, fs = pre ++ f :: suf → actual (pre.length + 1) = f)
    (hremain : ∀ (pre suf : List ℕ), fs = pre ++ suf → remain pre.length = suf.prod)
    (hpos : ∀ f ∈ fs, 1 ≤ f)
    (hkind : ∀ f ∈ fs, f = 2 ∨ f = 3 ∨ f = 4 ∨ f = 5 ∨ f = 8 ∨ f = 10 ∨ f % 2 = 1)
    (htwo : fs.prod = 1 ∨ ∀ f ∈ fs, 2 ≤ f)
    (X : ℕ → ℂ) (w0 : Work)
    (h0 : ∀ g, g < fs.prod → w0.y.cx g = X (digitRev fs g)) :
    ∀ d, d < fs.prod →
      (forLoop (fun c w => twiddleTransf (sofar c) (actual c) (remain c) w) fs.length 1 w0).y.cx d
        = dft fs.prod X d := by
  have key := forLoop_inv
    (fun c (w : Work) => ∀ (pre suf : List ℕ), fs = pre ++ suf → pre.length + 1 = c →
      ∀ g d, g < suf.prod → d < pre.prod →
        w.y.cx (d + g * pre.prod) = dft pre.prod (fun m => X (digitRev suf g + m * suf.prod)) d)
    (fun c w => twiddleTransf (sofar c) (actual c) (remain c) w) fs.length 1 w0 ?_ ?_
  · intro d hd
    have := key fs [] (by simp) (by omega) 0 d (by simp) hd
    simp only [zero_mul, add_zero] at this
    rw [this]
    apply dft_congr
    intro m _
    simp [digitRev]
  · -- before the first stage: the permuted input
    intro pre suf hfs hlen g d hg hd
    have hpre : pre = [] := List.length_eq_zero.1 (by omega)
    subst hpre
    simp only [List.nil_append] at hfs
    subst hfs
    simp only [List.prod_nil] at hd ⊢
    have hd0 : d = 0 := by omega
    subst hd0
    rw [zero_add, mul_one, h0 g hg, dft_eq_sum_pow]
    simp
  · -- one stage
    intro c w hc1 _ hP pre2 suf2 hfs2 hlen2 g d2 hg hd2
    have hne : pre2 ≠ [] := by
      intro h; rw [h] at hlen2; simp at hlen2; omega
    obtain ⟨pre, f, rfl⟩ : ∃ pre f, pre2 = pre ++ [f] :=
      ⟨pre2.dropLast, pre2.getLast hne, (List.dropLast_append_getLast hne).symm⟩
    have hfs : fs = pre ++ f :: suf2 := by rw [hfs2]; simp
    have hlen : pre.length + 1 = c := by simp at hlen2; omega
    have hS : sofar c = pre.prod := by rw [← hlen]; exact hsofar pre (f :: suf2) hfs
    have hr : actual c = f := by rw [← hlen]; exact hfact pre f suf2 hfs
    have hR : remain c = suf2.prod := by
      have := hremain (pre ++ [f]) suf2 hfs2
      rw [← hlen]
      simpa using this
    have hf1 : 1 ≤ f := hpos f (by rw [hfs]; simp)
    have hS1 : 1 ≤ pre.prod := prod_pos_of_pos pre (fun x hx => hpos x (by rw [hfs]; simp [hx]))
    have hSr : 1 < pre.prod → 2 ≤ f := by
      intro h1
      rcases htwo with h | h
      · exfalso
        rw [hfs, List.prod_append] at h
        have := Nat.eq_one_of_mul_eq_one_right h
        omega
      · exact h f (by rw [hfs]; simp)
    obtain ⟨tt, _⟩ := twiddleTransf_spec pre.prod f suf2.prod hS1 hSr
      (hkind f (by rw [hfs]; simp)) w
    show (twiddleTransf (sofar c) (actual c) (remain c) w).y.cx _ = _
    rw [hS, hr, hR]
    rw [List.prod_append, List.prod_singleton] at hd2 ⊢
    have hq : d2 / pre.prod < f := by
      rw [Nat.div_lt_iff_lt_mul (by omega)]; rw [Nat.mul_comm] at hd2
      exact hd2
    have hd : d2 % pre.prod < pre.prod := Nat.mod_lt _ (by omega)
    have ed : d2 = d2 % pre.prod + d2 / pre.prod * pre.prod := by
      rw [Nat.mul_comm]; exact (Nat.mod_add_div d2 pre.prod).symm
    have eaddr : d2 + g * (pre.prod * f)
        = d2 % pre.prod + g * (pre.prod * f) + d2 / pre.prod * pre.prod := by omega
    rw [eaddr, tt (d2 % pre.prod) g (d2 / pre.prod) hd hg hq]
    rw [show dft (pre.prod * f) (fun m => X (digitRev suf2 g + m * suf2.prod)) d2
        = dft (pre.prod * f) (fun m => X (digitRev suf2 g + m * suf2.prod))
            (d2 % pre.prod + d2 / pre.prod * pre.prod) by rw [← ed]]
    rw [← cooley_tukey pre.prod f (by omega) (by omega)
      (fun m => X (digitRev suf2 g + m * suf2.prod)) (d2 % pre.prod) (d2 / pre.prod)]
    apply dft_congr
    intro k hk
    congr 1
    have hgk : k + g * f < (f :: suf2).prod := by
      rw [List.prod_cons]
      calc k + g * f < f + g * f := by omega
        _ = f * (g + 1) := by ring
        _ ≤ f * suf2.prod := Nat.mul_le_mul_left f hg
    have eaddr2 : d2 % pre.prod + g * (pre.prod * f) + k * pre.prod
        = d2 % pre.prod + (k + g * f) * pre.prod := by ring
    rw [eaddr2, hP pre (f :: suf2) hfs hlen (k + g * f) (d2 % pre.prod) hgk hd]
    apply dft_congr
    intro m _
    show X (digitRev (f :: suf2) (k + g * f) + m * (f :: suf2).prod) = _
    rw [digitRev_cons_add f suf2 k g hk, List.prod_cons]
    congr 1
    ring


/-! ## fft computes the discrete Fourier transform -/

theorem factorize_ne_nil (N : ℕ) (hN : 1 ≤ N) : factorize N ≠ [] := by
  intro h
  have hp := factorize_prod_aux N hN
  rw [h, List.prod_nil] at hp
  rw [← hp] at h
  revert h
  decide

theorem factorize_pos (N : ℕ) : ∀ f ∈ factorize N, 1 ≤ f := by
  intro f hf
  rcases factorize_mem N f hf with h | h | h
  · omega
  · simp at h; omega
  · exact h.1.one_lt.le

theorem factorize_kind (N : ℕ) : ∀ f ∈ factorize N,
    f = 2 ∨ f = 3 ∨ f = 4 ∨ f = 5 ∨ f = 8 ∨ f = 10 ∨ f % 2 = 1 := by
  intro f hf
  rcases factorize_mem N f hf with h | h | h
  · right; right; right; right; right; right; rw [h.1]
  · simp at h; omega
  · rcases h.1.eq_two_or_odd with h2 | h2
    · exact Or.inl h2
    · right; right; right; right; right; right; exact h2

theorem factorize_two_le (N : ℕ) (hN : N ≠ 1) : ∀ f ∈ factorize N, 2 ≤ f := by
  intro f hf
  rcases factorize_mem N f hf with h | h | h
  · exact absurd h.2 hN
  · simp at h; omega
  · exact h.1.two_le

theorem factorize_le_max (N : ℕ) (hadm : ∀ p : ℕ, p.Prime → p ∣ N → p ≤ 37) :
    ∀ f ∈ factorize N, f ≤ 37 := by
  intro f hf
  rcases factorize_mem N f hf with h | h | h
  · omega
  · simp at h; omega
  · exact hadm f h.1 h.2

/-- For an admissible length the test of `transTableSetup` passes. -/
theorem transTableSetup_ok (N : ℕ) (hN : 1 ≤ N)
    (hadm : ∀ p : ℕ, p.Prime → p ∣ N → p ≤ 37) :
    transTableSetup N = SetupResult.ok
      { nFact := (factorize N).length
        sofar := sofarTab (actualTab (factorize N))
        actual := actualTab (factorize N)
        remain := remainTab N (actualTab (factorize N)) } := by
  have hne := factorize_ne_nil N hN
  have hlast : actualTab (factorize N) (factorize N).length ≤ 37 := by
    have e : factorize N = (factorize N).dropLast ++ (factorize N).getLast hne :: [] :=
      (List.dropLast_append_getLast hne).symm
    have hl : (factorize N).length = (factorize N).dropLast.length + 1 := by
      conv_lhs => rw [e]
      simp
    rw [hl, actualTab_app _ _ _ _ e]
    exact factorize_le_max N hadm _ (List.getLast_mem hne)
  unfold transTableSetup
  rw [if_neg (by unfold maxPrimeFactor; omega)]

theorem fft_dft_aux (N : ℕ) (hN : 1 ≤ N) (hadm : ∀ p : ℕ, p.Prime → p ∣ N → p ≤ 37)
    (x : CArr) (s : Work) (count : ℕ → ℕ) :
    ∃ w, fft N x s count = some w ∧ ∀ k, k < N → w.y.cx k = dft N x.cx k := by
  have hprod := factorize_prod_aux N hN
  have hpos := factorize_pos N
  have hne := factorize_ne_nil N hN
  have hfact : ∀ (pre : List ℕ) f suf, factorize N = pre ++ f :: suf →
      actualTab (factorize N) (pre.length + 1) = f :=
    fun pre f suf h => actualTab_app _ pre f suf h
  have hremain : ∀ (pre suf : List ℕ), factorize N = pre ++ suf →
      remainTab N (actualTab (factorize N)) pre.length = suf.prod := by
    intro pre suf h
    have := remainTab_app (factorize N) hpos pre.length pre suf rfl h
    rw [hprod] at this
    exact this
  have hsofar : ∀ (pre suf : List ℕ), factorize N = pre ++ suf →
      sofarTab (actualTab (factorize N)) (pre.length + 1) = pre.prod :=
    fun pre suf h => sofarTab_app (factorize N) pre.length pre suf rfl h
  have htwo : (factorize N).prod = 1 ∨ ∀ f ∈ factorize N, 2 ≤ f := by
    by_cases h1 : N = 1
    · left; rw [hprod, h1]
    · right; exact factorize_two_le N h1
  have hperm := permute_spec (factorize N) (actualTab (factorize N))
    (remainTab N (actualTab (factorize N))) hne hfact hremain hpos x s.y count
  rw [hprod] at hperm
  have hstage := stage_loop (factorize N) (sofarTab (actualTab (factorize N)))
    (actualTab (factorize N)) (remainTab N (actualTab (factorize N)))
    hsofar hfact hremain hpos (factorize_kind N) htwo x.cx
    { s with
      y := (permute N (factorize N).length (actualTab (factorize N))
        (remainTab N (actualTab (factorize N))) x s.y count) }
    (by rw [hprod]; exact hperm)
  rw [hprod] at hstage
  refine ⟨_, ?_, hstage⟩
  unfold fft
  rw [transTableSetup_ok N hN hadm]

/-- C1: for every N >= 1 whose largest prime factor is at most 37 and every complex
input x of length N, `fft(N, xRe, xIm, yRe, yIm)` returns and leaves
`y[k] = sum over m in 0..N-1 of x[m]*exp(-2*pi*i*k*m/N)` for every k in 0..N-1, in
natural order, whatever the previous contents of the output and of the static
arrays (arithmetic over the real numbers, kernel constants exact). -/
theorem fft_computes_dft (N : ℕ) (hN : 1 ≤ N)
    (hadm : ∀ p : ℕ, p.Prime → p ∣ N → p ≤ 37)
    (x : CArr) (s : Work) (count : ℕ → ℕ) :
    ∃ w, fft N x s count = some w ∧
      ∀ k, k < N →
        (⟨w.y.re k, w.y.im k⟩ : ℂ)
          = ∑ m in Finset.range N, (⟨x.re m, x.im m⟩ : ℂ) *
              Complex.exp (-(Complex.I * 2 * (Real.pi : ℂ) * (k : ℂ) * (m : ℂ) / (N : ℂ))) :=
  fft_dft_aux N hN hadm x s count

/-- C1 at N = 12 with x = [1..12] and zero imaginary part, all arrays zero before
the call. -/
theorem fft_computes_dft_witness :
    1 ≤ 12 ∧ (∀ p : ℕ, p.Prime → p ∣ 12 → p ≤ 37) ∧
    ∃ w, fft 12 ⟨fun m => (m : ℝ) + 1, fun _ => 0⟩
        { y := ⟨fun _ => 0, fun _ => 0⟩, z := ⟨fun _ => 0, fun _ => 0⟩
          twiddle := ⟨fun _ => 0, fun _ => 0⟩, trig := ⟨fun _ => 0, fun _ => 0⟩
          v := ⟨fun _ => 0, fun _ => 0⟩, w := ⟨fun _ => 0, fun _ => 0⟩
          tw_re := 0, tw_im := 0, adr := 0, groupOffset := 0, dataOffset := 0 }
        (fun _ => 0) = some w ∧
      ∀ k, k < 12 →
        (⟨w.y.re k, w.y.im k⟩ : ℂ)
          = ∑ m in Finset.range 12, (⟨(m : ℝ) + 1, 0⟩ : ℂ) *
              Complex.exp (-(Complex.I * 2 * (Real.pi : ℂ) * (k : ℂ) * (m : ℂ) / ((12 : ℕ) : ℂ))) :=
  have hadm : ∀ p : ℕ, p.Prime → p ∣ 12 → p ≤ 37 := fun p _ hd =>
    le_trans (Nat.le_of_dvd (by norm_num) hd) (by norm_num)
  ⟨by norm_num, hadm, fft_computes_dft 12 (by norm_num) hadm _ _ _⟩

/-! ## transTableSetup: the length check -/

theorem fft_of_not_failed (n : ℕ) (h : (transTableSetup n).failed = false)
    (x : CArr) (s : Work) (count : ℕ → ℕ) : ∃ w, fft n x s count = some w := by
  unfold fft
  cases ht : transTableSetup n with
  | tooLarge f => rw [ht] at h; simp [SetupResult.failed] at h
  | ok t => exact ⟨_, rfl⟩

/-- C3 fails at N = 82 = 2 * 41: `factorize` returns `fact = [41, 2]`, the test
`actual[*nFact] > maxPrimeFactor` looks at the factor 2 stored last, no failure is
reported although 41 > 37 is a prime factor of 82, and `fft` goes on to permute and
transform. -/
theorem transTableSetup_82_not_failed :
    Nat.Prime 41 ∧ 41 ∣ 82 ∧ 37 < 41 ∧ factorize 82 = [41, 2] ∧
    (transTableSetup 82).failed = false ∧
    ∀ (x : CArr) (s : Work) (count : ℕ → ℕ), ∃ w, fft 82 x s count = some w :=
  ⟨by norm_num, by decide, by decide, by decide, by decide,
    fun x s count => fft_of_not_failed 82 (by decide) x s count⟩


/-! ## The nearest size, and the loop that doubles `p2` -/

theorem find_good_nearest_aux (n : Int) (h2 : 2 ≤ n) (hB : n ≤ 9953280) :
    ∃ c, find_good_fft_size n = some c ∧
      1 ≤ scanTable n ∧ scanTable n < 767 ∧
      niceAt (scanTable n - 1) < n ∧ n ≤ niceAt (scanTable n) ∧
      (c = niceAt (scanTable n - 1) ∨ c = niceAt (scanTable n)) ∧
      |c - n| ≤ |niceAt (scanTable n - 1) - n| ∧ |c - n| ≤ |niceAt (scanTable n) - n| ∧
      FiveSmooth c ∧ ∀ d : Int, FiveSmooth d → |c - n| ≤ |d - n| := by
  obtain ⟨h1, _, h3, h4⟩ := scanTable_spec n
  have hlt := scanTable_lt_of_le hB
  have hup := h3 hlt
  have hlo : niceAt (scanTable n - 1) < n := by
    rcases Nat.lt_or_ge 1 (scanTable n) with h | h
    · exact h4 _ (by omega) (by omega)
    · have e : scanTable n - 1 = 0 := by omega
      rw [e, niceAt_zero]; omega
  have hlo0 : 1 ≤ niceAt (scanTable n - 1) := by
    have := niceAt_le (Nat.zero_le (scanTable n - 1)) (show scanTable n - 1 < 767 by omega)
    rw [niceAt_zero] at this
    exact this
  have hupB : niceAt (scanTable n) ≤ 9953280 := by
    have := niceAt_le (show scanTable n ≤ 766 by omega) (by omega)
    rw [niceAt_last] at this
    exact this
  have hfar : ∀ d : Int, FiveSmooth d →
      d ≤ niceAt (scanTable n - 1) ∨ niceAt (scanTable n) ≤ d := by
    intro d hd
    by_cases hdB : d ≤ 9953280
    · obtain ⟨j, hj, hjd⟩ := fiveSmooth_index hd hdB
      rcases Nat.lt_or_ge j (scanTable n) with hjl | hjl
      · left
        rw [← hjd]
        exact niceAt_le (by omega) (by omega)
      · right
        rw [← hjd]
        exact niceAt_le hjl hj
    · right; omega
  have w1 : wrapInt (n - niceAt (scanTable n - 1)) = n - niceAt (scanTable n - 1) :=
    wrapInt_eq (by omega) (by omega)
  have w2 : wrapInt (niceAt (scanTable n) - n) = niceAt (scanTable n) - n :=
    wrapInt_eq (by omega) (by omega)
  unfold find_good_fft_size
  rw [if_neg (by omega), if_pos (show scanTable n < n_fft_nice_numbers from hlt), w1, w2]
  by_cases hc : n - niceAt (scanTable n - 1) < niceAt (scanTable n) - n
  · rw [if_pos hc]
    refine ⟨_, rfl, h1, hlt, hlo, hup, Or.inl rfl, le_rfl, ?_,
      niceAt_smooth (by omega), ?_⟩
    · rw [abs_of_neg (by omega), abs_of_nonneg (by omega)]; omega
    · intro d hd
      rw [abs_of_neg (by omega)]
      rcases hfar d hd with h | h
      · rw [abs_of_neg (by omega)]; omega
      · rw [abs_of_nonneg (by omega)]; omega
  · rw [if_neg hc]
    refine ⟨_, rfl, h1, hlt, hlo, hup, Or.inr rfl, ?_, le_rfl, niceAt_smooth hlt, ?_⟩
    · rw [abs_of_nonneg (by omega), abs_of_neg (by omega)]; omega
    · intro d hd
      rw [abs_of_nonneg (by omega)]
      rcases hfar d hd with h | h
      · rw [abs_of_neg (by omega)]; omega
      · rw [abs_of_nonneg (by omega)]; omega

/-- C11: for every n with 2 <= n <= 9953280 the scan of `find_good_fft_size(n)` stops
at an index i with `fft_nice_numbers[i-1] < n <= fft_nice_numbers[i]`, the value
returned is one of these two entries and is at least as close to n as the other, it
is of the form 2^a * 3^b * 5^c, and no integer of that form is closer to n. -/
theorem find_good_fft_size_nearest (n : Int) (h2 : 2 ≤ n) (hB : n ≤ 9953280) :
    ∃ c, find_good_fft_size n = some c ∧
      1 ≤ scanTable n ∧ scanTable n < 767 ∧
      niceAt (scanTable n - 1) < n ∧ n ≤ niceAt (scanTable n) ∧
      (c = niceAt (scanTable n - 1) ∨ c = niceAt (scanTable n)) ∧
      |c - n| ≤ |niceAt (scanTable n - 1) - n| ∧ |c - n| ≤ |niceAt (scanTable n) - n| ∧
      FiveSmooth c ∧ ∀ d : Int, FiveSmooth d → |c - n| ≤ |d - n| :=
  find_good_nearest_aux n h2 hB

/-- C11 at n = 1007, between the entries 1000 and 1024: the value is 1000. -/
theorem find_good_fft_size_nearest_witness :
    (2 : Int) ≤ 1007 ∧ (1007 : Int) ≤ 9953280 ∧
    find_good_fft_size 1007 = some 1000 ∧
    ∃ c, find_good_fft_size 1007 = some c ∧
      1 ≤ scanTable 1007 ∧ scanTable 1007 < 767 ∧
      niceAt (scanTable 1007 - 1) < 1007 ∧ 1007 ≤ niceAt (scanTable 1007) ∧
      (c = niceAt (scanTable 1007 - 1) ∨ c = niceAt (scanTable 1007)) ∧
      |c - 1007| ≤ |niceAt (scanTable 1007 - 1) - 1007| ∧
      |c - 1007| ≤ |niceAt (scanTable 1007) - 1007| ∧
      FiveSmooth c ∧ ∀ d : Int, FiveSmooth d → |c - 1007| ≤ |d - 1007| :=
  ⟨by decide, by decide, by decide,
    find_good_fft_size_nearest 1007 (by decide) (by decide)⟩

/-- Once `p2` is 0 it stays 0, and the loop `while (p2 < k) p2 *= 2` goes on. -/
theorem p2Loop_zero (k : Int) (hk : 0 < k) : ∀ fuel : Nat, p2Loop k fuel 0 = none := by
  intro fuel
  induction fuel with
  | zero => rfl
  | succ fuel ih =>
    unfold p2Loop
    rw [if_pos hk]
    exact ih

/-- For k above 2^30 the loop `while (p2 < k) p2 *= 2` passes 2^30, wraps to -2^31 and
then to 0: it does not end, whatever the number of rounds allowed. -/
theorem p2Loop_never (k : Int) (hk : 2 ^ 30 < k) : ∀ (m j : Nat), j + m = 30 →
    ∀ fuel : Nat, p2Loop k fuel (2 ^ j) = none := by
  intro m
  induction m with
  | zero =>
    intro j hj fuel
    have e : j = 30 := by omega
    subst e
    cases fuel with
    | zero => rfl
    | succ fuel =>
      unfold p2Loop
      rw [if_pos hk]
      cases fuel with
      | zero => rfl
      | succ fuel =>
        have e1 : wrapInt (2 ^ 30 * 2) = -2147483648 := by decide
        rw [e1]
        unfold p2Loop
        rw [if_pos (by omega)]
        have e2 : wrapInt (-2147483648 * 2) = 0 := by decide
        rw [e2]
        exact p2Loop_zero k (by omega) fuel
  | succ m ih =>
    intro j hj fuel
    cases fuel with
    | zero => rfl
    | succ fuel =>
      have hpow : (2 : Int) ^ j ≤ 2 ^ 29 := pow_le_pow_right₀ (by norm_num) (by omega)
      unfold p2Loop
      rw [if_pos (by omega)]
      have e : wrapInt (2 ^ j * 2) = 2 ^ (j + 1) := by
        have h0 : (0 : Int) < 2 ^ j := by positivity
        rw [pow_succ]
        exact wrapInt_eq (by omega) (by omega)
      rw [e]
      exact ih (j + 1) (by omega) fuel

set_option maxRecDepth 100000 in
theorem find_good_eval_no_return :
    find_good_fft_size 1073741827 = none ∧
    find_good_smaller_fft_size 1073741827 = none ∧
    find_good_larger_fft_size 1073741827 = none := by
  refine ⟨?_, ?_, ?_⟩
  · unfold find_good_fft_size
    rw [if_neg (by decide), if_neg (by rw [scanTable_eq_of_gt (by decide)]; decide)]
    decide
  · unfold find_good_smaller_fft_size
    rw [if_neg (by decide), if_neg (by rw [scanTable_eq_of_gt (by decide)]; decide)]
    decide
  · unfold find_good_larger_fft_size
    rw [if_neg (by decide), if_neg (by rw [scanTable_eq_of_gt (by decide)]; decide)]
    decide

/-- C12 fails at n = 1073741827 = 2^30 + 3, a non-negative `int` beyond the table that
neither 2, 3 nor 5 divides: the residual is k = n, the loop `while (p2 < k) p2 *= 2`
reaches p2 = 2^30 < k, the next doubling wraps to -2^31 and the one after to 0, where
p2 stays; the loop never ends, whatever the number of rounds, and none of the three
functions returns. -/
theorem find_good_fft_size_no_return :
    (0 : Int) ≤ 1073741827 ∧ (1073741827 : Int) ≤ 2 ^ 31 - 1 ∧
    strip5 1073741827 = (1073741827, 0) ∧
    (∀ fuel : Nat, p2Loop 1073741827 fuel 1 = none) ∧
    find_good_fft_size 1073741827 = none ∧
    find_good_smaller_fft_size 1073741827 = none ∧
    find_good_larger_fft_size 1073741827 = none :=
  ⟨by decide, by decide, by decide,
    fun fuel => p2Loop_never 1073741827 (by decide) 30 0 rfl fuel,
    find_good_eval_no_return.1, find_good_eval_no_return.2.1, find_good_eval_no_return.2.2⟩

/-! ## Consequences of `fft` = DFT: impulse, energy, independence of the state -/

theorem root_isPrimitiveRoot {n : ℕ} (hn : n ≠ 0) : IsPrimitiveRoot (root n) n := by
  have h := (Complex.isPrimitiveRoot_exp n hn).inv
  have e : root n = (Complex.exp (2 * Real.pi * Complex.I / n))⁻¹ := by
    unfold root
    rw [← Complex.exp_neg]
    congr 1; ring
  rw [e]; exact h

theorem root_conj_mul {n : ℕ} (hn : n ≠ 0) : (starRingEnd ℂ) (root n) * root n = 1 := by
  have h := root_conj_pow hn (show 1 ≤ n * 1 by omega)
  rw [pow_one] at h
  rw [h, ← pow_succ, mul_one, Nat.sub_add_cancel (by omega), root_pow_self hn]

/-- The rows of the DFT matrix are orthogonal. -/
theorem root_orthogonal {n : ℕ} (hn : n ≠ 0) {m m2 : ℕ} (hm : m < n) (hm2 : m2 < n) :
    ∑ k in Finset.range n, root n ^ (k * m) * (starRingEnd ℂ) (root n ^ (k * m2))
      = if m = m2 then (n : ℂ) else 0 := by
  have hc := root_conj_mul hn
  have hterm : ∀ k, root n ^ (k * m) * (starRingEnd ℂ) (root n ^ (k * m2))
      = (root n ^ m * (starRingEnd ℂ) (root n) ^ m2) ^ k := by
    intro k
    rw [map_pow, pow_mul' (root n) k m, pow_mul' ((starRingEnd ℂ) (root n)) k m2, mul_pow]
  simp only [hterm]
  by_cases e : m = m2
  · subst e
    rw [if_pos rfl]
    have : root n ^ m * (starRingEnd ℂ) (root n) ^ m = 1 := by
      rw [← mul_pow, mul_comm, hc, one_pow]
    simp [this]
  · rw [if_neg e]
    have hne : root n ^ m * (starRingEnd ℂ) (root n) ^ m2 ≠ 1 := by
      intro h1
      apply e
      apply (root_isPrimitiveRoot hn).pow_inj hm hm2
      calc root n ^ m = root n ^ m * ((starRingEnd ℂ) (root n) * root n) ^ m2 := by
            rw [hc, one_pow, mul_one]
        _ = (root n ^ m * (starRingEnd ℂ) (root n) ^ m2) * root n ^ m2 := by
            rw [mul_pow]; ring
        _ = root n ^ m2 := by rw [h1, one_mul]
    have hpow : (root n ^ m * (starRingEnd ℂ) (root n) ^ m2) ^ n = 1 := by
      rw [mul_pow, ← pow_mul, ← pow_mul, mul_comm m n, mul_comm m2 n, pow_mul, pow_mul,
        ← map_pow, root_pow_self hn, map_one, one_pow, one_pow, one_mul]
    have hg := geom_sum_mul (root n ^ m * (starRingEnd ℂ) (root n) ^ m2) n
    rw [hpow, sub_self] at hg
    rcases mul_eq_zero.1 hg with h0 | h0
    · exact h0
    · exact absurd (sub_eq_zero.1 h0) hne

/-- The energy relation of the DFT. -/
theorem dft_parseval {n : ℕ} (hn : n ≠ 0) (x : ℕ → ℂ) :
    ∑ k in Finset.range n, dft n x k * (starRingEnd ℂ) (dft n x k)
      = (n : ℂ) * ∑ m in Finset.range n, x m * (starRingEnd ℂ) (x m) := by
  have h1 : ∀ k, dft n x k * (starRingEnd ℂ) (dft n x k)
      = ∑ m in Finset.range n, ∑ m2 in Finset.range n,
          (x m * (starRingEnd ℂ) (x m2)) *
            (root n ^ (k * m) * (starRingEnd ℂ) (root n ^ (k * m2))) := by
    intro k
    rw [dft_eq_sum_pow, map_sum, Finset.sum_mul_sum]
    apply Finset.sum_congr rfl
    intro m _
    apply Finset.sum_congr rfl
    intro m2 _
    rw [map_mul]; ring
  simp only [h1]
  rw [Finset.sum_comm]
  rw [Finset.mul_sum]
  apply Finset.sum_congr rfl
  intro m hm
  rw [Finset.sum_comm]
  have h2 : ∀ m2 ∈ Finset.range n,
      ∑ k in Finset.range n, (x m * (starRingEnd ℂ) (x m2)) *
            (root n ^ (k * m) * (starRingEnd ℂ) (root n ^ (k * m2)))
        = if m = m2 then (n : ℂ) * (x m * (starRingEnd ℂ) (x m2)) else 0 := by
    intro m2 hm2
    rw [← Finset.mul_sum, root_orthogonal hn (Finset.mem_range.1 hm) (Finset.mem_range.1 hm2)]
    split_ifs <;> ring
  rw [Finset.sum_congr rfl h2, Finset.sum_ite_eq, if_pos hm]

/-- The energy relation of the DFT, over the reals. -/
theorem dft_energy {n : ℕ} (hn : n ≠ 0) (x y : CArr)
    (h : ∀ k, k < n → y.cx k = dft n x.cx k) :
    ∑ k in Finset.range n, (y.re k * y.re k + y.im k * y.im k)
      = (n : ℝ) * ∑ m in Finset.range n, (x.re m * x.re m + x.im m * x.im m) := by
  have hp := dft_parseval hn x.cx
  have e1 : ∀ k ∈ Finset.range n, dft n x.cx k * (starRingEnd ℂ) (dft n x.cx k)
      = ((y.re k * y.re k + y.im k * y.im k : ℝ) : ℂ) := by
    intro k hk
    rw [← h k (Finset.mem_range.1 hk), Complex.mul_conj]
    simp [CArr.cx, Complex.normSq_apply]
  have e2 : ∀ m ∈ Finset.range n, x.cx m * (starRingEnd ℂ) (x.cx m)
      = ((x.re m * x.re m + x.im m * x.im m : ℝ) : ℂ) := by
    intro m _
    rw [Complex.mul_conj]
    simp [CArr.cx, Complex.normSq_apply]
  rw [Finset.sum_congr rfl e1, Finset.sum_congr rfl e2] at hp
  exact_mod_cast hp

/-- C13: for every N >= 1 whose largest prime factor is at most 37, `fft` applied to
the unit impulse (xRe[0] = 1, xRe[m] = 0 for 0 < m < N, xIm[m] = 0 for m < N) returns
and leaves yRe[k] = 1 and yIm[k] = 0 for every k in 0..N-1, whatever the previous
contents of the output and of the static arrays. -/
theorem fft_impulse (N : ℕ) (hN : 1 ≤ N) (hadm : ∀ p : ℕ, p.Prime → p ∣ N → p ≤ 37)
    (x : CArr) (hx0 : x.re 0 = 1) (hx : ∀ m, 0 < m → m < N → x.re m = 0)
    (hxi : ∀ m, m < N → x.im m = 0) (s : Work) (count : ℕ → ℕ) :
    ∃ w, fft N x s count = some w ∧ ∀ k, k < N → w.y.re k = 1 ∧ w.y.im k = 0 := by
  obtain ⟨w, hw, hy⟩ := fft_dft_aux N hN hadm x s count
  refine ⟨w, hw, ?_⟩
  intro k hk
  have h := hy k hk
  have hs : dft N x.cx k = 1 := by
    unfold dft
    rw [Finset.sum_eq_single 0]
    · have : x.cx 0 = 1 := by
        apply Complex.ext
        · simpa [CArr.cx] using hx0
        · simpa [CArr.cx] using hxi 0 (by omega)
      rw [this]; simp
    · intro m hm hm0
      have hmN := Finset.mem_range.1 hm
      have : x.cx m = 0 := by
        apply Complex.ext
        · simpa [CArr.cx] using hx m (by omega) hmN
        · simpa [CArr.cx] using hxi m hmN
      rw [this, zero_mul]
    · intro h0
      exact absurd (Finset.mem_range.2 (by omega)) h0
  rw [hs] at h
  have hre := congrArg Complex.re h
  have him := congrArg Complex.im h
  simp only [CArr.cx, Complex.one_re, Complex.one_im] at hre him
  exact ⟨hre, him⟩

/-- C13 at N = 12, all arrays zero before the call. -/
theorem fft_impulse_witness :
    1 ≤ 12 ∧ (∀ p : ℕ, p.Prime → p ∣ 12 → p ≤ 37) ∧
    ∃ w, fft 12 ⟨fun m => if m = 0 then 1 else 0, fun _ => 0⟩
        { y := ⟨fun _ => 0, fun _ => 0⟩, z := ⟨fun _ => 0, fun _ => 0⟩
          twiddle := ⟨fun _ => 0, fun _ => 0⟩, trig := ⟨fun _ => 0, fun _ => 0⟩
          v := ⟨fun _ => 0, fun _ => 0⟩, w := ⟨fun _ => 0, fun _ => 0⟩
          tw_re := 0, tw_im := 0, adr := 0, groupOffset := 0, dataOffset := 0 }
        (fun _ => 0) = some w ∧
      ∀ k, k < 12 → w.y.re k = 1 ∧ w.y.im k = 0 :=
  have hadm : ∀ p : ℕ, p.Prime → p ∣ 12 → p ≤ 37 := fun p _ hd =>
    le_trans (Nat.le_of_dvd (by norm_num) hd) (by norm_num)
  ⟨by norm_num, hadm,
    fft_impulse 12 (by norm_num) hadm _ (by simp) (fun m h0 _ => by simp; omega)
      (fun _ _ => rfl) _ _⟩

/-- C14: for every N >= 1 whose largest prime factor is at most 37 and every complex
input x of length N, `fft` returns and its output satisfies
`sum_k (yRe[k]^2 + yIm[k]^2) = N * sum_n (xRe[n]^2 + xIm[n]^2)` (arithmetic over the
real numbers, kernel constants exact). -/
theorem fft_energy (N : ℕ) (hN : 1 ≤ N) (hadm : ∀ p : ℕ, p.Prime → p ∣ N → p ≤ 37)
    (x : CArr) (s : Work) (count : ℕ → ℕ) :
    ∃ w, fft N x s count = some w ∧
      ∑ k in Finset.range N, (w.y.re k * w.y.re k + w.y.im k * w.y.im k)
        = (N : ℝ) * ∑ m in Finset.range N, (x.re m * x.re m + x.im m * x.im m) := by
  obtain ⟨w, hw, hy⟩ := fft_dft_aux N hN hadm x s count
  exact ⟨w, hw, dft_energy (by omega) x w.y hy⟩

/-- C14 at N = 12 with x = [1..12] and zero imaginary part, all arrays zero before
the call. -/
theorem fft_energy_witness :
    1 ≤ 12 ∧ (∀ p : ℕ, p.Prime → p ∣ 12 → p ≤ 37) ∧
    ∃ w, fft 12 ⟨fun m => (m : ℝ) + 1, fun _ => 0⟩
        { y := ⟨fun _ => 0, fun _ => 0⟩, z := ⟨fun _ => 0, fun _ => 0⟩
          twiddle := ⟨fun _ => 0, fun _ => 0⟩, trig := ⟨fun _ => 0, fun _ => 0⟩
          v := ⟨fun _ => 0, fun _ => 0⟩, w := ⟨fun _ => 0, fun _ => 0⟩
          tw_re := 0, tw_im := 0, adr := 0, groupOffset := 0, dataOffset := 0 }
        (fun _ => 0) = some w ∧
      ∑ k in Finset.range 12, (w.y.re k * w.y.re k + w.y.im k * w.y.im k)
        = ((12 : ℕ) : ℝ) * ∑ m in Finset.range 12,
            (((m : ℝ) + 1) * ((m : ℝ) + 1) + (0 : ℝ) * 0) :=
  have hadm : ∀ p : ℕ, p.Prime → p ∣ 12 → p ≤ 37 := fun p _ hd =>
    le_trans (Nat.le_of_dvd (by norm_num) hd) (by norm_num)
  ⟨by norm_num, hadm, fft_energy 12 (by norm_num) hadm _ _ _⟩

/-- The output does not depend on the state found: for every N >= 1 whose largest
prime factor is at most 37, two calls of
`fft` with the same N and inputs that agree on 0..N-1, started with arbitrary and
different contents of the output arrays, of the static arrays twiddle, trig, z, v, w,
of tw_re, tw_im, adr, groupOffset, dataOffset and of the local array `count` of
`permute`, both return and leave the same y[0..N-1]. -/
theorem fft_independent_of_state (N : ℕ) (hN : 1 ≤ N)
    (hadm : ∀ p : ℕ, p.Prime → p ∣ N → p ≤ 37) (x x2 : CArr)
    (hx : ∀ m, m < N → x.re m = x2.re m ∧ x.im m = x2.im m)
    (s s2 : Work) (count count2 : ℕ → ℕ) :
    ∃ w w2, fft N x s count = some w ∧ fft N x2 s2 count2 = some w2 ∧
      ∀ k, k < N → w.y.re k = w2.y.re k ∧ w.y.im k = w2.y.im k := by
  obtain ⟨w, hw, hy⟩ := fft_dft_aux N hN hadm x s count
  obtain ⟨w2, hw2, hy2⟩ := fft_dft_aux N hN hadm x2 s2 count2
  refine ⟨w, w2, hw, hw2, ?_⟩
  intro k hk
  have e : w.y.cx k = w2.y.cx k := by
    rw [hy k hk, hy2 k hk]
    exact dft_congr (fun m hm => cx_congr (hx m hm)) k
  have hre := congrArg Complex.re e
  have him := congrArg Complex.im e
  exact ⟨hre, him⟩

/-- Independence of the state found, at N = 12 with x = [1..12]: a call that finds every array zero and a call
that finds every array and variable filled with sevens give the same output. -/
theorem fft_independent_of_state_witness :
    1 ≤ 12 ∧ (∀ p : ℕ, p.Prime → p ∣ 12 → p ≤ 37) ∧
    ∃ w w2,
      fft 12 ⟨fun m => (m : ℝ) + 1, fun _ => 0⟩
        { y := ⟨fun _ => 0, fun _ => 0⟩, z := ⟨fun _ => 0, fun _ => 0⟩
          twiddle := ⟨fun _ => 0, fun _ => 0⟩, trig := ⟨fun _ => 0, fun _ => 0⟩
          v := ⟨fun _ => 0, fun _ => 0⟩, w := ⟨fun _ => 0, fun _ => 0⟩
          tw_re := 0, tw_im := 0, adr := 0, groupOffset := 0, dataOffset := 0 }
        (fun _ => 0) = some w ∧
      fft 12 ⟨fun m => (m : ℝ) + 1, fun _ => 0⟩
        { y := ⟨fun _ => 7, fun _ => 7⟩, z := ⟨fun _ => 7, fun _ => 7⟩
          twiddle := ⟨fun _ => 7, fun _ => 7⟩, trig := ⟨fun _ => 7, fun _ => 7⟩
          v := ⟨fun _ => 7, fun _ => 7⟩, w := ⟨fun _ => 7, fun _ => 7⟩
          tw_re := 7, tw_im := 7, adr := 7, groupOffset := 7, dataOffset := 7 }
        (fun _ => 7) = some w2 ∧
      ∀ k, k < 12 → w.y.re k = w2.y.re k ∧ w.y.im k = w2.y.im k :=
  have hadm : ∀ p : ℕ, p.Prime → p ∣ 12 → p ≤ 37 := fun p _ hd =>
    le_trans (Nat.le_of_dvd (by norm_num) hd) (by norm_num)
  ⟨by norm_num, hadm,
    fft_independent_of_state 12 (by norm_num) hadm _ _ (fun _ _ => ⟨rfl, rfl⟩) _ _ _ _⟩

/-! ## The stage tables, the radices of 5-smooth lengths, the permutation -/

theorem list_split_at (fs : List ℕ) (i : ℕ) (h1 : 1 ≤ i) (h2 : i ≤ fs.length) :
    ∃ (pre : List ℕ) (f : ℕ) (suf : List ℕ), fs = pre ++ f :: suf ∧ pre.length + 1 = i := by
  have hlt : i - 1 < fs.length := by omega
  refine ⟨fs.take (i - 1), fs[i - 1], fs.drop (i - 1 + 1), ?_, ?_⟩
  · rw [← List.drop_eq_getElem_cons hlt, List.take_append_drop]
  · rw [List.length_take]; omega

/-- The tables of `transTableSetup` for a factor list with positive entries. -/
theorem tables_invariant (fs : List ℕ) (hpos : ∀ f ∈ fs, 1 ≤ f) (i : ℕ) (h1 : 1 ≤ i)
    (h2 : i ≤ fs.length) :
    sofarTab (actualTab fs) i * actualTab fs i * remainTab fs.prod (actualTab fs) i = fs.prod ∧
    remainTab fs.prod (actualTab fs) i * actualTab fs i
      = remainTab fs.prod (actualTab fs) (i - 1) := by
  obtain ⟨pre, f, suf, hfs, hi⟩ := list_split_at fs i h1 h2
  have ha := actualTab_app fs pre f suf hfs
  have hs := sofarTab_app fs pre.length pre (f :: suf) rfl hfs
  have hfs2 : fs = (pre ++ [f]) ++ suf := by rw [hfs]; simp
  have hr := remainTab_app fs hpos (pre ++ [f]).length (pre ++ [f]) suf rfl hfs2
  have hr0 := remainTab_app fs hpos pre.length pre (f :: suf) rfl hfs
  have el : (pre ++ [f]).length = pre.length + 1 := by simp
  rw [el] at hr
  rw [hi] at ha hs hr
  have e0 : i - 1 = pre.length := by omega
  rw [ha, hs, hr, e0, hr0]
  refine ⟨?_, ?_⟩
  · conv_rhs => rw [hfs]
    rw [List.prod_append, List.prod_cons]; ring
  · rw [List.prod_cons]; ring

/-- C15: for every N >= 1, `transTableSetup` builds its tables when no prime factor
of N exceeds 37, and whenever it builds them (it does not end in the diagnostic)
they satisfy sofar[1] = 1, remain[0] = N and, for every stage i in 1..nFact,
sofar[i] * actual[i] * remain[i] = N with actual[i] dividing remain[i-1] and
remain[i] * actual[i] = remain[i-1] (the division is exact). -/
theorem transTableSetup_invariant (N : ℕ) (hN : 1 ≤ N) :
    ((∀ p : ℕ, p.Prime → p ∣ N → p ≤ 37) → (transTableSetup N).failed = false) ∧
    ∀ t, transTableSetup N = SetupResult.ok t →
      t.sofar 1 = 1 ∧ t.remain 0 = N ∧
      ∀ i, 1 ≤ i → i ≤ t.nFact →
        t.sofar i * t.actual i * t.remain i = N ∧
        t.actual i ∣ t.remain (i - 1) ∧
        t.remain i * t.actual i = t.remain (i - 1) ∧
        t.remain i = t.remain (i - 1) / t.actual i := by
  refine ⟨?_, ?_⟩
  · intro hadm
    rw [transTableSetup_ok N hN hadm]
    rfl
  · intro t ht
    unfold transTableSetup at ht
    split_ifs at ht with hc
    injection ht with ht
    subst ht
    refine ⟨rfl, rfl, ?_⟩
    intro i h1 h2
    dsimp only at h2 ⊢
    have hprod := factorize_prod_aux N hN
    have hpos := factorize_pos N
    obtain ⟨a, b⟩ := tables_invariant (factorize N) hpos i h1 h2
    rw [hprod] at a b
    refine ⟨a, ⟨_, by rw [← b, mul_comm]⟩, b, ?_⟩
    obtain ⟨j, rfl⟩ : ∃ j, i = j + 1 := ⟨i - 1, by omega⟩
    rfl

/-- C15 at N = 360, whose factor list is [3, 3, 4, 10]: the tables are built, and
the stage i = 3 has sofar = 9, actual = 4, remain = 10. -/
theorem transTableSetup_invariant_witness :
    1 ≤ 360 ∧ factorize 360 = [3, 3, 4, 10] ∧ (transTableSetup 360).failed = false ∧
    ((∀ p : ℕ, p.Prime → p ∣ 360 → p ≤ 37) → (transTableSetup 360).failed = false) ∧
    ∀ t, transTableSetup 360 = SetupResult.ok t →
      t.sofar 1 = 1 ∧ t.remain 0 = 360 ∧
      ∀ i, 1 ≤ i → i ≤ t.nFact →
        t.sofar i * t.actual i * t.remain i = 360 ∧
        t.actual i ∣ t.remain (i - 1) ∧
        t.remain i * t.actual i = t.remain (i - 1) ∧
        t.remain i = t.remain (i - 1) / t.actual i :=
  ⟨by norm_num, by decide, by decide, transTableSetup_invariant 360 (by norm_num)⟩

/-- A prime that divides `2^a * 3^b * 5^c` is 2, 3 or 5. -/
theorem prime_dvd_fiveSmooth {p a b c : ℕ} (hp : p.Prime) (h : p ∣ 2 ^ a * 3 ^ b * 5 ^ c) :
    p = 2 ∨ p = 3 ∨ p = 5 := by
  rcases (Nat.Prime.dvd_mul hp).1 h with h1 | h1
  · rcases (Nat.Prime.dvd_mul hp).1 h1 with h2 | h2
    · left
      exact (Nat.prime_dvd_prime_iff_eq hp Nat.prime_two).1 (hp.dvd_of_dvd_pow h2)
    · right; left
      exact (Nat.prime_dvd_prime_iff_eq hp Nat.prime_three).1 (hp.dvd_of_dvd_pow h2)
  · right; right
    exact (Nat.prime_dvd_prime_iff_eq hp Nat.prime_five).1 (hp.dvd_of_dvd_pow h1)

/-- For a length `N >= 2` of the form `2^a * 3^b * 5^c`, `factorize` returns radices
from 2, 3, 4, 5, 8, 10 only, and the `switch` of `twiddleTransf` takes a case other
than `default` (`fft_odd`) for each of them. -/
theorem factorize_fiveSmooth (N : ℕ) (hN : 2 ≤ N) (hs : FiveSmooth (N : ℤ)) :
    ∀ f ∈ factorize N, f ∈ [2, 3, 4, 5, 8, 10] ∧
      ∃ K : CArr → CArr, ∀ (trig : CArr) (o : OddWork), kernel f trig o = { o with z := K o.z } := by
  intro f hf
  have hmem : f ∈ [2, 3, 4, 5, 8, 10] := by
    rcases factorize_mem N f hf with h | h | h
    · omega
    · exact h
    · obtain ⟨a, b, c, habc⟩ := hs
      have e : N = 2 ^ a * 3 ^ b * 5 ^ c := by exact_mod_cast habc
      rw [e] at h
      rcases prime_dvd_fiveSmooth h.1 h.2 with h2 | h2 | h2 <;> simp [h2]
  refine ⟨hmem, ?_⟩
  simp only [List.mem_cons, List.mem_singleton, List.not_mem_nil, or_false] at hmem
  rcases hmem with h | h | h | h | h | h <;> subst h
  · exact ⟨radix2, fun _ _ => by simp [kernel]⟩
  · exact ⟨radix3, fun _ _ => by simp [kernel]⟩
  · exact ⟨radix4, fun _ _ => by simp [kernel]⟩
  · exact ⟨radix5, fun _ _ => by simp [kernel]⟩
  · exact ⟨fft_8, fun _ _ => by simp [kernel]⟩
  · exact ⟨fft_10, fun _ _ => by simp [kernel]⟩

/-- C16 fails at n = 2 for `find_good_smaller_fft_size`: the scan stops at the entry
2 itself and the function returns the entry before it, 1; `factorize(1)` returns the
single factor 1, which is not one of 2, 3, 4, 5, 8, 10, and the `switch` of
`twiddleTransf` sends the radix 1 to `default: fft_odd(radix)`. -/
theorem find_good_smaller_fft_size_two :
    find_good_smaller_fft_size 2 = some 1 ∧ factorize 1 = [1] ∧
    (1 : ℕ) ∉ [2, 3, 4, 5, 8, 10] ∧
    ∀ (trig : CArr) (o : OddWork), kernel 1 trig o = fft_odd 1 trig o :=
  ⟨by decide, by decide, by decide, fun _ _ => by simp [kernel]⟩

/-! ## permute as mixed-radix digit reversal, with the tables of `transTableSetup` -/

theorem digitRev_zero : ∀ fs : List ℕ, digitRev fs 0 = 0 := by
  intro fs
  induction fs with
  | nil => rfl
  | cons f fs ih => simp [digitRev, ih]

/-- The digits weighted by `sofar` give the nested form of the output index. -/
theorem digitVal_eq_sum (fs : List ℕ) (d : ℕ → ℕ) : ∀ (suf pre : List ℕ), fs = pre ++ suf →
    pre.prod * digitVal d (pre.length + 1) suf
      = ∑ j in Finset.Ico (pre.length + 1) (fs.length + 1),
          d j * sofarTab (actualTab fs) j := by
  intro suf
  induction suf with
  | nil =>
    intro pre h
    have : fs.length = pre.length := by rw [h]; simp
    rw [this]
    simp [digitVal]
  | cons f suf ih =>
    intro pre h
    have hlen : fs.length = pre.length + (suf.length + 1) := by rw [h]; simp
    have h2 : fs = (pre ++ [f]) ++ suf := by rw [h]; simp
    have hi := ih (pre ++ [f]) h2
    have el : (pre ++ [f]).length = pre.length + 1 := by simp
    rw [el] at hi
    rw [Finset.sum_eq_sum_Ico_succ_bot (by omega), ← hi,
      sofarTab_app fs pre.length pre (f :: suf) rfl h, digitVal, List.prod_append,
      List.prod_singleton]
    ring

/-- The digits weighted by `remain` give the source index. -/
theorem digitRVal_eq_sum (fs : List ℕ) (hpos : ∀ f ∈ fs, 1 ≤ f) (d : ℕ → ℕ) :
    ∀ (suf pre : List ℕ), fs = pre ++ suf →
    digitRVal d (pre.length + 1) suf
      = ∑ j in Finset.Ico (pre.length + 1) (fs.length + 1),
          d j * remainTab fs.prod (actualTab fs) j := by
  intro suf
  induction suf with
  | nil =>
    intro pre h
    have : fs.length = pre.length := by rw [h]; simp
    rw [this]
    simp [digitRVal]
  | cons f suf ih =>
    intro pre h
    have hlen : fs.length = pre.length + (suf.length + 1) := by rw [h]; simp
    have h2 : fs = (pre ++ [f]) ++ suf := by rw [h]; simp
    have hi := ih (pre ++ [f]) h2
    have hr := remainTab_app fs hpos (pre ++ [f]).length (pre ++ [f]) suf rfl h2
    have el : (pre ++ [f]).length = pre.length + 1 := by simp
    rw [el] at hi hr
    rw [Finset.sum_eq_sum_Ico_succ_bot (by omega), ← hi, hr, digitRVal]

/-- Digits below the entries of `actual` are digits below the radices of the list. -/
theorem digitsOK_iff (fs : List ℕ) (d : ℕ → ℕ) : ∀ (suf pre : List ℕ), fs = pre ++ suf →
    (digitsOK d (pre.length + 1) suf ↔
      ∀ j, pre.length + 1 ≤ j → j ≤ fs.length → d j < actualTab fs j) := by
  intro suf
  induction suf with
  | nil =>
    intro pre h
    have : fs.length = pre.length := by rw [h]; simp
    rw [this]
    simp only [digitsOK, true_iff]
    intro j h1 h2
    omega
  | cons f suf ih =>
    intro pre h
    have h2 : fs = (pre ++ [f]) ++ suf := by rw [h]; simp
    have hi := ih (pre ++ [f]) h2
    have el : (pre ++ [f]).length = pre.length + 1 := by simp
    rw [el] at hi
    have ha := actualTab_app fs pre f suf h
    have hlen : fs.length = pre.length + (suf.length + 1) := by rw [h]; simp
    simp only [digitsOK]
    rw [hi]
    constructor
    · rintro ⟨h0, hrest⟩ j hj1 hj2
      rcases Nat.eq_or_lt_of_le hj1 with e | e
      · rw [← e, ha]; exact h0
      · exact hrest j (by omega) hj2
    · intro hall
      refine ⟨?_, fun j hj1 hj2 => hall j (by omega) hj2⟩
      have := hall (pre.length + 1) le_rfl (by omega)
      rw [ha] at this
      exact this

/-- Every index below the product of the radices has mixed-radix digits. -/
theorem digits_exist : ∀ (fs : List ℕ) (g j0 : ℕ), g < fs.prod →
    ∃ d : ℕ → ℕ, digitsOK d j0 fs ∧ digitVal d j0 fs = g := by
  intro fs
  induction fs with
  | nil =>
    intro g j0 hg
    simp at hg
    subst hg
    exact ⟨fun _ => 0, trivial, rfl⟩
  | cons f fs ih =>
    intro g j0 hg
    rw [List.prod_cons] at hg
    have hf : 0 < f := by
      rcases Nat.eq_zero_or_pos f with h | h
      · rw [h, zero_mul] at hg; omega
      · exact h
    have hq : g / f < fs.prod := by
      rw [Nat.div_lt_iff_lt_mul hf, mul_comm]; exact hg
    obtain ⟨d, hok, hval⟩ := ih (g / f) (j0 + 1) hq
    have hcongr : ∀ l, j0 + 1 ≤ l → d l = Function.update d j0 (g % f) l := by
      intro l hl
      rw [Function.update_noteq (by omega)]
    refine ⟨Function.update d j0 (g % f), ?_, ?_⟩
    · simp only [digitsOK, Function.update_same]
      exact ⟨Nat.mod_lt _ hf, digitsOK_congr d _ fs (j0 + 1) hcongr hok⟩
    · simp only [digitVal, Function.update_same]
      rw [← digitVal_congr d _ fs (j0 + 1) hcongr, hval]
      exact Nat.mod_add_div g f

theorem permute_reversal_aux (N : ℕ) (hN : 1 ≤ N) (x y : CArr) (count : ℕ → ℕ) :
    (∀ d : ℕ → ℕ,
      (∀ j, 1 ≤ j → j ≤ (factorize N).length → d j < actualTab (factorize N) j) →
      ∑ j in Finset.Ico 1 ((factorize N).length + 1),
          d j * sofarTab (actualTab (factorize N)) j < N ∧
      (permute N (factorize N).length (actualTab (factorize N))
          (remainTab N (actualTab (factorize N))) x y count).cx
        (∑ j in Finset.Ico 1 ((factorize N).length + 1),
          d j * sofarTab (actualTab (factorize N)) j)
        = x.cx (∑ j in Finset.Ico 1 ((factorize N).length + 1),
          d j * remainTab N (actualTab (factorize N)) j)) ∧
    (∀ i, i < N → ∃ d : ℕ → ℕ,
      (∀ j, 1 ≤ j → j ≤ (factorize N).length → d j < actualTab (factorize N) j) ∧
      i = ∑ j in Finset.Ico 1 ((factorize N).length + 1),
          d j * sofarTab (actualTab (factorize N)) j) ∧
    (permute N (factorize N).length (actualTab (factorize N))
        (remainTab N (actualTab (factorize N))) x y count).cx 0 = x.cx 0 ∧
    (permute N (factorize N).length (actualTab (factorize N))
        (remainTab N (actualTab (factorize N))) x y count).cx (N - 1) = x.cx (N - 1) := by
  have hprod := factorize_prod_aux N hN
  have hpos := factorize_pos N
  have hne := factorize_ne_nil N hN
  have hfact : ∀ (pre : List ℕ) f suf, factorize N = pre ++ f :: suf →
      actualTab (factorize N) (pre.length + 1) = f :=
    fun pre f suf h => actualTab_app _ pre f suf h
  have hremain : ∀ (pre suf : List ℕ), factorize N = pre ++ suf →
      remainTab N (actualTab (factorize N)) pre.length = suf.prod := by
    intro pre suf h
    have := remainTab_app (factorize N) hpos pre.length pre suf rfl h
    rw [hprod] at this
    exact this
  have hperm := permute_spec (factorize N) (actualTab (factorize N))
    (remainTab N (actualTab (factorize N))) hne hfact hremain hpos x y count
  rw [hprod] at hperm
  have hsum := fun d => digitVal_eq_sum (factorize N) d (factorize N) [] rfl
  have hrsum := fun d => digitRVal_eq_sum (factorize N) hpos d (factorize N) [] rfl
  have hok := fun d => digitsOK_iff (factorize N) d (factorize N) [] rfl
  simp only [List.length_nil, List.prod_nil, one_mul, Nat.zero_add] at hsum hrsum hok
  simp only [hprod] at hrsum
  refine ⟨?_, ?_, ?_, ?_⟩
  · intro d hd
    have hdig := (hok d).2 hd
    have hlt := digitVal_lt d (factorize N) 1 hdig
    rw [hprod] at hlt
    rw [← hsum d, ← hrsum d]
    refine ⟨hlt, ?_⟩
    rw [hperm _ hlt, digitRVal_eq_digitRev d (factorize N) 1 hdig]
  · intro i hi
    obtain ⟨d, hdig, hval⟩ := digits_exist (factorize N) i 1 (by rw [hprod]; exact hi)
    exact ⟨d, (hok d).1 hdig, by rw [← hsum d, hval]⟩
  · rw [hperm 0 (by omega), digitRev_zero]
  · have := digitRev_last (factorize N) hpos hne
    rw [hprod] at this
    rw [hperm (N - 1) (by omega), this]

/-- C20: for every N >= 1, with fact[1..k] the factor list of N and sofar, remain the
tables of `transTableSetup`: for all digits d_1..d_k with 0 <= d_j < fact[j] the index
i = sum_j d_j * sofar[j] is below N and `permute` leaves
y[i] = x[sum_j d_j * remain[j]] (real and imaginary parts); every i in 0..N-1 is of
that form; y[0] = x[0] and y[N-1] = x[N-1]. -/
theorem permute_digit_reversal (N : ℕ) (hN : 1 ≤ N) (x y : CArr) (count : ℕ → ℕ) :
    (∀ d : ℕ → ℕ,
      (∀ j, 1 ≤ j → j ≤ (factorize N).length → d j < actualTab (factorize N) j) →
      ∑ j in Finset.Ico 1 ((factorize N).length + 1),
          d j * sofarTab (actualTab (factorize N)) j < N ∧
      (permute N (factorize N).length (actualTab (factorize N))
          (remainTab N (actualTab (factorize N))) x y count).re
        (∑ j in Finset.Ico 1 ((factorize N).length + 1),
          d j * sofarTab (actualTab (factorize N)) j)
        = x.re (∑ j in Finset.Ico 1 ((factorize N).length + 1),
          d j * remainTab N (actualTab (factorize N)) j) ∧
      (permute N (factorize N).length (actualTab (factorize N))
          (remainTab N (actualTab (factorize N))) x y count).im
        (∑ j in Finset.Ico 1 ((factorize N).length + 1),
          d j * sofarTab (actualTab (factorize N)) j)
        = x.im (∑ j in Finset.Ico 1 ((factorize N).length + 1),
          d j * remainTab N (actualTab (factorize N)) j)) ∧
    (∀ i, i < N → ∃ d : ℕ → ℕ,
      (∀ j, 1 ≤ j → j ≤ (factorize N).length → d j < actualTab (factorize N) j) ∧
      i = ∑ j in Finset.Ico 1 ((factorize N).length + 1),
          d j * sofarTab (actualTab (factorize N)) j) ∧
    (permute N (factorize N).length (actualTab (factorize N))
        (remainTab N (actualTab (factorize N))) x y count).re 0 = x.re 0 ∧
    (permute N (factorize N).length (actualTab (factorize N))
        (remainTab N (actualTab (factorize N))) x y count).im 0 = x.im 0 ∧
    (permute N (factorize N).length (actualTab (factorize N))
        (remainTab N (actualTab (factorize N))) x y count).re (N - 1) = x.re (N - 1) ∧
    (permute N (factorize N).length (actualTab (factorize N))
        (remainTab N (actualTab (factorize N))) x y count).im (N - 1) = x.im (N - 1) := by
  obtain ⟨h1, h2, h3, h4⟩ := permute_reversal_aux N hN x y count
  refine ⟨?_, h2, congrArg Complex.re h3, congrArg Complex.im h3, congrArg Complex.re h4,
    congrArg Complex.im h4⟩
  intro d hd
  obtain ⟨a, b⟩ := h1 d hd
  exact ⟨a, congrArg Complex.re b, congrArg Complex.im b⟩

/-- C20 at N = 12 with the factor list [3, 4], sofar = [1, 3], remain = [4, 1] and
x[m] = m: the digits d_1 = 2, d_2 = 1 give the index 2*1 + 1*3 = 5 and the source
2*4 + 1*1 = 9, so y[5] = x[9] = 9. -/
theorem permute_digit_reversal_witness :
    1 ≤ 12 ∧ factorize 12 = [3, 4] ∧
    (permute 12 (factorize 12).length (actualTab (factorize 12))
        (remainTab 12 (actualTab (factorize 12))) ⟨fun m => (m : ℝ), fun _ => 0⟩
        ⟨fun _ => 0, fun _ => 0⟩ (fun _ => 0)).re 5 = 9 := by
  refine ⟨by norm_num, by decide, ?_⟩
  have h := (permute_digit_reversal 12 (by norm_num) ⟨fun m => (m : ℝ), fun _ => 0⟩
    ⟨fun _ => 0, fun _ => 0⟩ (fun _ => 0)).1 (fun j => if j = 1 then 2 else 1)
    (by
      intro j h1 h2
      have e : (factorize 12).length = 2 := by decide
      rw [e] at h2
      interval_cases j <;> decide)
  have e1 : ∑ j in Finset.Ico 1 ((factorize 12).length + 1),
      (fun j => if j = 1 then 2 else 1) j * sofarTab (actualTab (factorize 12)) j = 5 := by
    decide
  have e2 : ∑ j in Finset.Ico 1 ((factorize 12).length + 1),
      (fun j => if j = 1 then 2 else 1) j * remainTab 12 (actualTab (factorize 12)) j = 9 := by
    decide
  rw [e1, e2] at h
  rw [h.2.1]
  norm_num

/-! ## last_non_zero -/

/-- The loop of `last_non_zero` stops at the last index whose element differs from
`zero`, or at -1 when there is none. -/
theorem lastLoop_spec {α : Type} [DecidableEq α] (d1 : List α) (zero : α) :
    ∀ (fuel : ℕ) (p : ℤ), -1 ≤ p → p < d1.length → p + 1 ≤ (fuel : ℤ) →
      (∀ i : ℕ, p < i → i < d1.length → d1[i]? = some zero) →
      -1 ≤ lastLoop d1 zero fuel p ∧ lastLoop d1 zero fuel p ≤ p ∧
      (∀ i : ℕ, lastLoop d1 zero fuel p < i → i < d1.length → d1[i]? = some zero) ∧
      (0 ≤ lastLoop d1 zero fuel p →
        d1[(lastLoop d1 zero fuel p).toNat]? ≠ some zero) := by
  intro fuel
  induction fuel with
  | zero =>
    intro p h1 _ hf hz
    have : p = -1 := by omega
    subst this
    exact ⟨le_rfl, le_rfl, hz, fun h => by simp [lastLoop] at h⟩
  | succ fuel ih =>
    intro p h1 h2 hf hz
    unfold lastLoop
    by_cases hc : 0 ≤ p ∧ d1[p.toNat]? = some zero
    · rw [if_pos hc]
      have hz2 : ∀ i : ℕ, p - 1 < i → i < d1.length → d1[i]? = some zero := by
        intro i hi1 hi2
        by_cases e : (i : ℤ) = p
        · have : p.toNat = i := by omega
          rw [← this]; exact hc.2
        · exact hz i (by omega) hi2
      obtain ⟨a, b, c, d⟩ := ih (p - 1) (by omega) (by omega) (by push_cast at hf; omega) hz2
      exact ⟨a, by omega, c, d⟩
    · rw [if_neg hc]
      refine ⟨h1, le_rfl, hz, ?_⟩
      intro h0 he
      exact hc ⟨h0, he⟩

theorem last_non_zero_aux {α : Type} [DecidableEq α] (d1 : List α) (zero : α)
    (h : ∃ x ∈ d1, x ≠ zero) :
    ∃ j : ℕ, j < d1.length ∧ d1[j]? ≠ some zero ∧
      (∀ i : ℕ, j < i → i < d1.length → d1[i]? = some zero) ∧
      last_non_zero d1 zero = (d1.length : ℤ) - 1 - (j : ℤ) := by
  obtain ⟨a, b, c, d⟩ := lastLoop_spec d1 zero (d1.length + 1) ((d1.length : ℤ) - 1)
    (by omega) (by omega) (by push_cast; omega) (fun i h1 h2 => by omega)
  have h0 : 0 ≤ lastLoop d1 zero (d1.length + 1) ((d1.length : ℤ) - 1) := by
    by_contra hneg
    obtain ⟨x, hx, hxz⟩ := h
    obtain ⟨i, hi, hix⟩ := List.getElem_of_mem hx
    have := c i (by omega) hi
    rw [List.getElem?_eq_getElem hi, hix] at this
    exact hxz (Option.some.inj this)
  refine ⟨(lastLoop d1 zero (d1.length + 1) ((d1.length : ℤ) - 1)).toNat, by omega, d h0, ?_, ?_⟩
  · intro i h1 h2
    exact c i (by omega) h2
  · unfold last_non_zero
    omega

/-- C19 as stated fails for d1 = [1, 0] and zero = 0: the last element different
from zero is d1[0], at the position 0, and `last_non_zero` leaves p = 1. -/
theorem last_non_zero_not_index :
    last_non_zero ([1, 0] : List ℚ) 0 = 1 ∧
    ([1, 0] : List ℚ)[0]? = some 1 ∧ (1 : ℚ) ≠ 0 ∧ ([1, 0] : List ℚ)[1]? = some 0 := by
  refine ⟨by decide, rfl, by decide, rfl⟩

/-- C19 (amended): for every vector d1 with at least one element different from
zero, `last_non_zero(d1, p, zero)` sets p to d1.size() - 1 - j, where j is the
index of the last element of d1 that is not equal to zero: p is the number of
elements equal to zero at the end of d1. -/
theorem last_non_zero_trailing {α : Type} [DecidableEq α] (d1 : List α) (zero : α)
    (h : ∃ x ∈ d1, x ≠ zero) :
    ∃ j : ℕ, j < d1.length ∧ d1[j]? ≠ some zero ∧
      (∀ i : ℕ, j < i → i < d1.length → d1[i]? = some zero) ∧
      last_non_zero d1 zero = (d1.length : ℤ) - 1 - (j : ℤ) :=
  last_non_zero_aux d1 zero h

/-- C19 (amended) at d1 = [0, 3, 0, 0]: p = 2, the number of zeros at the end. -/
theorem last_non_zero_trailing_witness :
    (∃ x ∈ ([0, 3, 0, 0] : List ℚ), x ≠ 0) ∧
    last_non_zero ([0, 3, 0, 0] : List ℚ) 0 = 2 ∧
    ∃ j : ℕ, j < ([0, 3, 0, 0] : List ℚ).length ∧ ([0, 3, 0, 0] : List ℚ)[j]? ≠ some 0 ∧
      (∀ i : ℕ, j < i → i < ([0, 3, 0, 0] : List ℚ).length →
        ([0, 3, 0, 0] : List ℚ)[i]? = some 0) ∧
      last_non_zero ([0, 3, 0, 0] : List ℚ) 0
        = (([0, 3, 0, 0] : List ℚ).length : ℤ) - 1 - (j : ℤ) :=
  ⟨⟨3, by simp, by norm_num⟩, by decide,
    last_non_zero_trailing _ _ ⟨3, by simp, by norm_num⟩⟩

/-! ## impedance -/

/-- What `impedance` computes for a length n >= 1 without prime factor above 37: the
ratio of the squared magnitudes of the transforms of the arrays `dout` and `din` as
the copy loop leaves them. -/
theorem impedance_spec (inp out z : List ℝ) (h : ImpHeap) (s : Work) (count count2 : ℕ → ℕ)
    (hN : 1 ≤ inp.length) (hadm : ∀ p : ℕ, p.Prime → p ∣ inp.length → p ≤ 37)
    (hlen : inp.length ≤ out.length) :
    impedance inp out z h s count count2
      = some ((List.range inp.length).map (fun i =>
          Complex.normSq (dft inp.length
            (forLoop (copyStep inp out) (inp.length - 1) 1 (h.din, h.dout)).2.cx i)
          / Complex.normSq (dft inp.length
            (forLoop (copyStep inp out) (inp.length - 1) 1 (h.din, h.dout)).1.cx i))) := by
  unfold impedance
  rw [if_neg (by omega)]
  obtain ⟨w1, hw1, hy1⟩ := fft_dft_aux inp.length hN hadm
    (forLoop (copyStep inp out) (inp.length - 1) 1 (h.din, h.dout)).1
    { s with y := h.fftin } count
  rw [hw1]
  dsimp only
  obtain ⟨w2, hw2, hy2⟩ := fft_dft_aux inp.length hN hadm
    (forLoop (copyStep inp out) (inp.length - 1) 1 (h.din, h.dout)).2
    { w1 with y := h.fftout } count2
  rw [hw2]
  dsimp only
  congr 1
  apply List.map_congr_left
  intro i hi
  have hi2 := List.mem_range.1 hi
  rw [← hy1 i hi2, ← hy2 i hi2]
  simp [CArr.cx, Complex.normSq_apply]

/-- The two-point DFT of a sequence whose second element is 0. -/
theorem dft_two_of_zero (x : ℕ → ℂ) (h : x 1 = 0) (k : ℕ) : dft 2 x k = x 0 := by
  unfold dft
  rw [Finset.sum_range_succ, Finset.sum_range_one, h]
  simp

/-- C18 fails for in = [1, 0], out = [2, 0]: the copy loop starts at i = 1, so
din_r[0], din_i[0], dout_r[0], dout_i[0] keep whatever `new double[n]` handed out and
in[0], out[0] are never read.  The transforms of in and out are [1, 1] and [2, 2], so
the claim gives z = [4, 4]; with 1 found in din_r[0] and dout_r[0] (0 in din_i[0],
dout_i[0]) the code gives z = [1, 1], and with 3 found in dout_r[0] it gives
z = [9, 9]: z is not determined by in and out. -/
theorem impedance_uninitialised (s : Work) (count count2 : ℕ → ℕ) (fin fout : CArr) :
    (∀ k, k < 2 →
      Complex.normSq (dft 2 (fun m => ((([2, 0] : List ℝ).getD m 0 : ℝ) : ℂ)) k)
        / Complex.normSq (dft 2 (fun m => ((([1, 0] : List ℝ).getD m 0 : ℝ) : ℂ)) k) = 4) ∧
    impedance [1, 0] [2, 0] []
      ⟨⟨fun _ => 1, fun _ => 0⟩, ⟨fun _ => 1, fun _ => 0⟩, fin, fout⟩ s count count2
      = some [1, 1] ∧
    impedance [1, 0] [2, 0] []
      ⟨⟨fun _ => 1, fun _ => 0⟩, ⟨fun _ => 3, fun _ => 0⟩, fin, fout⟩ s count count2
      = some [9, 9] := by
  have hadm : ∀ p : ℕ, p.Prime → p ∣ ([1, 0] : List ℝ).length → p ≤ 37 := fun p _ hd =>
    le_trans (Nat.le_of_dvd (by norm_num) hd) (by norm_num)
  refine ⟨?_, ?_, ?_⟩
  · intro k _
    rw [dft_two_of_zero _ (by simp), dft_two_of_zero _ (by simp)]
    simp
    norm_num
  · rw [impedance_spec _ _ _ _ _ _ _ (by simp) hadm (by simp)]
    simp only [List.length_cons, List.length_nil, Nat.zero_add, Nat.reduceAdd, Nat.reduceSub]
    have e1 : ∀ k, dft 2 (forLoop (copyStep [1, 0] [2, 0]) 1 1
        ((⟨fun _ => 1, fun _ => 0⟩ : CArr), (⟨fun _ => 1, fun _ => 0⟩ : CArr))).1.cx k = 1 := by
      intro k
      rw [dft_two_of_zero]
      · apply Complex.ext <;> simp [forLoop, copyStep, CArr.cx]
      · apply Complex.ext <;> simp [forLoop, copyStep, CArr.cx]
    have e2 : ∀ k, dft 2 (forLoop (copyStep [1, 0] [2, 0]) 1 1
        ((⟨fun _ => 1, fun _ => 0⟩ : CArr), (⟨fun _ => 1, fun _ => 0⟩ : CArr))).2.cx k = 1 := by
      intro k
      rw [dft_two_of_zero]
      · apply Complex.ext <;> simp [forLoop, copyStep, CArr.cx]
      · apply Complex.ext <;> simp [forLoop, copyStep, CArr.cx]
    simp only [e1, e2]
    simp [List.range_succ]
  · rw [impedance_spec _ _ _ _ _ _ _ (by simp) hadm (by simp)]
    simp only [List.length_cons, List.length_nil, Nat.zero_add, Nat.reduceAdd, Nat.reduceSub]
    have e1 : ∀ k, dft 2 (forLoop (copyStep [1, 0] [2, 0]) 1 1
        ((⟨fun _ => 1, fun _ => 0⟩ : CArr), (⟨fun _ => 3, fun _ => 0⟩ : CArr))).1.cx k = 1 := by
      intro k
      rw [dft_two_of_zero]
      · apply Complex.ext <;> simp [forLoop, copyStep, CArr.cx]
      · apply Complex.ext <;> simp [forLoop, copyStep, CArr.cx]
    have e2 : ∀ k, dft 2 (forLoop (copyStep [1, 0] [2, 0]) 1 1
        ((⟨fun _ => 1, fun _ => 0⟩ : CArr), (⟨fun _ => 3, fun _ => 0⟩ : CArr))).2.cx k = 3 := by
      intro k
      rw [dft_two_of_zero]
      · apply Complex.ext <;> simp [forLoop, copyStep, CArr.cx]
      · apply Complex.ext <;> simp [forLoop, copyStep, CArr.cx]
    simp only [e1, e2]
    simp [List.range_succ]
    norm_num

/-! ## The shape of the factor list: rebalancing 2*8 into 4*4, number of factors -/

theorem divLoop_append (k : ℕ) : ∀ (fuel n : ℕ) (fs : List ℕ),
    divLoop k fuel n fs = ((divLoop k fuel n []).1, (divLoop k fuel n []).2 ++ fs) := by
  intro fuel
  induction fuel with
  | zero => intro n fs; rfl
  | succ fuel ih =>
    intro n fs
    by_cases hd : n % k = 0
    · simp only [divLoop, hd, if_true]
      rw [ih (n / k) (k :: fs), ih (n / k) [k]]
      simp
    · simp [divLoop, hd]

theorem trialLoop_append : ∀ (fuel k n : ℕ) (fs : List ℕ),
    trialLoop fuel k n fs
      = ((trialLoop fuel k n []).1, (trialLoop fuel k n []).2 ++ fs) := by
  intro fuel
  induction fuel with
  | zero => intro k n fs; rfl
  | succ fuel ih =>
    intro k n fs
    by_cases hc : (k - 1) * (k - 1) < n
    · simp only [trialLoop, hc, if_true]
      rw [divLoop_append k n n fs]
      rw [ih (k + 1) _ ((divLoop k n n []).2 ++ fs), ih (k + 1) _ (divLoop k n n []).2]
      simp
    · simp [trialLoop, hc]

theorem trialPart_append (n : ℕ) (fs : List ℕ) : trialPart n fs = trialPart n [] ++ fs := by
  unfold trialPart
  rw [trialLoop_append n 2 n fs]
  by_cases h1 : 1 < n
  · by_cases h2 : 1 < (trialLoop n 2 n []).1
    · simp [h1, h2]
    · simp [h1, h2]
  · simp [h1]

/-- With enough fuel the preferred-radix pass leaves 1 or an odd number. -/
theorem radixLoop_exit_odd : ∀ (fuel n i : ℕ) (fs : List ℕ), i ≤ 6 → n + i ≤ fuel →
    (1 ≤ i ∨ n % 2 ≠ 0 ∨ n ≤ 1) →
    (radixLoop fuel n i fs).1 ≤ 1 ∨ (radixLoop fuel n i fs).1 % 2 ≠ 0 := by
  intro fuel
  induction fuel with
  | zero =>
    intro n i fs _ hf _
    left
    have : n = 0 := by omega
    subst this
    simp [radixLoop]
  | succ fuel ih =>
    intro n i fs h6 hf h3
    by_cases hc : 1 < n ∧ 0 < i
    · have hr := radices_ge_two hc.2 h6
      by_cases hd : n % radices i = 0
      · simp only [radixLoop, hc, and_self, if_true, hd]
        have hlt : n / radices i < n := Nat.div_lt_self (by omega) (by omega)
        exact ih _ i _ h6 (by omega) (Or.inl (by omega))
      · simp only [radixLoop, hc, and_self, if_true, hd, if_false]
        refine ih n (i - 1) fs (by omega) (by omega) ?_
        by_cases hi : i = 1
        · right; left
          subst hi
          simpa [radices] using hd
        · left; omega
    · simp only [radixLoop, hc, if_false]
      rcases h3 with h | h | h
      · left; omega
      · right; exact h
      · left; exact h

/-- Once only the radix 2 is left to try, an odd number yields no further factor. -/
theorem radixLoop_odd : ∀ (fuel n i : ℕ) (fs : List ℕ), i ≤ 1 → n % 2 ≠ 0 →
    (radixLoop fuel n i fs).2 = fs := by
  intro fuel
  induction fuel with
  | zero => intro n i fs _ _; rfl
  | succ fuel ih =>
    intro n i fs hi hn
    by_cases hc : 1 < n ∧ 0 < i
    · have e : i = 1 := by omega
      subst e
      have hd : ¬ n % radices 1 = 0 := by simpa [radices] using hn
      simp only [radixLoop, hc, and_self, if_true, hd, if_false]
      exact ih n 0 fs (by omega) hn
    · simp [radixLoop, hc]

/-- Once only the radix 2 is left to try, a number not divisible by 4 yields at most
one factor 2. -/
theorem radixLoop_one_two : ∀ (fuel n i : ℕ) (fs : List ℕ), i ≤ 1 → n % 4 ≠ 0 →
    (radixLoop fuel n i fs).2 = fs ∨ (radixLoop fuel n i fs).2 = 2 :: fs := by
  intro fuel n i fs hi hn
  cases fuel with
  | zero => left; rfl
  | succ fuel =>
    by_cases hc : 1 < n ∧ 0 < i
    · have e : i = 1 := by omega
      subst e
      by_cases hd : n % 2 = 0
      · right
        have hd2 : n % radices 1 = 0 := by simpa [radices] using hd
        simp only [radixLoop, hc, and_self, if_true, hd2]
        simp only [radices]
        exact radixLoop_odd fuel (n / 2) 1 (2 :: fs) le_rfl (by omega)
      · left
        have hd2 : ¬ n % radices 1 = 0 := by simpa [radices] using hd
        simp only [radixLoop, hc, and_self, if_true, hd2, if_false]
        exact radixLoop_odd fuel n 0 fs (by omega) hd
    · left; simp [radixLoop, hc]

/-- The factors found by the preferred-radix pass, newest first: a 2 can only be the
newest one. -/
theorem radixLoop_two_head : ∀ (fuel n i : ℕ) (fs : List ℕ), i ≤ 6 →
    (i ≤ 2 → n % 4 ≠ 0) →
    ∃ new : List ℕ, (radixLoop fuel n i fs).2 = new ++ fs ∧ 2 ∉ new.tail ∧
      ∀ x ∈ new, x ∈ [2, 3, 4, 5, 8, 10] := by
  intro fuel
  induction fuel with
  | zero => intro n i fs _ _; exact ⟨[], rfl, by simp, by simp⟩
  | succ fuel ih =>
    intro n i fs h6 h4
    by_cases hi1 : i ≤ 1
    · rcases radixLoop_one_two (fuel + 1) n i fs hi1 (h4 (by omega)) with h | h
      · exact ⟨[], by rw [h]; rfl, by simp, by simp⟩
      · exact ⟨[2], by rw [h]; rfl, by simp, by simp⟩
    · by_cases hc : 1 < n ∧ 0 < i
      · by_cases hd : n % radices i = 0
        · simp only [radixLoop, hc, and_self, if_true, hd]
          have hne2 : radices i ≠ 2 := by
            have : 2 ≤ i := by omega
            interval_cases i <;> simp [radices]
          have h4b : i ≤ 2 → (n / radices i) % 4 ≠ 0 := by
            intro hi2
            have e : i = 2 := by omega
            subst e
            have := h4 le_rfl
            simp only [radices] at hd ⊢
            omega
          obtain ⟨new, e, ht, hm⟩ := ih (n / radices i) i (radices i :: fs) h6 h4b
          refine ⟨new ++ [radices i], by rw [e]; simp, ?_, ?_⟩
          · cases new with
            | nil => simp
            | cons a new2 =>
              simp only [List.cons_append, List.tail_cons, List.mem_append, List.mem_singleton,
                not_or]
              exact ⟨by simpa using ht, fun h => hne2 h.symm⟩
          · intro x hx
            rcases List.mem_append.1 hx with h | h
            · exact hm x h
            · rw [List.mem_singleton.1 h]
              exact radices_mem hc.2 h6
        · simp only [radixLoop, hc, and_self, if_true, hd, if_false]
          have h4b : i - 1 ≤ 2 → n % 4 ≠ 0 := by
            intro hi2
            by_cases e : i = 3
            · subst e
              simpa [radices] using hd
            · exact h4 (by omega)
          exact ih n (i - 1) fs (by omega) h4b
      · exact ⟨[], by simp [radixLoop, hc], by simp, by simp⟩

/-- Replacing the most recently found 8 by 4: the list splits at that 8. -/
theorem substEight_split : ∀ fs : List ℕ, 8 ∈ fs →
    ∃ pre post, fs = pre ++ 8 :: post ∧ 8 ∉ pre ∧ substEight fs = some (pre ++ 4 :: post) := by
  intro fs
  induction fs with
  | nil => intro h; simp at h
  | cons f fs ih =>
    intro h
    by_cases h8 : f = 8
    · subst h8
      exact ⟨[], fs, rfl, by simp, by simp [substEight]⟩
    · have hmem : 8 ∈ fs := by
        rcases List.mem_cons.1 h with h1 | h1
        · exact absurd h1.symm h8
        · exact h1
      obtain ⟨pre, post, e, hp, hs⟩ := ih hmem
      refine ⟨f :: pre, post, by rw [e]; rfl, ?_, ?_⟩
      · simp only [List.mem_cons, not_or]
        exact ⟨fun h => h8 h.symm, hp⟩
      · simp [substEight, h8, hs]

theorem substEight_none : ∀ fs : List ℕ, substEight fs = none → 8 ∉ fs := by
  intro fs
  induction fs with
  | nil => intro _; simp
  | cons f fs ih =>
    intro h
    by_cases h8 : f = 8
    · simp [substEight, h8] at h
    · simp only [substEight, h8, if_false, Option.map_eq_none'] at h
      simp only [List.mem_cons, not_or]
      exact ⟨fun h2 => h8 h2.symm, ih h⟩

/-- After the substitution a list whose only 2 is its newest factor has a tail without
2, and it does not hold both a 2 and an 8. -/
theorem rebalance_shape (L : List ℕ) (ht : 2 ∉ L.tail) :
    2 ∉ (rebalance L).tail ∧ ¬ (2 ∈ rebalance L ∧ 8 ∈ rebalance L) ∧
    (rebalance L).length = L.length := by
  cases L with
  | nil => simp [rebalance]
  | cons h T =>
    simp only [List.tail_cons] at ht
    by_cases h2 : h = 2
    · subst h2
      cases hs : substEight T with
      | none =>
        have e : rebalance (2 :: T) = 2 :: T := by simp [rebalance, hs]
        rw [e]
        have h8 := substEight_none T hs
        refine ⟨by simpa using ht, ?_, rfl⟩
        rintro ⟨_, h8m⟩
        rcases List.mem_cons.1 h8m with h | h
        · omega
        · exact h8 h
      | some fs4 =>
        have e : rebalance (2 :: T) = 4 :: fs4 := by simp [rebalance, hs]
        rw [e]
        have hmem : ∀ x ∈ fs4, x ∈ T ∨ x = 4 := substEight_mem T fs4 hs
        have hno2 : 2 ∉ fs4 := by
          intro h
          rcases hmem 2 h with h1 | h1
          · exact ht h1
          · omega
        have hlen : fs4.length = T.length := by
          have : ∀ (l r : List ℕ), substEight l = some r → r.length = l.length := by
            intro l
            induction l with
            | nil => intro r h; simp [substEight] at h
            | cons f l ih =>
              intro r h
              by_cases h8 : f = 8
              · simp only [substEight, h8, if_true, Option.some.injEq] at h
                rw [← h]; rfl
              · simp only [substEight, h8, if_false, Option.map_eq_some'] at h
                obtain ⟨r2, hr2, rfl⟩ := h
                simp [ih r2 hr2]
          exact this T fs4 hs
        refine ⟨by simpa using hno2, ?_, by simp [hlen]⟩
        rintro ⟨h2m, _⟩
        rcases List.mem_cons.1 h2m with h | h
        · omega
        · exact hno2 h
    · have e : rebalance (h :: T) = h :: T := by
        unfold rebalance
        split
        · rename_i fs1 heq
          injection heq with h1 _
          exact absurd h1 h2
        · rfl
      rw [e]
      refine ⟨by simpa using ht, ?_, rfl⟩
      rintro ⟨h2m, _⟩
      rcases List.mem_cons.1 h2m with h1 | h1
      · exact h2 h1.symm
      · exact ht h1

/-- The factors added by the trial division of `factorize` are primes above 2. -/
theorem trialPart_odd (N : ℕ) (hN : 1 ≤ N) (fs : List ℕ) :
    ∀ x ∈ trialPart (radixLoop (N + 6) N 6 fs).1 [], x.Prime ∧ 3 ≤ x := by
  intro x hx
  have hodd := radixLoop_exit_odd (N + 6) N 6 fs le_rfl le_rfl (Or.inl (by omega))
  have hpos := radixLoop_pos (N + 6) N 6 fs hN
  rcases trialPart_mem _ _ x hx with h | h
  · simp at h
  · refine ⟨h.1, ?_⟩
    have h2 := h.1.two_le
    rcases Nat.eq_or_lt_of_le h2 with e | e
    · exfalso
      rw [← e] at h
      have hd := Nat.mod_eq_zero_of_dvd h.2
      rcases hodd with h1 | h1
      · have : (radixLoop (N + 6) N 6 fs).1 = 1 := by omega
        rw [this] at hd
        omega
      · exact h1 hd
    · omega

/-- The shape of the list returned by `factorize(N)`, `N >= 2`: primes above 2 from
the trial division, then the rebalanced factors of the preferred-radix pass. -/
theorem factorize_shape (N : ℕ) (hN : 2 ≤ N) :
    ∃ T L : List ℕ, factorize N = T ++ rebalance L ∧
      L = (radixLoop (N + 6) N 6 []).2 ∧
      T = trialPart (radixLoop (N + 6) N 6 []).1 [] ∧
      (∀ x ∈ T, x.Prime ∧ 3 ≤ x) ∧ 2 ∉ L.tail ∧ ∀ x ∈ L, x ∈ [2, 3, 4, 5, 8, 10] := by
  have hne : N ≠ 1 := by omega
  obtain ⟨new, e, ht, hm⟩ := radixLoop_two_head (N + 6) N 6 [] le_rfl (fun h => by omega)
  rw [List.append_nil] at e
  refine ⟨_, _, ?_, rfl, rfl, trialPart_odd N (by omega) [], by rw [e]; exact ht,
    by rw [e]; exact hm⟩
  unfold factorize
  rw [if_neg hne, trialPart_append]

theorem factorize_rebalance_aux (N : ℕ) (hN : 1 ≤ N) :
    (∀ fs : List ℕ, (radixLoop (N + 6) N 6 (if N = 1 then [1] else [])).2 = 2 :: fs →
      8 ∈ fs →
      ∃ pre post, fs = pre ++ 8 :: post ∧ 8 ∉ pre ∧
        rebalance (2 :: fs) = 4 :: (pre ++ 4 :: post) ∧
        factorize N
          = trialPart (radixLoop (N + 6) N 6 (if N = 1 then [1] else [])).1 []
              ++ 4 :: (pre ++ 4 :: post)) ∧
    ¬ (2 ∈ factorize N ∧ 8 ∈ factorize N) := by
  refine ⟨?_, ?_⟩
  · intro fs hL h8
    obtain ⟨pre, post, e, hp, hs⟩ := substEight_split fs h8
    have hr : rebalance (2 :: fs) = 4 :: (pre ++ 4 :: post) := by simp [rebalance, hs]
    refine ⟨pre, post, e, hp, hr, ?_⟩
    unfold factorize
    rw [trialPart_append, hL, hr]
  · by_cases h1 : N = 1
    · subst h1
      decide
    · obtain ⟨T, L, e, _, _, hT, ht, _⟩ := factorize_shape N (by omega)
      obtain ⟨_, hno, _⟩ := rebalance_shape L ht
      rw [e]
      rintro ⟨h2, h8⟩
      have h2T : 2 ∉ T := fun h => by have := (hT 2 h).2; omega
      have h8T : 8 ∉ T := fun h => by
        have := (hT 8 h).1
        revert this
        norm_num
      rcases List.mem_append.1 h2 with h | h
      · exact h2T h
      · rcases List.mem_append.1 h8 with h' | h'
        · exact h8T h'
        · exact hno ⟨h, h'⟩

/-- C21: for every N >= 1, when the preferred-radix pass of `factorize` ends with the
factor 2 as the newest one (`factors[j] == 2`) and an 8 among the earlier ones, that
2 and the most recently found 8 are both replaced by 4 (the factors found after
that 8 and before it are kept), and the list returned never contains both a 2 and
an 8. -/
theorem factorize_rebalance (N : ℕ) (hN : 1 ≤ N) :
    (∀ fs : List ℕ, (radixLoop (N + 6) N 6 (if N = 1 then [1] else [])).2 = 2 :: fs →
      8 ∈ fs →
      ∃ pre post, fs = pre ++ 8 :: post ∧ 8 ∉ pre ∧
        rebalance (2 :: fs) = 4 :: (pre ++ 4 :: post) ∧
        factorize N
          = trialPart (radixLoop (N + 6) N 6 (if N = 1 then [1] else [])).1 []
              ++ 4 :: (pre ++ 4 :: post)) ∧
    ¬ (2 ∈ factorize N ∧ 8 ∈ factorize N) :=
  factorize_rebalance_aux N hN

/-- C21 at N = 16 and N = 112: the pass finds 8 then 2, and the lists returned are
[4, 4] and [7, 4, 4]; at N = 128 it finds 8, 8, 2 and the list is [4, 4, 8]. -/
theorem factorize_rebalance_witness :
    1 ≤ 112 ∧ (radixLoop (16 + 6) 16 6 []).2 = [2, 8] ∧ factorize 16 = [4, 4] ∧
    (radixLoop (112 + 6) 112 6 []).2 = [2, 8] ∧ factorize 112 = [7, 4, 4] ∧
    factorize 128 = [4, 4, 8] ∧
    ¬ (2 ∈ factorize 112 ∧ 8 ∈ factorize 112) :=
  ⟨by decide, by decide, by decide, by decide, by decide, by decide,
    (factorize_rebalance 112 (by decide)).2⟩

/-! ### The number of factors -/

theorem pow_three_le_prod : ∀ T : List ℕ, (∀ x ∈ T, 3 ≤ x) → 3 ^ T.length ≤ T.prod := by
  intro T
  induction T with
  | nil => intro _; simp
  | cons a T ih =>
    intro h
    have ha := h a (List.mem_cons_self _ _)
    have hT := ih (fun x hx => h x (List.mem_cons_of_mem _ hx))
    rw [List.length_cons, List.prod_cons, pow_succ]
    calc 3 ^ T.length * 3 ≤ T.prod * a := Nat.mul_le_mul hT ha
      _ = a * T.prod := by ring

/-- A list of factors >= 2 of which at most one, standing before a tail of factors
>= 3, is below 3, preceded by factors >= 3: the product is at least `2 * 3^(len-1)`. -/
theorem two_pow_three_le_prod (T L : List ℕ) (hT : ∀ x ∈ T, 3 ≤ x) (hL : ∀ x ∈ L, 2 ≤ x)
    (hLt : ∀ x ∈ L.tail, 3 ≤ x) : 2 * 3 ^ (T ++ L).length ≤ 3 * (T ++ L).prod := by
  have h1 := pow_three_le_prod T hT
  have h2 : 2 * 3 ^ L.length ≤ 3 * L.prod := by
    cases L with
    | nil => simp
    | cons a L2 =>
      have ha := hL a (List.mem_cons_self _ _)
      have h3 := pow_three_le_prod L2 (by simpa using hLt)
      rw [List.length_cons, List.prod_cons, pow_succ]
      calc 2 * (3 ^ L2.length * 3) = 3 * (2 * 3 ^ L2.length) := by ring
        _ ≤ 3 * (a * L2.prod) := Nat.mul_le_mul_left 3 (Nat.mul_le_mul ha h3)
  rw [List.length_append, List.prod_append, pow_add]
  calc 2 * (3 ^ T.length * 3 ^ L.length) = 3 ^ T.length * (2 * 3 ^ L.length) := by ring
    _ ≤ T.prod * (3 * L.prod) := Nat.mul_le_mul h1 h2
    _ = 3 * (T.prod * L.prod) := by ring

theorem factorize_length_aux (N : ℕ) (hN : 1 ≤ N) (hmax : N ≤ 2 ^ 31 - 1) :
    (factorize N).length ≤ 19 := by
  by_cases h1 : N = 1
  · subst h1; decide
  · obtain ⟨T, L, e, _, _, hT, ht, hm⟩ := factorize_shape N (by omega)
    obtain ⟨ht2, _, _⟩ := rebalance_shape L ht
    have hmem : ∀ x ∈ rebalance L, x ∈ [2, 3, 4, 5, 8, 10] := by
      intro x hx
      rcases rebalance_mem L x hx with h | h
      · exact hm x h
      · rw [h]; simp
    have hge2 : ∀ x ∈ rebalance L, 2 ≤ x := by
      intro x hx
      have := hmem x hx
      simp only [List.mem_cons, List.mem_singleton, List.not_mem_nil, or_false] at this
      omega
    have hge3 : ∀ x ∈ (rebalance L).tail, 3 ≤ x := by
      intro x hx
      have h2 := hge2 x (List.mem_of_mem_tail hx)
      have hne : x ≠ 2 := fun h => ht2 (h ▸ hx)
      omega
    have key := two_pow_three_le_prod T (rebalance L) (fun x hx => (hT x hx).2) hge2 hge3
    rw [← e, factorize_prod_aux N hN] at key
    by_contra hlen
    have h20 : 20 ≤ (factorize N).length := by omega
    have hpow : (3 : ℕ) ^ 20 ≤ 3 ^ (factorize N).length :=
      Nat.pow_le_pow_right (by norm_num) h20
    have h3 : (3 : ℕ) ^ 20 = 3486784401 := by norm_num
    have h4 : (2 : ℕ) ^ 31 = 2147483648 := by norm_num
    omega

/-- C30: for every N with 1 <= N <= 2^31 - 1, `factorize(N)` produces at most 19
factors: `nFact <= 19`, so the indices 1..nFact used for `factors[j]` and `fact[i]`
stay below maxFactorCount = 20. -/
theorem factorize_length_le (N : ℕ) (hN : 1 ≤ N) (hmax : N ≤ 2 ^ 31 - 1) :
    (factorize N).length ≤ 19 ∧ (factorize N).length < maxFactorCount :=
  ⟨factorize_length_aux N hN hmax, by
    have := factorize_length_aux N hN hmax
    unfold maxFactorCount
    omega⟩

/-- C30 at N = 3^19 = 1162261467, which has exactly 19 factors 3. -/
theorem factorize_length_le_witness :
    1 ≤ 1162261467 ∧ 1162261467 ≤ 2 ^ 31 - 1 ∧ (factorize 1162261467).length = 19 ∧
    (factorize 1162261467).length ≤ 19 ∧ (factorize 1162261467).length < maxFactorCount :=
  ⟨by norm_num, by norm_num, by decide,
    factorize_length_le 1162261467 (by norm_num) (by norm_num)⟩

/-! ## The kernels fft_4, fft_8, fft_10 and fft_odd -/

/-- C22: for all complex a[0..3], `fft_4` replaces a by its 4-point DFT,
a'[k] = sum over n < 4 of a[n] * (-i)^(k*n); every output is a sum and difference of
the real and imaginary parts of the inputs (no multiplication), and the case 4 of
the `switch` in `twiddleTransf` computes the same values. -/
theorem fft_4_dft (a : CArr) :
    (∀ k, k < 4 →
      (⟨(fft_4 a).re k, (fft_4 a).im k⟩ : ℂ)
        = ∑ n in Finset.range 4, (⟨a.re n, a.im n⟩ : ℂ) * (-Complex.I) ^ (k * n)) ∧
    ((fft_4 a).re 0 = (a.re 0 + a.re 2) + (a.re 1 + a.re 3) ∧
     (fft_4 a).im 0 = (a.im 0 + a.im 2) + (a.im 1 + a.im 3) ∧
     (fft_4 a).re 1 = (a.re 0 - a.re 2) + (a.im 1 - a.im 3) ∧
     (fft_4 a).im 1 = (a.im 0 - a.im 2) + (a.re 3 - a.re 1) ∧
     (fft_4 a).re 2 = (a.re 0 + a.re 2) - (a.re 1 + a.re 3) ∧
     (fft_4 a).im 2 = (a.im 0 + a.im 2) - (a.im 1 + a.im 3) ∧
     (fft_4 a).re 3 = (a.re 0 - a.re 2) - (a.im 1 - a.im 3) ∧
     (fft_4 a).im 3 = (a.im 0 - a.im 2) - (a.re 3 - a.re 1)) ∧
    radix4 a = fft_4 a := by
  refine ⟨?_, ?_, rfl⟩
  · intro k hk
    have h := fft_4_spec a k hk
    rw [dft_eq_sum_pow, root_four] at h
    exact h
  · simp [fft_4, Function.update_apply]

/-- The rotation of the odd half in `fft_8`: 1, (1-i)/sqrt2, -i, -(1+i)/sqrt2. -/
theorem fft_8_rotation (z : CArr) (k : ℕ) (hk : k < 4) :
    (fft_8 z).cx k
      = (fft_4 ⟨arrOf [z.re 0, z.re 2, z.re 4, z.re 6],
          arrOf [z.im 0, z.im 2, z.im 4, z.im 6]⟩).cx k
        + ([1, (1 - Complex.I) * ((c8 : ℝ) : ℂ), -Complex.I,
            -(1 + Complex.I) * ((c8 : ℝ) : ℂ)].getD k 0)
          * (fft_4 ⟨arrOf [z.re 1, z.re 3, z.re 5, z.re 7],
              arrOf [z.im 1, z.im 3, z.im 5, z.im 7]⟩).cx k ∧
    (fft_8 z).cx (k + 4)
      = (fft_4 ⟨arrOf [z.re 0, z.re 2, z.re 4, z.re 6],
          arrOf [z.im 0, z.im 2, z.im 4, z.im 6]⟩).cx k
        - ([1, (1 - Complex.I) * ((c8 : ℝ) : ℂ), -Complex.I,
            -(1 + Complex.I) * ((c8 : ℝ) : ℂ)].getD k 0)
          * (fft_4 ⟨arrOf [z.re 1, z.re 3, z.re 5, z.re 7],
              arrOf [z.im 1, z.im 3, z.im 5, z.im 7]⟩).cx k := by
  generalize hA : fft_4 ⟨arrOf [z.re 0, z.re 2, z.re 4, z.re 6],
    arrOf [z.im 0, z.im 2, z.im 4, z.im 6]⟩ = A
  generalize hB : fft_4 ⟨arrOf [z.re 1, z.re 3, z.re 5, z.re 7],
    arrOf [z.im 1, z.im 3, z.im 5, z.im 7]⟩ = B
  have e : fft_8 z =
      (let b2 : CArr :=
        ⟨Function.update B.re 1 (c8 * (B.re 1 + B.im 1)),
         Function.update B.im 1 (c8 * (B.im 1 - B.re 1))⟩
      let b3 : CArr := ⟨Function.update b2.re 2 (b2.im 2), Function.update b2.im 2 (-b2.re 2)⟩
      let b : CArr :=
        ⟨Function.update b3.re 3 (c8 * (b3.im 3 - b3.re 3)),
         Function.update b3.im 3 (-c8 * (b3.re 3 + b3.im 3))⟩
      { re := Function.update (Function.update (Function.update (Function.update
          (Function.update (Function.update (Function.update (Function.update z.re
          0 (A.re 0 + b.re 0)) 4 (A.re 0 - b.re 0)) 1 (A.re 1 + b.re 1)) 5 (A.re 1 - b.re 1))
          2 (A.re 2 + b.re 2)) 6 (A.re 2 - b.re 2)) 3 (A.re 3 + b.re 3)) 7 (A.re 3 - b.re 3)
        im := Function.update (Function.update (Function.update (Function.update
          (Function.update (Function.update (Function.update (Function.update z.im
          0 (A.im 0 + b.im 0)) 4 (A.im 0 - b.im 0)) 1 (A.im 1 + b.im 1)) 5 (A.im 1 - b.im 1))
          2 (A.im 2 + b.im 2)) 6 (A.im 2 - b.im 2)) 3 (A.im 3 + b.im 3))
          7 (A.im 3 - b.im 3) }) := by
    rw [← hA, ← hB]; rfl
  rw [e]
  interval_cases k <;>
    refine ⟨?_, ?_⟩ <;>
    apply Complex.ext <;>
    simp [CArr.cx, Function.update_apply] <;> ring

/-- C23: for all complex z[0..7], `fft_8` replaces z by its 8-point DFT
z'[k] = sum over n < 8 of z[n] * exp(-2*pi*i*k*n/8), with c8 = 1/sqrt(2); it is
built from `fft_4` of (z0,z2,z4,z6) and `fft_4` of (z1,z3,z5,z7), the latter
multiplied by 1, (1-i)/sqrt2, -i, -(1+i)/sqrt2, added for the outputs 0..3 and
subtracted for the outputs 4..7. -/
theorem fft_8_dft (z : CArr) :
    (∀ k, k < 8 →
      (⟨(fft_8 z).re k, (fft_8 z).im k⟩ : ℂ)
        = ∑ n in Finset.range 8, (⟨z.re n, z.im n⟩ : ℂ) *
            Complex.exp (-(Complex.I * 2 * (Real.pi : ℂ) * (k : ℂ) * (n : ℂ) / ((8 : ℕ) : ℂ)))) ∧
    c8 = 1 / Real.sqrt 2 ∧
    ∀ k, k < 4 →
      (fft_8 z).cx k
        = (fft_4 ⟨arrOf [z.re 0, z.re 2, z.re 4, z.re 6],
            arrOf [z.im 0, z.im 2, z.im 4, z.im 6]⟩).cx k
          + ([1, (1 - Complex.I) * ((c8 : ℝ) : ℂ), -Complex.I,
              -(1 + Complex.I) * ((c8 : ℝ) : ℂ)].getD k 0)
            * (fft_4 ⟨arrOf [z.re 1, z.re 3, z.re 5, z.re 7],
                arrOf [z.im 1, z.im 3, z.im 5, z.im 7]⟩).cx k ∧
      (fft_8 z).cx (k + 4)
        = (fft_4 ⟨arrOf [z.re 0, z.re 2, z.re 4, z.re 6],
            arrOf [z.im 0, z.im 2, z.im 4, z.im 6]⟩).cx k
          - ([1, (1 - Complex.I) * ((c8 : ℝ) : ℂ), -Complex.I,
              -(1 + Complex.I) * ((c8 : ℝ) : ℂ)].getD k 0)
            * (fft_4 ⟨arrOf [z.re 1, z.re 3, z.re 5, z.re 7],
                arrOf [z.im 1, z.im 3, z.im 5, z.im 7]⟩).cx k :=
  ⟨fun k hk => fft_8_spec z k hk, rfl, fun k hk => fft_8_rotation z k hk⟩

/-- The combination step of `fft_10`: sums and differences of the two 5-point
transforms. -/
theorem fft_10_combine (z : CArr) (k : ℕ) (hk : k < 10) :
    (fft_10 z).cx k
      = (fft_5 ⟨arrOf [z.re 0, z.re 2, z.re 4, z.re 6, z.re 8],
          arrOf [z.im 0, z.im 2, z.im 4, z.im 6, z.im 8]⟩).cx (k % 5)
        + (-1) ^ k *
          (fft_5 ⟨arrOf [z.re 5, z.re 7, z.re 9, z.re 1, z.re 3],
            arrOf [z.im 5, z.im 7, z.im 9, z.im 1, z.im 3]⟩).cx (k % 5) := by
  generalize hA : fft_5 ⟨arrOf [z.re 0, z.re 2, z.re 4, z.re 6, z.re 8],
    arrOf [z.im 0, z.im 2, z.im 4, z.im 6, z.im 8]⟩ = A
  generalize hB : fft_5 ⟨arrOf [z.re 5, z.re 7, z.re 9, z.re 1, z.re 3],
    arrOf [z.im 5, z.im 7, z.im 9, z.im 1, z.im 3]⟩ = B
  have e : fft_10 z =
      { re := Function.update (Function.update (Function.update (Function.update
          (Function.update (Function.update (Function.update (Function.update
          (Function.update (Function.update z.re
          0 (A.re 0 + B.re 0)) 5 (A.re 0 - B.re 0)) 6 (A.re 1 + B.re 1)) 1 (A.re 1 - B.re 1))
          2 (A.re 2 + B.re 2)) 7 (A.re 2 - B.re 2)) 8 (A.re 3 + B.re 3)) 3 (A.re 3 - B.re 3))
          4 (A.re 4 + B.re 4)) 9 (A.re 4 - B.re 4)
        im := Function.update (Function.update (Function.update (Function.update
          (Function.update (Function.update (Function.update (Function.update
          (Function.update (Function.update z.im
          0 (A.im 0 + B.im 0)) 5 (A.im 0 - B.im 0)) 6 (A.im 1 + B.im 1)) 1 (A.im 1 - B.im 1))
          2 (A.im 2 + B.im 2)) 7 (A.im 2 - B.im 2)) 8 (A.im 3 + B.im 3)) 3 (A.im 3 - B.im 3))
          4 (A.im 4 + B.im 4)) 9 (A.im 4 - B.im 4) } := by
    rw [← hA, ← hB]; rfl
  rw [e]
  interval_cases k <;>
    norm_num [CArr.cx, Function.update_apply, Complex.ext_iff] <;>
    constructor <;> ring

/-- C24: for all complex z[0..9] and every k in 0..9, `fft_10` yields
z'[k] = A[k mod 5] + (-1)^k * B[k mod 5], where A = `fft_5` of (z0,z2,z4,z6,z8) and
B = `fft_5` of (z5,z7,z9,z1,z3); `fft_5` is the 5-point DFT, and z' is the 10-point
DFT of z. -/
theorem fft_10_pfa (z : CArr) :
    (∀ k, k < 10 →
      (fft_10 z).cx k
        = (fft_5 ⟨arrOf [z.re 0, z.re 2, z.re 4, z.re 6, z.re 8],
            arrOf [z.im 0, z.im 2, z.im 4, z.im 6, z.im 8]⟩).cx (k % 5)
          + (-1) ^ k *
            (fft_5 ⟨arrOf [z.re 5, z.re 7, z.re 9, z.re 1, z.re 3],
              arrOf [z.im 5, z.im 7, z.im 9, z.im 1, z.im 3]⟩).cx (k % 5)) ∧
    (∀ (a : CArr) k, k < 5 →
      (⟨(fft_5 a).re k, (fft_5 a).im k⟩ : ℂ)
        = ∑ n in Finset.range 5, (⟨a.re n, a.im n⟩ : ℂ) *
            Complex.exp (-(Complex.I * 2 * (Real.pi : ℂ) * (k : ℂ) * (n : ℂ) / ((5 : ℕ) : ℂ)))) ∧
    ∀ k, k < 10 →
      (⟨(fft_10 z).re k, (fft_10 z).im k⟩ : ℂ)
        = ∑ n in Finset.range 10, (⟨z.re n, z.im n⟩ : ℂ) *
            Complex.exp (-(Complex.I * 2 * (Real.pi : ℂ) * (k : ℂ) * (n : ℂ) / ((10 : ℕ) : ℂ))) :=
  ⟨fun k hk => fft_10_combine z k hk, fun a k hk => fft_5_spec a k hk,
    fun k hk => fft_10_spec z k hk⟩

/-- The index `k` with which the innermost loop of `fft_odd` reads the table: after
`cnt` rounds it is `((cnt+1)*j) mod n`. -/
theorem oddInner_index (n j : ℕ) (hj : j < n) (trig v w : CArr) (z : CArr) (cnt : ℕ) :
    (forLoop (oddInner n j trig v w) cnt 1 (z, j)).2 = ((1 + cnt) * j) % n := by
  refine forLoop_inv (fun i (t : CArr × ℕ) => t.2 = (i * j) % n)
    (oddInner n j trig v w) cnt 1 (z, j) ?_ ?_
  · show j = (1 * j) % n
    rw [one_mul, Nat.mod_eq_of_lt hj]
  · intro i t _ _ hP
    show (if t.2 + j ≥ n then t.2 + j - n else t.2 + j) = ((i + 1) * j) % n
    have hlt : t.2 < n := by rw [hP]; exact Nat.mod_lt _ (by omega)
    rw [add_mod_step hlt hj, hP, Nat.mod_add_mod]
    congr 1; ring

theorem fft_odd_aux (r : ℕ) (hodd : r % 2 = 1) (trig : CArr)
    (htrig : ∀ k, k < r → trig.cx k = root r ^ k) (s : OddWork) :
    ∀ q, q < r → (fft_odd r trig s).z.cx q = dft r s.z.cx q := by
  obtain ⟨h, rfl⟩ : ∃ h, r = 2 * h + 1 := ⟨r / 2, by omega⟩
  exact fft_odd_spec h trig htrig s

/-- C25: for every odd radix r with 3 <= r <= 37 and a table with
trig[k] = exp(-2*pi*i*k/r) for 0 <= k < r, `fft_odd(r)` replaces z[0..r-1] by its
r-point DFT, z'[j] = sum over n < r of z[n] * exp(-2*pi*i*j*n/r); in the round i of
the innermost loop for the output j (1 <= i, j < (r+1)/2) the index with which the
table is read is (i*j) mod r, which lies in 0..r-1, below maxPrimeFactor. -/
theorem fft_odd_dft (r : ℕ) (hodd : r % 2 = 1) (h3 : 3 ≤ r) (h37 : r ≤ 37) (trig : CArr)
    (htrig : ∀ k, k < r →
      (⟨trig.re k, trig.im k⟩ : ℂ)
        = Complex.exp (-(Complex.I * 2 * (Real.pi : ℂ) * (k : ℂ) / (r : ℂ))))
    (s : OddWork) :
    (∀ j, j < r →
      (⟨(fft_odd r trig s).z.re j, (fft_odd r trig s).z.im j⟩ : ℂ)
        = ∑ n in Finset.range r, (⟨s.z.re n, s.z.im n⟩ : ℂ) *
            Complex.exp (-(Complex.I * 2 * (Real.pi : ℂ) * (j : ℂ) * (n : ℂ) / (r : ℂ)))) ∧
    ∀ j i, 1 ≤ j → j < (r + 1) / 2 → 1 ≤ i → i < (r + 1) / 2 →
      ∀ v w z : CArr,
        (forLoop (oddInner r j trig v w) (i - 1) 1 (z, j)).2 = (i * j) % r ∧
        (i * j) % r < r ∧ (i * j) % r < maxPrimeFactor := by
  refine ⟨?_, ?_⟩
  · intro j hj
    exact fft_odd_aux r hodd trig (fun k hk => by rw [root_pow]; exact htrig k hk) s j hj
  · intro j i hj1 hj2 hi1 _ v w z
    have hlt : (i * j) % r < r := Nat.mod_lt _ (by omega)
    refine ⟨?_, hlt, by unfold maxPrimeFactor; omega⟩
    rw [oddInner_index r j (by omega) trig v w z (i - 1)]
    congr 2
    omega

/-- C25 at r = 7 with the table filled by `initTrig(7)`. -/
theorem fft_odd_dft_witness :
    7 % 2 = 1 ∧ 3 ≤ 7 ∧ 7 ≤ 37 ∧
    (∀ k, k < 7 →
      (⟨(initTrig 7 ⟨fun _ => 0, fun _ => 0⟩).re k,
        (initTrig 7 ⟨fun _ => 0, fun _ => 0⟩).im k⟩ : ℂ)
        = Complex.exp (-(Complex.I * 2 * (Real.pi : ℂ) * (k : ℂ) / ((7 : ℕ) : ℂ)))) ∧
    ∀ j, j < 7 →
      (⟨(fft_odd 7 (initTrig 7 ⟨fun _ => 0, fun _ => 0⟩)
          ⟨⟨fun m => (m : ℝ), fun _ => 0⟩, ⟨fun _ => 0, fun _ => 0⟩,
            ⟨fun _ => 0, fun _ => 0⟩⟩).z.re j,
        (fft_odd 7 (initTrig 7 ⟨fun _ => 0, fun _ => 0⟩)
          ⟨⟨fun m => (m : ℝ), fun _ => 0⟩, ⟨fun _ => 0, fun _ => 0⟩,
            ⟨fun _ => 0, fun _ => 0⟩⟩).z.im j⟩ : ℂ)
        = ∑ n in Finset.range 7, (⟨(n : ℝ), 0⟩ : ℂ) *
            Complex.exp (-(Complex.I * 2 * (Real.pi : ℂ) * (j : ℂ) * (n : ℂ) / ((7 : ℕ) : ℂ))) :=
  have ht : ∀ k, k < 7 →
      (⟨(initTrig 7 ⟨fun _ => 0, fun _ => 0⟩).re k,
        (initTrig 7 ⟨fun _ => 0, fun _ => 0⟩).im k⟩ : ℂ)
        = Complex.exp (-(Complex.I * 2 * (Real.pi : ℂ) * (k : ℂ) / ((7 : ℕ) : ℂ))) :=
    fun k hk => by
      have := initTrig_spec 7 ⟨fun _ => 0, fun _ => 0⟩ k hk
      rw [root_pow] at this
      exact this
  ⟨by norm_num, by norm_num, by norm_num, ht,
    (fft_odd_dft 7 (by norm_num) (by norm_num) (by norm_num) _ ht _).1⟩

/-! ## The extent of the table of nice numbers -/

set_option maxRecDepth 100000 in
set_option maxHeartbeats 4000000 in
theorem nice_all_le : fft_nice_numbers.all (fun t => decide (t ≤ 9953280)) = true := by decide

set_option maxRecDepth 100000 in
set_option maxHeartbeats 4000000 in
/-- No entry multiplied by 2, 3 or 5 falls between the last entry and 10^7. -/
theorem nice_gap :
    fft_nice_numbers.all (fun t =>
      (decide (2 * t ≤ 9953280) || decide (10000000 ≤ 2 * t)) &&
      ((decide (3 * t ≤ 9953280) || decide (10000000 ≤ 3 * t)) &&
       (decide (5 * t ≤ 9953280) || decide (10000000 ≤ 5 * t)))) = true := by decide

/-- There is no integer of the form `2^a * 3^b * 5^c` between the last entry 9953280
and 10^7. -/
theorem fiveSmooth_gap : ∀ (s a b c : ℕ), a + b + c = s →
    2 ^ a * 3 ^ b * 5 ^ c < 10000000 → 2 ^ a * 3 ^ b * 5 ^ c ≤ 9953280 := by
  intro s
  induction s with
  | zero =>
    intro a b c hs _
    have ha : a = 0 := by omega
    have hb : b = 0 := by omega
    have hc : c = 0 := by omega
    subst ha; subst hb; subst hc
    norm_num
  | succ s ih =>
    intro a b c hs hlt
    have key : ∀ t : ℕ, t ∈ fft_nice_numbers →
        (2 * t ≤ 9953280 ∨ 10000000 ≤ 2 * t) ∧ (3 * t ≤ 9953280 ∨ 10000000 ≤ 3 * t) ∧
          (5 * t ≤ 9953280 ∨ 10000000 ≤ 5 * t) := by
      intro t hmem
      have := (List.all_eq_true.1 nice_gap) t hmem
      simpa using this
    have hpos : 0 < 2 ^ a * 3 ^ b * 5 ^ c := by positivity
    rcases Nat.eq_zero_or_pos a with ha | ha
    · rcases Nat.eq_zero_or_pos b with hb | hb
      · obtain ⟨c1, rfl⟩ : ∃ c1, c = c1 + 1 := ⟨c - 1, by omega⟩
        have e : 2 ^ a * 3 ^ b * 5 ^ (c1 + 1) = 5 * (2 ^ a * 3 ^ b * 5 ^ c1) := by ring
        rw [e] at hlt ⊢
        have h1 := ih a b c1 (by omega) (by omega)
        have h2 := key _ (nice_complete _ a b c1 rfl h1)
        omega
      · obtain ⟨b1, rfl⟩ : ∃ b1, b = b1 + 1 := ⟨b - 1, by omega⟩
        have e : 2 ^ a * 3 ^ (b1 + 1) * 5 ^ c = 3 * (2 ^ a * 3 ^ b1 * 5 ^ c) := by ring
        rw [e] at hlt ⊢
        have h1 := ih a b1 c (by omega) (by omega)
        have h2 := key _ (nice_complete _ a b1 c rfl h1)
        omega
    · obtain ⟨a1, rfl⟩ : ∃ a1, a = a1 + 1 := ⟨a - 1, by omega⟩
      have e : 2 ^ (a1 + 1) * 3 ^ b * 5 ^ c = 2 * (2 ^ a1 * 3 ^ b * 5 ^ c) := by ring
      rw [e] at hlt ⊢
      have h1 := ih a1 b c (by omega) (by omega)
      have h2 := key _ (nice_complete _ a1 b c rfl h1)
      omega

/-- C26 as stated fails at 10^7 = 2^7 * 5^7: it is of the form 2^a * 3^b * 5^c and
smaller than 10^10, and it does not occur in the table, whose 767 entries end at
9953280. -/
theorem fft_nice_numbers_misses_1e7 :
    (10000000 : ℕ) = 2 ^ 7 * 3 ^ 0 * 5 ^ 7 ∧ (10000000 : ℕ) < 10 ^ 10 ∧
    10000000 ∉ fft_nice_numbers ∧
    fft_nice_numbers.length = 767 ∧ niceAt 766 = 9953280 := by
  refine ⟨by norm_num, by norm_num, ?_, nice_length, niceAt_last⟩
  intro h
  have := (List.all_eq_true.1 nice_all_le) _ h
  simp at this

/-- C26 (amended): the table `fft_nice_numbers` is the ascending list of the integers
of the form 2^a * 3^b * 5^c that are smaller than 10^7: it is strictly ascending,
each of its 767 entries is of that form and below 10^7, and every such integer
occurs in it. -/
theorem fft_nice_numbers_below_1e7 :
    fft_nice_numbers.Pairwise (fun a b => a < b) ∧
    fft_nice_numbers.length = n_fft_nice_numbers ∧
    (∀ x ∈ fft_nice_numbers, x < 10 ^ 7 ∧ ∃ a b c : ℕ, x = 2 ^ a * 3 ^ b * 5 ^ c) ∧
    ∀ a b c : ℕ, 2 ^ a * 3 ^ b * 5 ^ c < 10 ^ 7 → 2 ^ a * 3 ^ b * 5 ^ c ∈ fft_nice_numbers := by
  refine ⟨nice_pairwise, nice_length, ?_, ?_⟩
  · intro x hx
    have h1 := (List.all_eq_true.1 nice_all_le) x hx
    simp only [decide_eq_true_eq] at h1
    refine ⟨by norm_num; omega, ?_⟩
    obtain ⟨a, b, c, h⟩ := smoothB_sound x ((List.all_eq_true.1 nice_all_smoothB) x hx)
    exact ⟨a, b, c, by exact_mod_cast h⟩
  · intro a b c h
    exact nice_complete _ a b c rfl (fiveSmooth_gap _ a b c rfl (by norm_num at h; exact h))

/-- C26 (amended) at 9953280 = 2^13 * 3^5 * 5, the largest integer of the form
2^a * 3^b * 5^c below 10^7 and the last entry of the table. -/
theorem fft_nice_numbers_below_1e7_witness :
    2 ^ 13 * 3 ^ 5 * 5 ^ 1 = 9953280 ∧ 2 ^ 13 * 3 ^ 5 * 5 ^ 1 < 10 ^ 7 ∧
    2 ^ 13 * 3 ^ 5 * 5 ^ 1 ∈ fft_nice_numbers :=
  ⟨by norm_num, by norm_num, fft_nice_numbers_below_1e7.2.2.2 13 5 1 (by norm_num)⟩

/-! ## remove_ends -/

/-- C27 fails for d1 = [5], n1 = 1, n2 = 0: the guard is `(n1 + n2) > n`, so
n1 + n2 = n passes it, `v.resize(n - n1 - n2)` makes an empty vector and d1 is left
empty; the same happens whenever n1 + n2 = d1.size(), n1, n2 >= 0. -/
theorem remove_ends_empties :
    remove_ends ([5] : List ℚ) 1 0 = some [] ∧ ([5] : List ℚ) ≠ [] ∧
    ∀ (d1 : List ℚ) (n1 n2 : ℤ), d1 ≠ [] → 0 ≤ n1 → 0 ≤ n2 →
      n1 + n2 = (d1.length : ℤ) → d1.length < 2 ^ 31 → remove_ends d1 n1 n2 = some [] := by
  refine ⟨by decide, by decide, ?_⟩
  intro d1 n1 n2 hne h1 h2 hsum hlen
  have hpos : 0 < d1.length := List.length_pos.2 hne
  have hw : wrapInt (n1 + n2) = n1 + n2 := wrapInt_eq (by omega) (by omega)
  unfold remove_ends
  rw [if_neg (by omega), if_neg (by omega), hw, if_neg (by omega), if_pos ⟨h1, h2, by omega⟩]
  have e : d1.length - n1.toNat - n2.toNat = 0 := by omega
  rw [e, List.take_zero]

/-! ## permute: indices in range, carry within the digits, bijection -/

theorem digitRev_lt : ∀ (fs : List ℕ), (∀ f ∈ fs, 1 ≤ f) → ∀ g, digitRev fs g < fs.prod := by
  intro fs
  induction fs with
  | nil => intro _ g; simp [digitRev]
  | cons f fs ih =>
    intro hpos g
    have hf : 1 ≤ f := hpos f (List.mem_cons_self _ _)
    have h1 := ih (fun x hx => hpos x (List.mem_cons_of_mem _ hx)) (g / f)
    have h2 : g % f < f := Nat.mod_lt _ (by omega)
    simp only [digitRev, List.prod_cons]
    calc g % f * fs.prod + digitRev fs (g / f) < g % f * fs.prod + fs.prod := by omega
      _ = (g % f + 1) * fs.prod := by ring
      _ ≤ f * fs.prod := Nat.mul_le_mul_right _ (by omega)

theorem digitRev_inj : ∀ (fs : List ℕ), (∀ f ∈ fs, 1 ≤ f) → ∀ g g2, g < fs.prod →
    g2 < fs.prod → digitRev fs g = digitRev fs g2 → g = g2 := by
  intro fs
  induction fs with
  | nil => intro _ g g2 h1 h2 _; simp at h1 h2; omega
  | cons f fs ih =>
    intro hpos g g2 h1 h2 he
    have hf : 1 ≤ f := hpos f (List.mem_cons_self _ _)
    have hfs : ∀ x ∈ fs, 1 ≤ x := fun x hx => hpos x (List.mem_cons_of_mem _ hx)
    have hP : 0 < fs.prod := prod_pos_of_pos fs hfs
    rw [List.prod_cons] at h1 h2
    simp only [digitRev] at he
    have l1 := digitRev_lt fs hfs (g / f)
    have l2 := digitRev_lt fs hfs (g2 / f)
    have hq : (g % f * fs.prod + digitRev fs (g / f)) / fs.prod = g % f := by
      rw [add_comm, Nat.add_mul_div_right _ _ hP, Nat.div_eq_of_lt l1, zero_add]
    have hq2 : (g2 % f * fs.prod + digitRev fs (g2 / f)) / fs.prod = g2 % f := by
      rw [add_comm, Nat.add_mul_div_right _ _ hP, Nat.div_eq_of_lt l2, zero_add]
    have hm : g % f = g2 % f := by rw [← hq, he, hq2]
    have hr : digitRev fs (g / f) = digitRev fs (g2 / f) := by
      rw [hm] at he
      exact Nat.add_left_cancel he
    have hd : g / f = g2 / f :=
      ih hfs _ _ (by rw [Nat.div_lt_iff_lt_mul (by omega), mul_comm]; exact h1)
        (by rw [Nat.div_lt_iff_lt_mul (by omega), mul_comm]; exact h2) hr
    rw [← Nat.mod_add_div g f, ← Nat.mod_add_div g2 f, hm, hd]

/-- The mixed-radix digit reversal is a bijection of `0..N-1`. -/
theorem digitRev_bijOn (fs : List ℕ) (hpos : ∀ f ∈ fs, 1 ≤ f) :
    Set.BijOn (digitRev fs) (Set.Iio fs.prod) (Set.Iio fs.prod) := by
  refine Set.BijOn.mk (fun g _ => digitRev_lt fs hpos g)
    (fun g hg g2 hg2 h => digitRev_inj fs hpos g g2 hg hg2 h) ?_
  intro m hm
  have := Finset.surj_on_of_inj_on_of_card_le
    (s := Finset.range fs.prod) (t := Finset.range fs.prod)
    (fun g _ => digitRev fs g)
    (fun g _ => Finset.mem_range.2 (digitRev_lt fs hpos g))
    (fun g g2 hg hg2 h =>
      digitRev_inj fs hpos g g2 (Finset.mem_range.1 hg) (Finset.mem_range.1 hg2) h)
    le_rfl m (Finset.mem_range.2 hm)
  obtain ⟨g, hg, e⟩ := this
  exact ⟨g, Finset.mem_range.1 hg, e.symm⟩

/-- The carry loop of `permute` under the hypotheses of `carryLoop_spec`: it stops at a
digit `j <= nFact`, and it stops because `count[j] < fact[j]` there. -/
theorem carryIndex_spec (fs : List ℕ) (fact remain : ℕ → ℕ)
    (hfact : ∀ (pre : List ℕ) f suf, fs = pre ++ f :: suf → fact (pre.length + 1) = f) :
    ∀ (fuel : ℕ) (pre : List ℕ) (f : ℕ) (suf : List ℕ) (j : ℕ) (count : ℕ → ℕ) (k : ℤ)
      (v : ℕ),
      fs = pre ++ f :: suf → j = pre.length + 1 → suf.length + 1 ≤ fuel →
      count j ≤ f → digitsOK count (j + 1) suf →
      pre.prod * digitVal count j (f :: suf) = v → v < fs.prod →
      j ≤ carryIndex fact fuel j count ∧ carryIndex fact fuel j count ≤ fs.length ∧
      (carryLoop fact remain fuel j count k).1 (carryIndex fact fuel j count)
        < fact (carryIndex fact fuel j count) := by
  intro fuel
  induction fuel with
  | zero => intro pre f suf j count k v _ _ h; omega
  | succ fuel ih =>
    intro pre f suf j count k v hfs hj hfuel hcj hok hv hvlt
    have hfj : fact j = f := by rw [hj]; exact hfact pre f suf hfs
    have hlen : fs.length = pre.length + (suf.length + 1) := by rw [hfs]; simp
    by_cases hc : count j ≥ fact j
    · rw [hfj] at hc
      have hcjf : count j = f := by omega
      cases suf with
      | nil =>
        exfalso
        simp only [digitVal, hcjf, Nat.mul_zero, Nat.add_zero] at hv
        rw [hfs, List.prod_append, List.prod_singleton, hv] at hvlt
        omega
      | cons f2 suf2 =>
        simp only [digitsOK] at hok
        have hfs2 : fs = (pre ++ [f]) ++ f2 :: suf2 := by rw [hfs]; simp
        obtain ⟨count2, hcount2⟩ : ∃ c : ℕ → ℕ, c = Function.update (Function.update count j 0)
            (j + 1) (Function.update count j 0 (j + 1) + 1) := ⟨_, rfl⟩
        have c2a : count2 (j + 1) = count (j + 1) + 1 := by
          rw [hcount2]; simp [Function.update_apply]
        have c2c : ∀ l, l ≠ j → l ≠ j + 1 → count2 l = count l := by
          intro l h1 h2
          rw [hcount2]; simp [Function.update_apply, h1, h2]
        have c2d : ∀ l, j + 1 + 1 ≤ l → count2 l = count l :=
          fun l hl => c2c l (by omega) (by omega)
        have key := ih (pre ++ [f]) f2 suf2 (j + 1) count2
          (k - (remain (j - 1) : ℤ) + (remain (j + 1) : ℤ)) v hfs2
          (by simp; omega) (by simp only [List.length_cons] at hfuel; omega)
          (by rw [c2a]; omega)
          (digitsOK_congr count count2 suf2 (j + 1 + 1) (fun l hl => (c2d l hl).symm) hok.2)
          (by
            rw [← hv]
            simp only [digitVal, List.prod_append, List.prod_singleton, hcjf, c2a]
            rw [digitVal_congr count2 count suf2 (j + 1 + 1) c2d]
            ring)
          hvlt
        have hfc : count j ≥ fact j := by rw [hfj]; exact hc
        simp only [carryLoop, carryIndex, hfc, if_true]
        rw [← hcount2]
        exact ⟨by omega, key.2.1, key.2.2⟩
    · simp only [carryLoop, carryIndex, hc, if_false]
      exact ⟨le_rfl, by omega, by omega⟩

/-- The state of `permute` after `i` rounds of its main loop: the digits spell `i`
and `k` is the digit reversal of `i`. -/
theorem permute_state (fs : List ℕ) (fact remain : ℕ → ℕ)
    (hfact : ∀ (pre : List ℕ) f suf, fs = pre ++ f :: suf → fact (pre.length + 1) = f)
    (hremain : ∀ (pre suf : List ℕ), fs = pre ++ suf → remain pre.length = suf.prod)
    (hpos : ∀ f ∈ fs, 1 ≤ f) (hne : fs ≠ []) (x y : CArr) (count : ℕ → ℕ) (i : ℕ)
    (hi : i < fs.prod) :
    digitsOK (forLoop (permuteStep fs.length fact remain x) i 0
      { y := y, count := forLoop (fun i c => Function.update c i 0) fs.length 1 count,
        k := 0 }).count 1 fs ∧
    digitVal (forLoop (permuteStep fs.length fact remain x) i 0
      { y := y, count := forLoop (fun i c => Function.update c i 0) fs.length 1 count,
        k := 0 }).count 1 fs = i ∧
    (forLoop (permuteStep fs.length fact remain x) i 0
      { y := y, count := forLoop (fun i c => Function.update c i 0) fs.length 1 count,
        k := 0 }).k = (digitRev fs i : ℤ) := by
  obtain ⟨f, suf, hfs⟩ : ∃ f suf, fs = f :: suf := by
    cases fs with
    | nil => exact absurd rfl hne
    | cons f suf => exact ⟨f, suf, rfl⟩
  have hz := countInit_loop fs.length count
  have hz0 := digits_leading_zero
    (forLoop (fun i c => Function.update c i 0) fs.length 1 count) fs [] 1 hpos
    (fun l h1 h2 => hz l h1 h2)
  rw [List.append_nil] at hz0
  have key := forLoop_inv
    (fun i (t : PermWork) =>
      digitsOK t.count 1 fs ∧ digitVal t.count 1 fs = i ∧
      t.k = (digitRVal t.count 1 fs : ℤ))
    (permuteStep fs.length fact remain x) i 0
    { y := y, count := forLoop (fun i c => Function.update c i 0) fs.length 1 count, k := 0 }
    ⟨hz0.2.2 trivial, by rw [hz0.1]; simp [digitVal], by rw [hz0.2.1]; simp [digitRVal]⟩ ?_
  · simp only [zero_add] at key
    obtain ⟨k1, k2, k3⟩ := key
    refine ⟨k1, k2, ?_⟩
    rw [k3, digitRVal_eq_digitRev _ fs 1 k1, k2]
  · intro i2 t _ hi2 hP
    simp only [zero_add] at hi2
    obtain ⟨hok, hval, hk⟩ := hP
    have hok2 := hok
    rw [hfs] at hok2
    simp only [digitsOK] at hok2
    obtain ⟨count1, hcount1⟩ : ∃ c : ℕ → ℕ, c = Function.update t.count 1 (t.count 1 + 1) :=
      ⟨_, rfl⟩
    have c1a : count1 1 = t.count 1 + 1 := by rw [hcount1]; simp
    have c1b : ∀ l, 1 + 1 ≤ l → count1 l = t.count l := by
      intro l hl
      have : l ≠ 1 := by omega
      rw [hcount1]; simp [Function.update_apply, this]
    have hr1 : remain 1 = suf.prod := by
      have := hremain [f] suf (by rw [hfs]; rfl)
      simpa using this
    have hlen : fs.length = suf.length + 1 := by rw [hfs]; rfl
    have carry := carryLoop_spec fs fact remain hfact hremain hpos fs.length [] f suf 1
      count1 (t.k + (remain 1 : ℤ)) (i2 + 1) hfs rfl (by omega)
      (fun l h1 h2 => by omega) (by rw [c1a]; omega)
      (digitsOK_congr t.count count1 suf (1 + 1) (fun l hl => (c1b l hl).symm) hok2.2)
      (by
        simp only [List.prod_nil, one_mul, digitVal, c1a]
        rw [digitVal_congr count1 t.count suf (1 + 1) c1b, ← hval, hfs]
        simp only [digitVal]
        ring)
      (by omega)
      (by
        rw [hk, hr1, hfs]
        simp only [digitRVal, c1a]
        rw [digitRVal_congr count1 t.count suf (1 + 1) c1b]
        push_cast
        ring)
    rw [hcount1] at carry
    exact ⟨carry.1, carry.2.1, carry.2.2⟩

/-- In the round `i <= N-2` of `permute` the carry loop stops at a digit `j <= nFact`
because `count[j] < fact[j]`. -/
theorem permute_carry (fs : List ℕ) (fact remain : ℕ → ℕ)
    (hfact : ∀ (pre : List ℕ) f suf, fs = pre ++ f :: suf → fact (pre.length + 1) = f)
    (hremain : ∀ (pre suf : List ℕ), fs = pre ++ suf → remain pre.length = suf.prod)
    (hpos : ∀ f ∈ fs, 1 ≤ f) (x y : CArr) (count : ℕ → ℕ) (i : ℕ) (hi : i + 1 < fs.prod)
    (t : PermWork)
    (ht : t = forLoop (permuteStep fs.length fact remain x) i 0
      { y := y, count := forLoop (fun i c => Function.update c i 0) fs.length 1 count,
        k := 0 }) :
    1 ≤ carryIndex fact fs.length 1 (Function.update t.count 1 (t.count 1 + 1)) ∧
    carryIndex fact fs.length 1 (Function.update t.count 1 (t.count 1 + 1)) ≤ fs.length ∧
    (permuteStep fs.length fact remain x i t).count
        (carryIndex fact fs.length 1 (Function.update t.count 1 (t.count 1 + 1)))
      < fact (carryIndex fact fs.length 1 (Function.update t.count 1 (t.count 1 + 1))) := by
  have hne : fs ≠ [] := by
    intro h; rw [h] at hi; simp at hi
  obtain ⟨hok, hval, _⟩ := permute_state fs fact remain hfact hremain hpos hne x y count i
    (by omega)
  rw [← ht] at hok hval
  obtain ⟨f, suf, hfs⟩ : ∃ f suf, fs = f :: suf := by
    cases fs with
    | nil => exact absurd rfl hne
    | cons f suf => exact ⟨f, suf, rfl⟩
  have hok2 := hok
  rw [hfs] at hok2
  simp only [digitsOK] at hok2
  obtain ⟨count1, hcount1⟩ : ∃ c : ℕ → ℕ, c = Function.update t.count 1 (t.count 1 + 1) :=
    ⟨_, rfl⟩
  have c1a : count1 1 = t.count 1 + 1 := by rw [hcount1]; simp
  have c1b : ∀ l, 1 + 1 ≤ l → count1 l = t.count l := by
    intro l hl
    have : l ≠ 1 := by omega
    rw [hcount1]; simp [Function.update_apply, this]
  have hlen : fs.length = suf.length + 1 := by rw [hfs]; rfl
  have carry := carryIndex_spec fs fact remain hfact fs.length [] f suf 1
    count1 (t.k + (remain 1 : ℤ)) (i + 1) hfs rfl (by omega)
    (by rw [c1a]; omega)
    (digitsOK_congr t.count count1 suf (1 + 1) (fun l hl => (c1b l hl).symm) hok2.2)
    (by
      simp only [List.prod_nil, one_mul, digitVal, c1a]
      rw [digitVal_congr count1 t.count suf (1 + 1) c1b, ← hval, hfs]
      simp only [digitVal]
      ring)
    hi
  rw [hcount1] at carry
  exact carry

theorem permute_safe_aux (N : ℕ) (hN : 1 ≤ N) (x y : CArr) (count : ℕ → ℕ) :
    (∀ i, i + 1 < N →
      ∀ t : PermWork,
        t = forLoop (permuteStep (factorize N).length (actualTab (factorize N))
            (remainTab N (actualTab (factorize N))) x) i 0
          { y := y
            count := forLoop (fun i c => Function.update c i 0) (factorize N).length 1 count
            k := 0 } →
        t.k = (digitRev (factorize N) i : ℤ) ∧ 0 ≤ t.k ∧ t.k < (N : ℤ) ∧
        1 ≤ carryIndex (actualTab (factorize N)) (factorize N).length 1
              (Function.update t.count 1 (t.count 1 + 1)) ∧
        carryIndex (actualTab (factorize N)) (factorize N).length 1
              (Function.update t.count 1 (t.count 1 + 1)) ≤ (factorize N).length ∧
        (permuteStep (factorize N).length (actualTab (factorize N))
            (remainTab N (actualTab (factorize N))) x i t).count
          (carryIndex (actualTab (factorize N)) (factorize N).length 1
              (Function.update t.count 1 (t.count 1 + 1)))
          < actualTab (factorize N)
              (carryIndex (actualTab (factorize N)) (factorize N).length 1
                (Function.update t.count 1 (t.count 1 + 1)))) ∧
    Set.BijOn (digitRev (factorize N)) (Set.Iio N) (Set.Iio N) ∧
    ∀ i, i < N →
      (permute N (factorize N).length (actualTab (factorize N))
          (remainTab N (actualTab (factorize N))) x y count).re i
        = x.re (digitRev (factorize N) i) ∧
      (permute N (factorize N).length (actualTab (factorize N))
          (remainTab N (actualTab (factorize N))) x y count).im i
        = x.im (digitRev (factorize N) i) := by
  have hprod := factorize_prod_aux N hN
  have hpos := factorize_pos N
  have hne := factorize_ne_nil N hN
  have hfact : ∀ (pre : List ℕ) f suf, factorize N = pre ++ f :: suf →
      actualTab (factorize N) (pre.length + 1) = f :=
    fun pre f suf h => actualTab_app _ pre f suf h
  have hremain : ∀ (pre suf : List ℕ), factorize N = pre ++ suf →
      remainTab N (actualTab (factorize N)) pre.length = suf.prod := by
    intro pre suf h
    have := remainTab_app (factorize N) hpos pre.length pre suf rfl h
    rw [hprod] at this
    exact this
  refine ⟨?_, ?_, ?_⟩
  · intro i hi t ht
    obtain ⟨_, _, hk⟩ := permute_state (factorize N) (actualTab (factorize N))
      (remainTab N (actualTab (factorize N))) hfact hremain hpos hne x y count i
      (by rw [hprod]; omega)
    rw [← ht] at hk
    have hlt := digitRev_lt (factorize N) hpos i
    rw [hprod] at hlt
    obtain ⟨c1, c2, c3⟩ := permute_carry (factorize N) (actualTab (factorize N))
      (remainTab N (actualTab (factorize N))) hfact hremain hpos x y count i
      (by rw [hprod]; exact hi) t ht
    exact ⟨hk, by rw [hk]; positivity, by rw [hk]; exact_mod_cast hlt, c1, c2, c3⟩
  · have := digitRev_bijOn (factorize N) hpos
    rw [hprod] at this
    exact this
  · have hperm := permute_spec (factorize N) (actualTab (factorize N))
      (remainTab N (actualTab (factorize N))) hne hfact hremain hpos x y count
    rw [hprod] at hperm
    intro i hi
    have := hperm i hi
    exact ⟨congrArg Complex.re this, congrArg Complex.im this⟩

/-- C28: for every N >= 1 and the tables of `transTableSetup`: before each round
i <= N-2 of `permute` the source index k is the mixed-radix digit reversal of i and
lies in 0..N-1 (the last element is read at N-1); the carry loop of that round stops
at a digit j with 1 <= j <= nFact, and it stops because count[j] < fact[j]; the map
from the output position to the source index is a bijection of 0..N-1, and y[i] is
x at the image of i. -/
theorem permute_safe (N : ℕ) (hN : 1 ≤ N) (x y : CArr) (count : ℕ → ℕ) :
    (∀ i, i + 1 < N →
      ∀ t : PermWork,
        t = forLoop (permuteStep (factorize N).length (actualTab (factorize N))
            (remainTab N (actualTab (factorize N))) x) i 0
          { y := y
            count := forLoop (fun i c => Function.update c i 0) (factorize N).length 1 count
            k := 0 } →
        t.k = (digitRev (factorize N) i : ℤ) ∧ 0 ≤ t.k ∧ t.k < (N : ℤ) ∧
        1 ≤ carryIndex (actualTab (factorize N)) (factorize N).length 1
              (Function.update t.count 1 (t.count 1 + 1)) ∧
        carryIndex (actualTab (factorize N)) (factorize N).length 1
              (Function.update t.count 1 (t.count 1 + 1)) ≤ (factorize N).length ∧
        (permuteStep (factorize N).length (actualTab (factorize N))
            (remainTab N (actualTab (factorize N))) x i t).count
          (carryIndex (actualTab (factorize N)) (factorize N).length 1
              (Function.update t.count 1 (t.count 1 + 1)))
          < actualTab (factorize N)
              (carryIndex (actualTab (factorize N)) (factorize N).length 1
                (Function.update t.count 1 (t.count 1 + 1)))) ∧
    Set.BijOn (digitRev (factorize N)) (Set.Iio N) (Set.Iio N) ∧
    ∀ i, i < N →
      (permute N (factorize N).length (actualTab (factorize N))
          (remainTab N (actualTab (factorize N))) x y count).re i
        = x.re (digitRev (factorize N) i) ∧
      (permute N (factorize N).length (actualTab (factorize N))
          (remainTab N (actualTab (factorize N))) x y count).im i
        = x.im (digitRev (factorize N) i) :=
  permute_safe_aux N hN x y count

/-- C28 at N = 12 with x[m] = m: the output position 5 reads the source index 9. -/
theorem permute_safe_witness :
    1 ≤ 12 ∧ digitRev (factorize 12) 5 = 9 ∧
    Set.BijOn (digitRev (factorize 12)) (Set.Iio 12) (Set.Iio 12) ∧
    (permute 12 (factorize 12).length (actualTab (factorize 12))
        (remainTab 12 (actualTab (factorize 12))) ⟨fun m => (m : ℝ), fun _ => 0⟩
        ⟨fun _ => 0, fun _ => 0⟩ (fun _ => 0)).re 5
      = ((digitRev (factorize 12) 5 : ℕ) : ℝ) :=
  ⟨by norm_num, by decide,
    (permute_safe 12 (by norm_num) ⟨fun m => (m : ℝ), fun _ => 0⟩
      ⟨fun _ => 0, fun _ => 0⟩ (fun _ => 0)).2.1,
    ((permute_safe 12 (by norm_num) ⟨fun m => (m : ℝ), fun _ => 0⟩
      ⟨fun _ => 0, fun _ => 0⟩ (fun _ => 0)).2.2 5 (by norm_num)).1⟩

/-! ## twiddleTransf: the addresses gathered and scattered -/

theorem twiddleTransf_eq_init (S r R : ℕ) (s : Work) :
    twiddleTransf S r R s
      = forLoop
          (dataStep S r R (Real.cos (2 * pi / ((S * r : ℕ) : ℝ)))
            (-Real.sin (2 * pi / ((S * r : ℕ) : ℝ))))
          S 0 (twiddleInit r s) := rfl

theorem dataStep_eq_entry (S r R : ℕ) (cosw sinw : ℝ) (d : ℕ) (s : Work) :
    dataStep S r R cosw sinw d s
      = { forLoop (groupStep S r d) R 0 (dataEntry S r cosw sinw s) with
          dataOffset := (forLoop (groupStep S r d) R 0 (dataEntry S r cosw sinw s)).dataOffset + 1
          groupOffset :=
            (forLoop (groupStep S r d) R 0 (dataEntry S r cosw sinw s)).dataOffset + 1
          adr := (forLoop (groupStep S r d) R 0 (dataEntry S r cosw sinw s)).dataOffset + 1 } :=
  rfl

theorem dataEntry_offsets (S r : ℕ) (cosw sinw : ℝ) (s : Work) :
    (dataEntry S r cosw sinw s).adr = s.adr ∧
    (dataEntry S r cosw sinw s).groupOffset = s.groupOffset ∧
    (dataEntry S r cosw sinw s).dataOffset = s.dataOffset := by
  unfold dataEntry
  split <;> exact ⟨rfl, rfl, rfl⟩

/-- The offsets after `g` rounds of the group loop. -/
theorem group_offsets (S r d : ℕ) (s : Work) (hadr : s.adr = s.groupOffset) (g : ℕ) :
    (forLoop (groupStep S r d) g 0 s).groupOffset = s.groupOffset + g * (S * r) ∧
    (forLoop (groupStep S r d) g 0 s).adr = s.groupOffset + g * (S * r) ∧
    (forLoop (groupStep S r d) g 0 s).dataOffset = s.dataOffset := by
  have key := forLoop_inv
    (fun i (t : Work) => t.groupOffset = s.groupOffset + i * (S * r) ∧
      t.adr = s.groupOffset + i * (S * r) ∧ t.dataOffset = s.dataOffset)
    (groupStep S r d) g 0 s ⟨by simp, by simp [hadr], rfl⟩ ?_
  · simpa using key
  · intro i t _ _ hP
    obtain ⟨h1, h2, h3⟩ := hP
    refine ⟨?_, ?_, ?_⟩
    · show t.groupOffset + S * r = _
      rw [h1]; ring
    · show t.groupOffset + S * r = _
      rw [h1]; ring
    · exact h3

/-- The offsets at the beginning of the round `dataNo = d`. -/
theorem data_offsets (S r R : ℕ) (cosw sinw : ℝ) (s : Work) (h0 : s.dataOffset = 0)
    (h1 : s.groupOffset = 0) (h2 : s.adr = 0) (d : ℕ) :
    (forLoop (dataStep S r R cosw sinw) d 0 s).dataOffset = d ∧
    (forLoop (dataStep S r R cosw sinw) d 0 s).groupOffset = d ∧
    (forLoop (dataStep S r R cosw sinw) d 0 s).adr = d := by
  have key := forLoop_inv
    (fun i (t : Work) => t.dataOffset = i ∧ t.groupOffset = i ∧ t.adr = i)
    (dataStep S r R cosw sinw) d 0 s ⟨h0, h1, h2⟩ ?_
  · simpa using key
  · intro i t _ _ hP
    obtain ⟨a, b, c⟩ := hP
    obtain ⟨e1, e2, e3⟩ := dataEntry_offsets S r cosw sinw t
    obtain ⟨_, _, g3⟩ := group_offsets S r i (dataEntry S r cosw sinw t) (by rw [e1, e2, c, b]) R
    rw [dataStep_eq_entry]
    refine ⟨?_, ?_, ?_⟩ <;>
    · show (forLoop (groupStep S r i) R 0 (dataEntry S r cosw sinw t)).dataOffset + 1 = i + 1
      rw [g3, e3, a]

/-- The round `dataNo = d`, `groupNo = g` starts with `groupOffset = adr = d + g*S*r`. -/
theorem groupEntry_offsets (S r R : ℕ) (s : Work) (d g : ℕ) :
    (groupEntry S r R s d g).groupOffset = d + g * (S * r) ∧
    (groupEntry S r R s d g).adr = d + g * (S * r) := by
  unfold groupEntry
  obtain ⟨_, b, c⟩ := data_offsets S r R
    (Real.cos (2 * pi / ((S * r : ℕ) : ℝ))) (-Real.sin (2 * pi / ((S * r : ℕ) : ℝ)))
    (twiddleInit r s) rfl rfl rfl d
  obtain ⟨e1, e2, _⟩ := dataEntry_offsets S r
    (Real.cos (2 * pi / ((S * r : ℕ) : ℝ))) (-Real.sin (2 * pi / ((S * r : ℕ) : ℝ)))
    (forLoop (dataStep S r R (Real.cos (2 * pi / ((S * r : ℕ) : ℝ)))
      (-Real.sin (2 * pi / ((S * r : ℕ) : ℝ)))) d 0 (twiddleInit r s))
  obtain ⟨g1, g2, _⟩ := group_offsets S r d _ (by rw [e1, e2, c, b]) g
  rw [g1, g2, e2, b]
  exact ⟨rfl, rfl⟩

/-- The address read by the round `k` of the copying loop. -/
theorem gather_addr (S : ℕ) (y z : CArr) (a k : ℕ) :
    (forLoop (gatherStep S y) k 0 (z, a)).2 = a + k * S := by
  have key := forLoop_inv (fun i (t : CArr × ℕ) => t.2 = a + i * S)
    (gatherStep S y) k 0 (z, a) (by simp) ?_
  · simpa using key
  · intro i t _ _ hP
    show t.2 + S = a + (i + 1) * S
    rw [hP]; ring

/-- The value of `adr` after the round `blockNo = k` of the gathering loop with
twiddle multiplication: the round `k >= 1` reads `y[adr + k*S]`. -/
theorem gatherTw_addr (S : ℕ) (y tw z : CArr) (a k : ℕ) :
    (forLoop (gatherTwStep S y tw) k 1 (z, a)).2 = a + k * S := by
  have key := forLoop_inv (fun i (t : CArr × ℕ) => t.2 + S = a + i * S)
    (gatherTwStep S y tw) k 1 (z, a) (by simp) ?_
  · have e : (forLoop (gatherTwStep S y tw) k 1 (z, a)).2 + S = a + (1 + k) * S := key
    have e2 : a + (1 + k) * S = a + k * S + S := by ring
    omega
  · intro i t _ _ hP
    show t.2 + S + S = a + (i + 1) * S
    rw [hP]; ring

/-- The address written by the round `k` of the loop that stores the block. -/
theorem scatter_addr (S : ℕ) (z y : CArr) (a k : ℕ) :
    (forLoop (scatterStep S z) k 0 (y, a)).2 = a + k * S := by
  have key := forLoop_inv (fun i (t : CArr × ℕ) => t.2 = a + i * S)
    (scatterStep S z) k 0 (y, a) (by simp) ?_
  · simpa using key
  · intro i t _ _ hP
    show t.2 + S = a + (i + 1) * S
    rw [hP]; ring

/-- The block addresses of one stage lie below `S*r*R`. -/
theorem block_addr_bound {S r R d g k : ℕ} (hd : d < S) (hg : g < R) (hk : k < r) :
    d + g * (S * r) + k * S < S * r * R := by
  have h1 : (k + 1) * S ≤ r * S := Nat.mul_le_mul_right _ hk
  have h2 : (g + 1) * (S * r) ≤ R * (S * r) := Nat.mul_le_mul_right _ hg
  have e1 : (k + 1) * S = k * S + S := by ring
  have e2 : (g + 1) * (S * r) = g * (S * r) + r * S := by ring
  have e3 : S * r * R = R * (S * r) := by ring
  omega

/-- Every address below `S*r*R` is the address of exactly one block entry. -/
theorem block_addr_unique {S r R : ℕ} (hS : 1 ≤ S) (hr : 1 ≤ r) (a : ℕ) (ha : a < S * r * R) :
    ∃ d g k, d < S ∧ g < R ∧ k < r ∧ a = d + g * (S * r) + k * S ∧
      ∀ d2 g2 k2, d2 < S → g2 < R → k2 < r → a = d2 + g2 * (S * r) + k2 * S →
        d2 = d ∧ g2 = g ∧ k2 = k := by
  refine ⟨a % S, a / S / r, a / S % r, Nat.mod_lt _ (by omega), ?_, Nat.mod_lt _ (by omega),
    ?_, ?_⟩
  · rw [Nat.div_div_eq_div_mul, Nat.div_lt_iff_lt_mul (by positivity)]
    calc a < S * r * R := ha
      _ = R * (S * r) := by ring
  · have e1 := Nat.mod_add_div a S
    have e2 := Nat.mod_add_div (a / S) r
    calc a = a % S + S * (a / S) := e1.symm
      _ = a % S + S * (a / S % r + r * (a / S / r)) := by rw [e2]
      _ = a % S + a / S / r * (S * r) + a / S % r * S := by ring
  · intro d2 g2 k2 hd2 hg2 hk2 e
    have hm : a % S = d2 := by rw [e]; exact block_addr_mod d2 g2 r k2 hd2
    have hq : a / S = k2 + r * g2 := by
      have e3 : a = d2 + S * (k2 + r * g2) := by rw [e]; ring
      rw [e3, Nat.add_mul_div_left _ _ (by omega), Nat.div_eq_of_lt hd2, zero_add]
    refine ⟨hm.symm, ?_, ?_⟩
    · rw [hq, Nat.add_mul_div_left _ _ (by omega), Nat.div_eq_of_lt hk2, zero_add]
    · rw [hq, Nat.add_mul_mod_self_left, Nat.mod_eq_of_lt hk2]

/-- The stage `i` of `fft` on a length `N`: its radix is a factor of `N`, and the
three table entries multiply to `N`. -/
theorem stage_params (N : ℕ) (hN : 1 ≤ N) (i : ℕ) (h1 : 1 ≤ i) (h2 : i ≤ (factorize N).length) :
    sofarTab (actualTab (factorize N)) i * actualTab (factorize N) i
      * remainTab N (actualTab (factorize N)) i = N ∧
    actualTab (factorize N) i ∈ factorize N := by
  have hprod := factorize_prod_aux N hN
  have h := (tables_invariant (factorize N) (factorize_pos N) i h1 h2).1
  rw [hprod] at h
  refine ⟨h, ?_⟩
  obtain ⟨pre, f, suf, hfs, hi⟩ := list_split_at (factorize N) i h1 h2
  have := actualTab_app (factorize N) pre f suf hfs
  rw [hi] at this
  rw [this, hfs]
  simp

theorem forLoop_succ_last {σ : Type} (body : ℕ → σ → σ) :
    ∀ (n i : ℕ) (s : σ), forLoop body (n + 1) i s = body (i + n) (forLoop body n i s) := by
  intro n
  induction n with
  | zero => intro i s; rfl
  | succ n ih =>
    intro i s
    have e : i + (n + 1) = i + 1 + n := by omega
    rw [e]
    exact ih (i + 1) (body i s)

theorem dataEntry_y (S r : ℕ) (cosw sinw : ℝ) (s : Work) :
    (dataEntry S r cosw sinw s).y = s.y ∧ (dataEntry S r cosw sinw s).trig = s.trig := by
  unfold dataEntry
  split <;> exact ⟨rfl, rfl⟩

/-- Each round of the group loop is one `groupStep` on the state of the round before. -/
theorem groupEntry_succ (S r R : ℕ) (s : Work) (d g : ℕ) :
    groupEntry S r R s d (g + 1) = groupStep S r d g (groupEntry S r R s d g) := by
  unfold groupEntry
  rw [forLoop_succ_last, Nat.zero_add]

/-- The rounds of `twiddleTransf` in sequence: the first one starts from the `y` of
the call, a new value of `dataNo` starts from the `y` left by the last group of the
previous one, and the `y` that `twiddleTransf` leaves is the one left by the last
round. -/
theorem groupEntry_chain (S r R : ℕ) (hS : 1 ≤ S) (s : Work) :
    (groupEntry S r R s 0 0).y = s.y ∧
    (∀ d, (groupEntry S r R s (d + 1) 0).y = (groupEntry S r R s d R).y) ∧
    (twiddleTransf S r R s).y = (groupEntry S r R s (S - 1) R).y := by
  refine ⟨?_, ?_, ?_⟩
  · unfold groupEntry
    show (dataEntry S r _ _ (twiddleInit r s)).y = s.y
    rw [(dataEntry_y S r _ _ _).1]
    rfl
  · intro d
    unfold groupEntry
    show (dataEntry S r _ _ (forLoop _ (d + 1) 0 (twiddleInit r s))).y = _
    rw [(dataEntry_y S r _ _ _).1, forLoop_succ_last, Nat.zero_add, dataStep_eq_entry]
  · obtain ⟨S1, rfl⟩ : ∃ S1, S = S1 + 1 := ⟨S - 1, by omega⟩
    rw [twiddleTransf_eq_init, forLoop_succ_last, Nat.zero_add, dataStep_eq_entry]
    rfl

/-- The group loop keeps the tables and the twiddle factor. -/
theorem group_keeps (S r d : ℕ) (s : Work) (g : ℕ) :
    (forLoop (groupStep S r d) g 0 s).trig = s.trig ∧
    (forLoop (groupStep S r d) g 0 s).twiddle = s.twiddle ∧
    (forLoop (groupStep S r d) g 0 s).tw_re = s.tw_re ∧
    (forLoop (groupStep S r d) g 0 s).tw_im = s.tw_im := by
  have key := forLoop_inv
    (fun _ (t : Work) => t.trig = s.trig ∧ t.twiddle = s.twiddle ∧ t.tw_re = s.tw_re ∧
      t.tw_im = s.tw_im)
    (groupStep S r d) g 0 s ⟨rfl, rfl, rfl, rfl⟩ ?_
  · exact key
  · intro i t _ _ hP
    exact hP

/-- The state at the beginning of the round `dataNo = d`: the table of `initTrig` and
the twiddle factor `exp(-2*pi*i*d/(S*r))`. -/
theorem data_state (S r R : ℕ) (s : Work) (d : ℕ) :
    (forLoop
      (dataStep S r R (Real.cos (2 * pi / ((S * r : ℕ) : ℝ)))
        (-Real.sin (2 * pi / ((S * r : ℕ) : ℝ))))
      d 0 (twiddleInit r s)).trig = initTrig r s.trig ∧
    (1 < S →
      (⟨(forLoop
          (dataStep S r R (Real.cos (2 * pi / ((S * r : ℕ) : ℝ)))
            (-Real.sin (2 * pi / ((S * r : ℕ) : ℝ))))
          d 0 (twiddleInit r s)).tw_re,
        (forLoop
          (dataStep S r R (Real.cos (2 * pi / ((S * r : ℕ) : ℝ)))
            (-Real.sin (2 * pi / ((S * r : ℕ) : ℝ))))
          d 0 (twiddleInit r s)).tw_im⟩ : ℂ) = root (S * r) ^ d) := by
  have key := forLoop_inv
    (fun d0 (t : Work) => t.trig = initTrig r s.trig ∧
      (1 < S → (⟨t.tw_re, t.tw_im⟩ : ℂ) = root (S * r) ^ d0))
    (dataStep S r R (Real.cos (2 * pi / ((S * r : ℕ) : ℝ)))
      (-Real.sin (2 * pi / ((S * r : ℕ) : ℝ))))
    d 0 (twiddleInit r s) ⟨rfl, fun _ => by rw [pow_zero]; rfl⟩ ?_
  · simpa using key
  · intro i t _ _ hP
    obtain ⟨htrig, htw⟩ := hP
    obtain ⟨_, e2, _, _, _, _, e7⟩ :=
      dataStep_setup S r (Real.cos (2 * pi / ((S * r : ℕ) : ℝ)))
        (-Real.sin (2 * pi / ((S * r : ℕ) : ℝ))) t (root (S * r) ^ i) htw
        (dataEntry S r (Real.cos (2 * pi / ((S * r : ℕ) : ℝ)))
          (-Real.sin (2 * pi / ((S * r : ℕ) : ℝ))) t) rfl
    obtain ⟨g1, _, g3, g4⟩ := group_keeps S r i
      (dataEntry S r (Real.cos (2 * pi / ((S * r : ℕ) : ℝ)))
        (-Real.sin (2 * pi / ((S * r : ℕ) : ℝ))) t) R
    rw [dataStep_eq_entry]
    refine ⟨?_, ?_⟩
    · show (forLoop (groupStep S r i) R 0 _).trig = _
      rw [g1, e2, htrig]
    · intro hS1
      show (⟨(forLoop (groupStep S r i) R 0 _).tw_re,
        (forLoop (groupStep S r i) R 0 _).tw_im⟩ : ℂ) = _
      rw [g3, g4, e7 hS1, root_eq_cos_sin, pow_succ']

/-- The tables with which the round `dataNo = d`, `groupNo = g` works. -/
theorem groupEntry_tables (S r R : ℕ) (s : Work) (d g : ℕ) :
    (groupEntry S r R s d g).trig = initTrig r s.trig ∧
    (1 < S → ∀ k, k < r → (groupEntry S r R s d g).twiddle.cx k = (root (S * r) ^ d) ^ k) := by
  obtain ⟨t1, t2⟩ := data_state S r R s d
  obtain ⟨_, e2, _, _, _, e6, _⟩ :=
    dataStep_setup S r (Real.cos (2 * pi / ((S * r : ℕ) : ℝ)))
      (-Real.sin (2 * pi / ((S * r : ℕ) : ℝ)))
      (forLoop
        (dataStep S r R (Real.cos (2 * pi / ((S * r : ℕ) : ℝ)))
          (-Real.sin (2 * pi / ((S * r : ℕ) : ℝ))))
        d 0 (twiddleInit r s))
      (root (S * r) ^ d) t2
      (dataEntry S r (Real.cos (2 * pi / ((S * r : ℕ) : ℝ)))
        (-Real.sin (2 * pi / ((S * r : ℕ) : ℝ)))
        (forLoop
          (dataStep S r R (Real.cos (2 * pi / ((S * r : ℕ) : ℝ)))
            (-Real.sin (2 * pi / ((S * r : ℕ) : ℝ))))
          d 0 (twiddleInit r s))) rfl
  obtain ⟨g1, g2, _, _⟩ := group_keeps S r d
    (dataEntry S r (Real.cos (2 * pi / ((S * r : ℕ) : ℝ)))
      (-Real.sin (2 * pi / ((S * r : ℕ) : ℝ)))
      (forLoop
        (dataStep S r R (Real.cos (2 * pi / ((S * r : ℕ) : ℝ)))
          (-Real.sin (2 * pi / ((S * r : ℕ) : ℝ))))
        d 0 (twiddleInit r s))) g
  unfold groupEntry
  refine ⟨by rw [g1, e2, t1], ?_⟩
  intro hS1 k hk
  rw [g2]
  exact e6 hS1 k hk

/-- One round of `twiddleTransf`: the block `d + g*S*r + k*S`, `k < r`, of `y` is read,
multiplied by the twiddle factors, transformed and stored at the same addresses;
every other element of `y` is left as it was. -/
theorem round_spec (S r R : ℕ) (hS : 1 ≤ S) (hSr : 1 < S → 2 ≤ r)
    (hr : r = 2 ∨ r = 3 ∨ r = 4 ∨ r = 5 ∨ r = 8 ∨ r = 10 ∨ r % 2 = 1) (s : Work)
    (d g : ℕ) (hd : d < S) :
    (∀ q, q < r →
      (groupEntry S r R s d (g + 1)).y.cx (d + g * (S * r) + q * S)
        = dft r (fun k => root (S * r) ^ (d * k)
            * (groupEntry S r R s d g).y.cx (d + g * (S * r) + k * S)) q) ∧
    ∀ m, (∀ q, q < r → m ≠ d + g * (S * r) + q * S) →
      (groupEntry S r R s d (g + 1)).y.cx m = (groupEntry S r R s d g).y.cx m := by
  obtain ⟨o1, o2⟩ := groupEntry_offsets S r R s d g
  obtain ⟨t1, t2⟩ := groupEntry_tables S r R s d g
  have hker : ∀ (o : OddWork) q, q < r →
      (kernel r (groupEntry S r R s d g).trig o).z.cx q = dft r o.z.cx q := by
    intro o q hq
    rw [t1]
    exact kernel_spec r hr _ (initTrig_spec r s.trig) o q hq
  obtain ⟨b1, b2⟩ := groupStep_spec S r d hS hSr (root (S * r) ^ d) (groupEntry S r R s d g)
    hker (fun h k hk => t2 h.1 k hk)
    (fun h => by
      have : d = 0 := by
        by_contra hd0
        exact h ⟨by omega, by omega⟩
      rw [this, pow_zero]) g
  rw [o1] at b1 b2
  rw [o2] at b1
  rw [groupEntry_succ]
  refine ⟨?_, b2⟩
  intro q hq
  rw [b1 q hq]
  apply dft_congr
  intro k _
  rw [pow_mul]

theorem twiddleTransf_addresses_aux (N : ℕ) (hN : 1 ≤ N) (i : ℕ) (h1 : 1 ≤ i)
    (h2 : i ≤ (factorize N).length) (s : Work) (S r R : ℕ)
    (hS : S = sofarTab (actualTab (factorize N)) i) (hr : r = actualTab (factorize N) i)
    (hR : R = remainTab N (actualTab (factorize N)) i) :
    S * r * R = N ∧
    (∀ d g k, d < S → g < R → k < r → d + g * (S * r) + k * S < N) ∧
    (∀ a, a < N → ∃ d g k, d < S ∧ g < R ∧ k < r ∧ a = d + g * (S * r) + k * S ∧
      ∀ d2 g2 k2, d2 < S → g2 < R → k2 < r → a = d2 + g2 * (S * r) + k2 * S →
        d2 = d ∧ g2 = g ∧ k2 = k) ∧
    ((groupEntry S r R s 0 0).y = s.y ∧
     (∀ d g, groupEntry S r R s d (g + 1) = groupStep S r d g (groupEntry S r R s d g)) ∧
     (∀ d, (groupEntry S r R s (d + 1) 0).y = (groupEntry S r R s d R).y) ∧
     (twiddleTransf S r R s).y = (groupEntry S r R s (S - 1) R).y) ∧
    (∀ d g, d < S → g < R →
      (groupEntry S r R s d g).groupOffset = d + g * (S * r) ∧
      (groupEntry S r R s d g).adr = d + g * (S * r) ∧
      (∀ k, k < r → ∀ z y : CArr,
        (forLoop (gatherStep S (groupEntry S r R s d g).y) k 0
          (z, (groupEntry S r R s d g).adr)).2 = d + g * (S * r) + k * S ∧
        (1 ≤ k →
          (forLoop (gatherTwStep S (groupEntry S r R s d g).y (groupEntry S r R s d g).twiddle)
            (k - 1) 1 (z, (groupEntry S r R s d g).adr)).2 + S = d + g * (S * r) + k * S) ∧
        (forLoop (scatterStep S z) k 0 (y, (groupEntry S r R s d g).groupOffset)).2
          = d + g * (S * r) + k * S) ∧
      (∀ q, q < r →
        (groupEntry S r R s d (g + 1)).y.cx (d + g * (S * r) + q * S)
          = dft r (fun k => root (S * r) ^ (d * k)
              * (groupEntry S r R s d g).y.cx (d + g * (S * r) + k * S)) q) ∧
      (∀ m, (∀ q, q < r → m ≠ d + g * (S * r) + q * S) →
        (groupEntry S r R s d (g + 1)).y.cx m = (groupEntry S r R s d g).y.cx m)) ∧
    (∀ d g q, d < S → g < R → q < r →
      (twiddleTransf S r R s).y.cx (d + g * (S * r) + q * S)
        = dft r (fun k => root (S * r) ^ (d * k) * s.y.cx (d + g * (S * r) + k * S)) q) ∧
    ∀ a, N ≤ a →
      (twiddleTransf S r R s).y.re a = s.y.re a ∧ (twiddleTransf S r R s).y.im a = s.y.im a := by
  obtain ⟨hprod, hmem⟩ := stage_params N hN i h1 h2
  rw [← hS, ← hr, ← hR] at hprod
  rw [← hr] at hmem
  have hSpos : 1 ≤ S := by
    rcases Nat.eq_zero_or_pos S with h | h
    · rw [h] at hprod; simp at hprod; omega
    · exact h
  have hrpos : 1 ≤ r := factorize_pos N r hmem
  have hSr : 1 < S → 2 ≤ r := by
    intro hS1
    by_cases hN1 : N = 1
    · exfalso
      rw [hN1] at hprod
      have : S ∣ 1 := ⟨r * R, by rw [← hprod]; ring⟩
      have := Nat.le_of_dvd (by norm_num) this
      omega
    · exact factorize_two_le N hN1 r hmem
  have hkind := factorize_kind N r hmem
  obtain ⟨c1, c2, c3⟩ := groupEntry_chain S r R hSpos s
  obtain ⟨sp1, sp2⟩ := twiddleTransf_spec S r R hSpos hSr hkind s
  refine ⟨hprod, ?_, ?_, ⟨c1, fun d g => groupEntry_succ S r R s d g, c2, c3⟩, ?_, sp1, ?_⟩
  · intro d g k hd hg hk
    rw [← hprod]
    exact block_addr_bound hd hg hk
  · intro a ha
    exact block_addr_unique hSpos hrpos a (by rw [hprod]; exact ha)
  · intro d g hd _
    obtain ⟨e1, e2⟩ := groupEntry_offsets S r R s d g
    obtain ⟨r1, r2⟩ := round_spec S r R hSpos hSr hkind s d g hd
    refine ⟨e1, e2, ?_, r1, r2⟩
    intro k _ z y
    refine ⟨by rw [gather_addr, e2], ?_, by rw [scatter_addr, e1]⟩
    intro hk1
    rw [gatherTw_addr, e2]
    have e : k = (k - 1) + 1 := by omega
    conv_rhs => rw [e]
    ring
  · intro a ha
    have hframe := sp2 a
      (by
        intro d g q hd hg hq
        have := block_addr_bound hd hg hq
        rw [hprod] at this
        omega)
    exact ⟨congrArg Complex.re hframe, congrArg Complex.im hframe⟩

/-- C29: in the call `twiddleTransf(S, r, R, y)` that `fft` makes for the stage i of
a length N >= 1 (S = sofar[i], r = actual[i], R = remain[i]): S*r*R = N; the
addresses d + g*S*r + k*S with d < S, g < R, k < r lie below N and every address
below N is of that form for exactly one (d, g, k).  The call runs the rounds
(dataNo = d, groupNo = g) in sequence, each one a `groupStep` on the state left by
the round before, starting from the y of the call, and the y it leaves is the y
left by the last round.  The round (d, g) starts with groupOffset = adr = d + g*S*r;
its k-th gather (with or without twiddle multiplication) reads y at d + g*S*r + k*S
and its k-th store writes y at the same address; it replaces the block at these r
addresses by the transform of the values found there times the twiddle factors and
leaves every other element of y as it was.  After the call each block holds the
transform of the values that the block held before the call, and y is unchanged at
every address >= N. -/
theorem twiddleTransf_addresses (N : ℕ) (hN : 1 ≤ N) (i : ℕ) (h1 : 1 ≤ i)
    (h2 : i ≤ (factorize N).length) (s : Work) (S r R : ℕ)
    (hS : S = sofarTab (actualTab (factorize N)) i) (hr : r = actualTab (factorize N) i)
    (hR : R = remainTab N (actualTab (factorize N)) i) :
    S * r * R = N ∧
    (∀ d g k, d < S → g < R → k < r → d + g * (S * r) + k * S < N) ∧
    (∀ a, a < N → ∃ d g k, d < S ∧ g < R ∧ k < r ∧ a = d + g * (S * r) + k * S ∧
      ∀ d2 g2 k2, d2 < S → g2 < R → k2 < r → a = d2 + g2 * (S * r) + k2 * S →
        d2 = d ∧ g2 = g ∧ k2 = k) ∧
    ((groupEntry S r R s 0 0).y = s.y ∧
     (∀ d g, groupEntry S r R s d (g + 1) = groupStep S r d g (groupEntry S r R s d g)) ∧
     (∀ d, (groupEntry S r R s (d + 1) 0).y = (groupEntry S r R s d R).y) ∧
     (twiddleTransf S r R s).y = (groupEntry S r R s (S - 1) R).y) ∧
    (∀ d g, d < S → g < R →
      (groupEntry S r R s d g).groupOffset = d + g * (S * r) ∧
      (groupEntry S r R s d g).adr = d + g * (S * r) ∧
      (∀ k, k < r → ∀ z y : CArr,
        (forLoop (gatherStep S (groupEntry S r R s d g).y) k 0
          (z, (groupEntry S r R s d g).adr)).2 = d + g * (S * r) + k * S ∧
        (1 ≤ k →
          (forLoop (gatherTwStep S (groupEntry S r R s d g).y (groupEntry S r R s d g).twiddle)
            (k - 1) 1 (z, (groupEntry S r R s d g).adr)).2 + S = d + g * (S * r) + k * S) ∧
        (forLoop (scatterStep S z) k 0 (y, (groupEntry S r R s d g).groupOffset)).2
          = d + g * (S * r) + k * S) ∧
      (∀ q, q < r →
        (groupEntry S r R s d (g + 1)).y.cx (d + g * (S * r) + q * S)
          = dft r (fun k => root (S * r) ^ (d * k)
              * (groupEntry S r R s d g).y.cx (d + g * (S * r) + k * S)) q) ∧
      (∀ m, (∀ q, q < r → m ≠ d + g * (S * r) + q * S) →
        (groupEntry S r R s d (g + 1)).y.cx m = (groupEntry S r R s d g).y.cx m)) ∧
    (∀ d g q, d < S → g < R → q < r →
      (twiddleTransf S r R s).y.cx (d + g * (S * r) + q * S)
        = dft r (fun k => root (S * r) ^ (d * k) * s.y.cx (d + g * (S * r) + k * S)) q) ∧
    ∀ a, N ≤ a →
      (twiddleTransf S r R s).y.re a = s.y.re a ∧ (twiddleTransf S r R s).y.im a = s.y.im a :=
  twiddleTransf_addresses_aux N hN i h1 h2 s S r R hS hr hR

/-- C29 at N = 12, stage i = 2 (S = 3, r = 4, R = 1), all arrays zero before the
call: every address below 12 is d + k*3 for one d < 3 and one k < 4, and the y left
by `twiddleTransf(3, 4, 1, y)` is the y left by its last round. -/
theorem twiddleTransf_addresses_witness :
    1 ≤ 12 ∧ 1 ≤ 2 ∧ 2 ≤ (factorize 12).length ∧
    3 = sofarTab (actualTab (factorize 12)) 2 ∧ 4 = actualTab (factorize 12) 2 ∧
    1 = remainTab 12 (actualTab (factorize 12)) 2 ∧
    3 * 4 * 1 = 12 ∧
    (∀ a, a < 12 → ∃ d g k, d < 3 ∧ g < 1 ∧ k < 4 ∧ a = d + g * (3 * 4) + k * 3 ∧
      ∀ d2 g2 k2, d2 < 3 → g2 < 1 → k2 < 4 → a = d2 + g2 * (3 * 4) + k2 * 3 →
        d2 = d ∧ g2 = g ∧ k2 = k) ∧
    (twiddleTransf 3 4 1
        { y := ⟨fun _ => 0, fun _ => 0⟩, z := ⟨fun _ => 0, fun _ => 0⟩
          twiddle := ⟨fun _ => 0, fun _ => 0⟩, trig := ⟨fun _ => 0, fun _ => 0⟩
          v := ⟨fun _ => 0, fun _ => 0⟩, w := ⟨fun _ => 0, fun _ => 0⟩
          tw_re := 0, tw_im := 0, adr := 0, groupOffset := 0, dataOffset := 0 }).y
      = (groupEntry 3 4 1
        { y := ⟨fun _ => 0, fun _ => 0⟩, z := ⟨fun _ => 0, fun _ => 0⟩
          twiddle := ⟨fun _ => 0, fun _ => 0⟩, trig := ⟨fun _ => 0, fun _ => 0⟩
          v := ⟨fun _ => 0, fun _ => 0⟩, w := ⟨fun _ => 0, fun _ => 0⟩
          tw_re := 0, tw_im := 0, adr := 0, groupOffset := 0, dataOffset := 0 }
        (3 - 1) 1).y :=
  ⟨by norm_num, by norm_num, by decide, by decide, by decide, by decide, by norm_num,
    (twiddleTransf_addresses 12 (by norm_num) 2 (by norm_num) (by decide)
      { y := ⟨fun _ => 0, fun _ => 0⟩, z := ⟨fun _ => 0, fun _ => 0⟩
        twiddle := ⟨fun _ => 0, fun _ => 0⟩, trig := ⟨fun _ => 0, fun _ => 0⟩
        v := ⟨fun _ => 0, fun _ => 0⟩, w := ⟨fun _ => 0, fun _ => 0⟩
        tw_re := 0, tw_im := 0, adr := 0, groupOffset := 0, dataOffset := 0 }
      3 4 1 (by decide) (by decide) (by decide)).2.2.1,
    (twiddleTransf_addresses 12 (by norm_num) 2 (by norm_num) (by decide)
      { y := ⟨fun _ => 0, fun _ => 0⟩, z := ⟨fun _ => 0, fun _ => 0⟩
        twiddle := ⟨fun _ => 0, fun _ => 0⟩, trig := ⟨fun _ => 0, fun _ => 0⟩
        v := ⟨fun _ => 0, fun _ => 0⟩, w := ⟨fun _ => 0, fun _ => 0⟩
        tw_re := 0, tw_im := 0, adr := 0, groupOffset := 0, dataOffset := 0 }
      3 4 1 (by decide) (by decide) (by decide)).2.2.2.1.2.2.2⟩

/-! ## factorize reads a cell that it has not written -/

/-- Whatever `factors[0]` holds, the factors after the substitution step are those of
`rebalance`. -/
theorem rebalanceAt_fst (f0 : ℕ) (fs : List ℕ) : (rebalanceAt f0 fs).1 = rebalance fs := by
  cases fs with
  | nil =>
    unfold rebalanceAt rebalance
    split <;> rfl
  | cons f rest =>
    by_cases h2 : f = 2
    · subst h2
      cases hs : substEight rest <;> simp [rebalanceAt, factorsTop, rebalance, hs]
    · have e : rebalance (f :: rest) = f :: rest := by
        unfold rebalance
        split
        · rename_i fs1 heq
          injection heq with h1 _
          exact absurd h1 h2
        · rfl
      rw [e]
      simp [rebalanceAt, factorsTop, h2]

/-- C17 fails at N = 7 (admissible: its only prime factor is 7): none of the radices
10, 8, 5, 4, 3, 2 divides 7, so the preferred-radix pass of `factorize` ends with
j = 0 and no cell of `factors` written, and `if (factors[j] == 2)` reads
`factors[0]`, which no statement of `factorize` writes: whether the body of the `if`
is entered depends on the value found there (entered for 2, not entered for 0).  The
factors returned do not depend on it, and two calls of `fft` with N = 7 and the same
input leave the same y[0..6] whatever the static and the output arrays held. -/
theorem factorize_reads_unwritten_cell :
    (∀ p : ℕ, p.Prime → p ∣ 7 → p ≤ 37) ∧
    (radixLoop (7 + 6) 7 6 (if 7 = 1 then [1] else [])).2 = [] ∧
    (∀ f0 : ℕ, factorsTop f0 (radixLoop (7 + 6) 7 6 (if 7 = 1 then [1] else [])).2 = f0) ∧
    (rebalanceAt 2 (radixLoop (7 + 6) 7 6 (if 7 = 1 then [1] else [])).2).2 = true ∧
    (rebalanceAt 0 (radixLoop (7 + 6) 7 6 (if 7 = 1 then [1] else [])).2).2 = false ∧
    (∀ f0 : ℕ, (rebalanceAt f0 (radixLoop (7 + 6) 7 6 (if 7 = 1 then [1] else [])).2).1
      = rebalance (radixLoop (7 + 6) 7 6 (if 7 = 1 then [1] else [])).2) ∧
    factorize 7 = [7] ∧
    ∀ (x : CArr) (s s2 : Work) (count count2 : ℕ → ℕ),
      ∃ w w2, fft 7 x s count = some w ∧ fft 7 x s2 count2 = some w2 ∧
        ∀ k, k < 7 → w.y.re k = w2.y.re k ∧ w.y.im k = w2.y.im k := by
  have e : (radixLoop (7 + 6) 7 6 (if 7 = 1 then [1] else [])).2 = [] := by decide
  have hadm : ∀ p : ℕ, p.Prime → p ∣ 7 → p ≤ 37 := fun p _ hd =>
    le_trans (Nat.le_of_dvd (by norm_num) hd) (by norm_num)
  refine ⟨hadm, e, ?_, ?_, ?_, fun f0 => rebalanceAt_fst f0 _, by decide, ?_⟩
  · intro f0; rw [e]; rfl
  · rw [e]; decide
  · rw [e]; decide
  · intro x s s2 count count2
    exact fft_independent_of_state 7 (by norm_num) hadm x x (fun _ _ => ⟨rfl, rfl⟩)
      s s2 count count2

end FFT
